import Mathlib

/-!
# Widget tree of the modeler-3d GUI toolkit

Shallow embedding of `Include/GUI/Widget.h`.

* A widget object is a record of its data members; widget pointers are values of an
  arbitrary identity type `ι` with decidable equality, and the program state is the
  heap `ι → Widget ι`.  `nullptr` is `none`.
* Coordinates (`float32`/`float64` in the source) are rationals: the arithmetic of
  the embedding is exact.  `InBounds` is embedded a second time, as `InBounds32`, over
  the values of binary32 (`F32`: finite values, infinities, NaN) with rounding to
  nearest, for the statement of its result on every `float32` point.
* Undefined behaviour of the source (an `insert` position past the end, `GetChild`
  past the end, reading a local that was never written, following a null pointer)
  makes the embedded operation return `none`.
* Child counts, descendant counts and indices (`uint32` in the source) are natural
  numbers: a tree is taken to hold fewer than `2^32` widgets, so that nothing wraps.
* The recursive traversals and the `Focus` loop take a fuel argument; `none` is also
  returned when the fuel runs out.
* The virtual hooks `OnMouseButton`, `OnDraw`, `OnUpdate` are recorded as events of a
  trace, and so are the renderer commands and the entries of `MouseButton`; the hooks
  of the base class have an empty body and do not change the widget tree.
-/

set_option linter.unusedSectionVars false

namespace Gui

/-- Data members of `class Widget` (Widget.h lines 298-301). -/
structure Widget (ι : Type) where
  mX : ℚ
  mY : ℚ
  mWidth : ℚ
  mHeight : ℚ
  mHAlign : ℚ
  mVAlign : ℚ
  mParent : Option ι
  mChildren : List ι
deriving DecidableEq

/-- The heap of widget objects, addressed by widget identity. -/
abbrev State (ι : Type) := ι → Widget ι

section Operations

variable {ι : Type} [DecidableEq ι]

/-- Embedding of `Widget::GetParent` (line 250). -/
def GetParent (s : State ι) (self : ι) : Option ι := (s self).mParent

/-- Embedding of `Widget::GetChild` (line 251): `mChildren[i]`, undefined past the end. -/
def GetChild (s : State ι) (self : ι) (i : Nat) : Option ι := (s self).mChildren[i]?

/-- Embedding of `Widget::GetChildCount` (line 252). -/
def GetChildCount (s : State ι) (self : ι) : Nat := (s self).mChildren.length

/-- Embedding of `Widget::SetParent` (lines 275-278). -/
def SetParent (s : State ι) (self : ι) (parent : Option ι) : State ι :=
  Function.update s self { s self with mParent := parent }

/-- Embedding of `Widget::RemoveChild` (lines 172-177): nothing happens unless `w->mParent == this`;
otherwise `w->mParent` is cleared and `std::remove` + `erase` drop every entry of
`mChildren` that compares equal to the pointer `w`. -/
def RemoveChild (s : State ι) (self w : ι) : State ι :=
  if (s w).mParent ≠ some self then s
  else
    let s1 := Function.update s w { s w with mParent := none }
    Function.update s1 self
      { s1 self with mChildren := (s1 self).mChildren.filter (fun c => decide (c ≠ w)) }

/-- Embedding of `Widget::AddChild(Widget* w, uint32 index)` (lines 155-165): detach `w` from its
current parent, if any, insert it at `mChildren.begin() + index` and set its parent.
`std::vector::insert` past the end is undefined: `none`. -/
def AddChild (s : State ι) (self w : ι) (index : Nat) : Option (State ι) :=
  let s1 :=
    match GetParent s w with
    | some parent => RemoveChild s parent w
    | none => s
  if index ≤ (s1 self).mChildren.length then
    let s2 := Function.update s1 self
      { s1 self with mChildren := (s1 self).mChildren.insertIdx index w }
    some (SetParent s2 w (some self))
  else none

/-- Embedding of `Widget::AddChild(Widget* w)` (lines 144-147): `AddChild(w, GetChildCount())`, the
count being read before the call. -/
def AddChildLast (s : State ι) (self w : ι) : Option (State ι) :=
  AddChild s self w (GetChildCount s self)

/-- Embedding of `Widget::Focus` (lines 129-137): while the current widget has a parent, the parent
re-adds it at index 0 and the walk moves to the widget's parent as read after the call. -/
def Focus : Nat → State ι → ι → Option (State ι)
  | 0, _, _ => none
  | fuel + 1, s, w =>
    match GetParent s w with
    | none => some s
    | some p =>
      match AddChild s p w 0 with
      | none => none
      | some s1 =>
        match GetParent s1 w with
        | none => none
        | some w1 => Focus fuel s1 w1

/-- Embedding of `Widget::Focus` (lines 129-137) once more, with the calls
`w->GetParent()->AddChild(w, 0)` of the loop recorded in order, each as the pair of the
parent the call is made on and the widget `w` passed to it: the list has one entry per
iteration of the loop. -/
def FocusCalls : Nat → State ι → ι → Option (State ι × List (ι × ι))
  | 0, _, _ => none
  | fuel + 1, s, w =>
    match GetParent s w with
    | none => some (s, [])
    | some p =>
      match AddChild s p w 0 with
      | none => none
      | some s1 =>
        match GetParent s1 w with
        | none => none
        | some w1 =>
          match FocusCalls fuel s1 w1 with
          | none => none
          | some (s2, calls) => some (s2, (p, w) :: calls)

/-- Embedding of `Widget::ComputePosition(float32& x, float32& y)` (lines 280-296).  The two reference
arguments are passed as one optional pair, `none` standing for locals that were never
written; a widget without parent returns without writing them. -/
def ComputePosition (s : State ι) (self : ι) (xy : Option (ℚ × ℚ)) : Option (ℚ × ℚ) :=
  match (s self).mParent with
  | none => xy
  | some parent =>
    let x1 := (s parent).mX + (s self).mHAlign * ((s parent).mWidth - (s parent).mX)
    let y1 := (s parent).mY + (s self).mVAlign * ((s parent).mHeight - (s parent).mY)
    let amtX : ℚ := if (s self).mHAlign ≤ 1 / 2 then 0 else 1
    let amtY : ℚ := if (s self).mVAlign ≤ 1 / 2 then 0 else 1
    let x2 := amtX * ((s self).mWidth + (s self).mX * 2)
    let y2 := amtY * ((s self).mHeight + (s self).mY * 2)
    some (x1 - x2, y1 - y2)

/-- Embedding of `Widget::InBounds` (lines 231-242). -/
def InBounds (s : State ι) (self : ι) (x y : ℚ) : Bool :=
  let x := x - (s self).mX
  let y := y - (s self).mY
  if x < 0 ∨ x ≥ (s self).mWidth then false
  else if y < 0 ∨ y ≥ (s self).mHeight then false
  else true

/-- Events of a pointer dispatch: an entry of `Widget::MouseButton` on a widget, and an
invocation of the virtual hook `OnMouseButton` of a widget, each with its arguments. -/
inductive MouseEvent (ι : Type) where
  | mouseButton (w : ι) (x y : ℚ) (button : Int) (down : Bool)
  | onMouseButton (w : ι) (x y : ℚ) (button : Int) (down : Bool)
deriving DecidableEq

/-- The widget an event happens on. -/
def MouseEvent.widget : MouseEvent ι → ι
  | .mouseButton w _ _ _ _ => w
  | .onMouseButton w _ _ _ _ => w

/-- Whether the event is an invocation of the click hook. -/
def MouseEvent.isClick : MouseEvent ι → Bool
  | .mouseButton _ _ _ _ _ => false
  | .onMouseButton _ _ _ _ _ => true

/-- The `for` loop of `Widget::MouseButton` (lines 51-56) over the values of `i` still to
come, `pxy` being the locals `px, py`.  The result is `(true, _)` when the loop body
executed `return true`, and `(false, _)` when the loop ran to its end. -/
def mouseButtonLoop (s : State ι) (self : ι) (x y : ℚ)
    (recur : ι → ℚ → ℚ → Option (Bool × List (MouseEvent ι))) :
    List Nat → Option (ℚ × ℚ) → Option (Bool × List (MouseEvent ι))
  | [], _ => some (false, [])
  | i :: rest, pxy =>
    match GetChild s self i with
    | none => none
    | some c =>
      match ComputePosition s c pxy with
      | none => none
      | some (px, py) =>
        match recur c (x - px) (y - py) with
        | none => none
        | some (true, tr) => some (true, tr)
        | some (false, tr) =>
          match mouseButtonLoop s self x y recur rest (some (px, py)) with
          | none => none
          | some (b, tr1) => some (b, tr ++ tr1)

/-- Embedding of `Widget::MouseButton` (lines 48-60): the result is the returned `bool` together with
the events of the call in the order they happen. -/
def MouseButton (s : State ι) :
    Nat → ι → ℚ → ℚ → Int → Bool → Option (Bool × List (MouseEvent ι))
  | 0, _, _, _, _, _ => none
  | fuel + 1, self, x, y, button, down =>
    match mouseButtonLoop s self x y (fun c cx cy => MouseButton s fuel c cx cy button down)
        (List.range (s self).mChildren.length) none with
    | none => none
    | some (true, tr) => some (true, MouseEvent.mouseButton self x y button down :: tr)
    | some (false, tr) =>
      let bounds := InBounds s self x y
      some (bounds, MouseEvent.mouseButton self x y button down :: tr ++
        (if bounds then [MouseEvent.onMouseButton self x y button down] else []))

/-- Commands of a draw traversal: an invocation of the virtual hook `OnDraw` of a widget
and a call of `GuiRenderer::Translate`. -/
inductive DrawCmd (ι : Type) where
  | onDraw (w : ι)
  | translate (dx dy : ℚ)
deriving DecidableEq

/-- The `for` loop of `Widget::Draw` (lines 106-115) over the values of `i` still to
come, `xy` being the locals `x, y`. -/
def drawLoop (s : State ι) (self : ι) (recur : ι → Option (List (DrawCmd ι))) :
    List Nat → Option (ℚ × ℚ) → Option (List (DrawCmd ι))
  | [], _ => some []
  | i :: rest, xy =>
    match GetChild s self (GetChildCount s self - i - 1) with
    | none => none
    | some c =>
      match ComputePosition s c xy with
      | none => none
      | some (x, y) =>
        match recur c with
        | none => none
        | some tr =>
          match drawLoop s self recur rest (some (x, y)) with
          | none => none
          | some tr1 =>
            some (DrawCmd.translate x y :: tr ++ DrawCmd.translate (-x) (-y) :: tr1)

/-- Embedding of `Widget::Draw` (lines 98-116): the hook and renderer commands in the order they are
issued. -/
def Draw (s : State ι) : Nat → ι → Option (List (DrawCmd ι))
  | 0, _ => none
  | fuel + 1, self =>
    match drawLoop s self (fun c => Draw s fuel c) (List.range (GetChildCount s self)) none with
    | none => none
    | some tr => some (DrawCmd.onDraw self :: tr)

/-- The renderer origin after a list of commands, `GuiRenderer::Translate` adding its
arguments to the origin. -/
def originAfter (o : ℚ × ℚ) : List (DrawCmd ι) → ℚ × ℚ
  | [] => o
  | DrawCmd.onDraw _ :: tr => originAfter o tr
  | DrawCmd.translate dx dy :: tr => originAfter (o.1 + dx, o.2 + dy) tr

/-- The sum of the arguments of all `Translate` commands of a list. -/
def translateSum : List (DrawCmd ι) → ℚ × ℚ
  | [] => (0, 0)
  | DrawCmd.onDraw _ :: tr => translateSum tr
  | DrawCmd.translate dx dy :: tr => (dx + (translateSum tr).1, dy + (translateSum tr).2)

/-- The `for` loop of `Widget::Update` (lines 81-84) over the values of `i` still to
come. -/
def updateLoop (s : State ι) (self : ι) (recur : ι → Option (List (ι × ℚ))) :
    List Nat → Option (List (ι × ℚ))
  | [] => some []
  | i :: rest =>
    match GetChild s self i with
    | none => none
    | some c =>
      match recur c with
      | none => none
      | some tr =>
        match updateLoop s self recur rest with
        | none => none
        | some tr1 => some (tr ++ tr1)

/-- Embedding of `Widget::Update` (lines 77-85): the invocations of the virtual hook
`OnUpdate`, each recorded as the widget it is invoked on and the `dt` it receives, in the
order they happen. -/
def Update (s : State ι) : Nat → ι → ℚ → Option (List (ι × ℚ))
  | 0, _, _ => none
  | fuel + 1, self, dt =>
    match updateLoop s self (fun c => Update s fuel c dt)
        (List.range (GetChildCount s self)) with
    | none => none
    | some tr => some ((self, dt) :: tr)

/-- The `for` loop of `Widget::GetDescendantCount` (lines 262-265) over the values of
`i` still to come, `count` being the local of that name. -/
def getDescendantCountLoop (s : State ι) (self : ι) (recur : ι → Option Nat) :
    List Nat → Nat → Option Nat
  | [], count => some count
  | i :: rest, count =>
    match GetChild s self i with
    | none => none
    | some c =>
      match recur c with
      | none => none
      | some n => getDescendantCountLoop s self recur rest (count + n)

/-- Embedding of `Widget::GetDescendantCount` (lines 259-267). -/
def GetDescendantCount (s : State ι) : Nat → ι → Option Nat
  | 0, _ => none
  | fuel + 1, self =>
    getDescendantCountLoop s self (fun c => GetDescendantCount s fuel c)
      (List.range (GetChildCount s self)) (GetChildCount s self)

end Operations

section Predicates

variable {ι : Type} [DecidableEq ι]

/-- Ownership uniqueness: a widget whose parent is `p` occurs exactly once in the child
list of `p` and in no other child list; a parentless widget occurs in no child list. -/
def WellFormed (s : State ι) : Prop :=
  (∀ w p, (s w).mParent = some p →
      (s p).mChildren.count w = 1 ∧ ∀ q, q ≠ p → w ∉ (s q).mChildren) ∧
  (∀ w, (s w).mParent = none → ∀ q, w ∉ (s q).mChildren)

instance instDecidableWellFormed [Fintype ι] (s : State ι) : Decidable (WellFormed s) := by
  unfold WellFormed
  infer_instance

/-- The parent link as a relation: `IsParentOf s w p` when `w->mParent == p`. -/
def IsParentOf (s : State ι) (w p : ι) : Prop := (s w).mParent = some p

/-- Proper ancestor: `a` is reachable from `w` by at least one parent link. -/
def IsAncestor (s : State ι) (a w : ι) : Prop := Relation.TransGen (IsParentOf s) w a

/-- Path to the root: `v` lies on the path from `w` to the root, `v` is `w` or an ancestor of `w`. -/
def OnPathToRoot (s : State ι) (w v : ι) : Prop := Relation.ReflTransGen (IsParentOf s) w v

/-- A depth certificate: every parent link strictly decreases `d`, so every parent chain
is finite and there is no cycle. -/
def DepthBound (s : State ι) (d : ι → Nat) : Prop :=
  ∀ w p, (s w).mParent = some p → d p < d w

/-- A height certificate: every entry of a child list has a strictly smaller `h`, so the
child lists span a tree of finite height. -/
def HeightBound (s : State ι) (h : ι → Nat) : Prop :=
  ∀ w c, c ∈ (s w).mChildren → h c < h w

instance instDecidableDepthBound [Fintype ι] (s : State ι) (d : ι → Nat) :
    Decidable (DepthBound s d) := by
  unfold DepthBound
  infer_instance

instance instDecidableHeightBound [Fintype ι] (s : State ι) (h : ι → Nat) :
    Decidable (HeightBound s h) := by
  unfold HeightBound
  infer_instance

/-- The child list of `q` once `w` has been detached from its current parent: the list
of the parent loses every entry equal to `w`, every other list is untouched. -/
def detachedChildren (s : State ι) (w q : ι) : List ι :=
  if (s w).mParent = some q then (s q).mChildren.filter (fun c => decide (c ≠ w))
  else (s q).mChildren

/-- The state in which `w` has been moved to the front of the child list of `p`: every
entry equal to `w` is dropped from the list and `w` is put at index 0. -/
def moveToFront (s : State ι) (p w : ι) : State ι := fun x =>
  { s x with
    mChildren :=
      if x = p then w :: (s x).mChildren.filter (fun c => decide (c ≠ w))
      else (s x).mChildren }

/-- Subtree membership: `v` belongs to the subtree of `r`, it is reachable from `r` through child lists. -/
def InSubtree (s : State ι) (r v : ι) : Prop :=
  Relation.ReflTransGen (fun a c => c ∈ (s a).mChildren) r v

/-- The offset `ComputePosition` writes for `c` into fresh locals (`(0, 0)` stands in
when nothing is written, which is the case of a widget without parent only). -/
def childOffset (s : State ι) (c : ι) : ℚ × ℚ := (ComputePosition s c none).getD (0, 0)

/-- The loop of `MouseButton` read over the child list itself, `call c` being the
recursive call on child `c` with the point translated by the offset of `c`: the children
are tried in order, the first one that returns `true` ends the loop. -/
def dispatchChildren (call : ι → Option (Bool × List (MouseEvent ι))) :
    List ι → Option (Bool × List (MouseEvent ι))
  | [] => some (false, [])
  | c :: rest =>
    match call c with
    | none => none
    | some (true, tr) => some (true, tr)
    | some (false, tr) =>
      match dispatchChildren call rest with
      | none => none
      | some (b, tr1) => some (b, tr ++ tr1)

/-- The recursive call `MouseButton` makes on its child `c`. -/
def callChild (s : State ι) (fuel : Nat) (x y : ℚ) (button : Int) (down : Bool) (c : ι) :
    Option (Bool × List (MouseEvent ι)) :=
  MouseButton s fuel c (x - (childOffset s c).1) (y - (childOffset s c).2) button down

/-- The loop of `Draw` read over a list of children in the order they are visited. -/
def drawChildren (s : State ι) (recur : ι → Option (List (DrawCmd ι))) :
    List ι → Option (List (DrawCmd ι))
  | [] => some []
  | c :: rest =>
    match recur c with
    | none => none
    | some tr =>
      match drawChildren s recur rest with
      | none => none
      | some tr1 =>
        some (DrawCmd.translate (childOffset s c).1 (childOffset s c).2 :: tr ++
          DrawCmd.translate (-(childOffset s c).1) (-(childOffset s c).2) :: tr1)

/-- Well-bracketed command lists: every `Translate(dx, dy)` is matched, after a
well-bracketed stretch, by `Translate(-dx, -dy)` with the same `dx` and `dy`. -/
inductive Paired : List (DrawCmd ι) → Prop where
  | nil : Paired []
  | onDraw (w : ι) (tr : List (DrawCmd ι)) : Paired tr → Paired (DrawCmd.onDraw w :: tr)
  | translate (dx dy : ℚ) (inner rest : List (DrawCmd ι)) :
      Paired inner → Paired rest →
      Paired (DrawCmd.translate dx dy :: inner ++ DrawCmd.translate (-dx) (-dy) :: rest)

/-- States the program can reach: all widgets start parentless and childless (the
constructor, lines 28-36); `AddChild`, `RemoveChild` and `Focus` are the only operations
that write `mParent` or `mChildren`, the setters writing geometry only. -/
inductive Reachable : State ι → Prop where
  | init (s : State ι) : (∀ x, (s x).mParent = none ∧ (s x).mChildren = []) → Reachable s
  | addChild (s s1 : State ι) (p w : ι) (index : Nat) :
      Reachable s → AddChild s p w index = some s1 → Reachable s1
  | removeChild (s : State ι) (p w : ι) : Reachable s → Reachable (RemoveChild s p w)
  | focus (s s1 : State ι) (w : ι) (fuel : Nat) :
      Reachable s → Focus fuel s w = some s1 → Reachable s1
  | setGeometry (s s1 : State ι) :
      Reachable s →
      (∀ x, (s1 x).mParent = (s x).mParent ∧ (s1 x).mChildren = (s x).mChildren) →
      Reachable s1

/-- The loop of `Update` read over the child list itself. -/
def updateChildren (recur : ι → Option (List (ι × ℚ))) : List ι → Option (List (ι × ℚ))
  | [] => some []
  | c :: rest =>
    match recur c with
    | none => none
    | some tr =>
      match updateChildren recur rest with
      | none => none
      | some tr1 => some (tr ++ tr1)

/-- The loop of `GetDescendantCount` read over the child list itself. -/
def countChildren (recur : ι → Option Nat) : List ι → Nat → Option Nat
  | [], count => some count
  | c :: rest, count =>
    match recur c with
    | none => none
    | some n => countChildren recur rest (count + n)

/-- The proper ancestors of `w`, nearest first, as far as `fuel` parent links reach. -/
def parentChain (s : State ι) : Nat → ι → List ι
  | 0, _ => []
  | fuel + 1, w =>
    match (s w).mParent with
    | none => []
    | some p => p :: parentChain s fuel p

/-- The coordinates an event carries. -/
def MouseEvent.point : MouseEvent ι → ℚ × ℚ
  | .mouseButton _ x y _ _ => (x, y)
  | .onMouseButton _ x y _ _ => (x, y)

/-- The button and the `down` flag an event carries. -/
def MouseEvent.buttonDown : MouseEvent ι → Int × Bool
  | .mouseButton _ _ _ button down => (button, down)
  | .onMouseButton _ _ _ button down => (button, down)

/-- The point a widget is entered with when `w.MouseButton(x, y, ...)` dispatches down to
it: `w` itself is entered with `(x, y)`, and a child `c` of a widget entered with
`(x1, y1)` is entered with `(x1 - px, y1 - py)`, `(px, py)` being the offset
`ComputePosition` gives for `c` (line 54). -/
inductive EnteredAt (s : State ι) (w : ι) (x y : ℚ) : ι → ℚ → ℚ → Prop where
  | top : EnteredAt s w x y w x y
  | child {p c : ι} {x1 y1 : ℚ} : EnteredAt s w x y p x1 y1 → c ∈ (s p).mChildren →
      EnteredAt s w x y c (x1 - (childOffset s c).1) (y1 - (childOffset s c).2)

/-- The first test of `Widget::InBounds` (line 238), after `x = x - GetX()`: the value
is `true` when `if (x < 0 || x >= GetWidth()) return false;` does not return. -/
def xInRange (s : State ι) (self : ι) (x : ℚ) : Bool :=
  let x := x - (s self).mX
  if x < 0 ∨ x ≥ (s self).mWidth then false else true

/-- The second test of `Widget::InBounds` (line 239), after `y = y - GetY()`: the value
is `true` when `if (y < 0 || y >= GetHeight()) return false;` does not return. -/
def yInRange (s : State ι) (self : ι) (y : ℚ) : Bool :=
  let y := y - (s self).mY
  if y < 0 ∨ y ≥ (s self).mHeight then false else true

end Predicates

section Scenarios

/-- A widget with the given geometry, parent and children. -/
def mkWidget {ι : Type} (x y width height hAlign vAlign : ℚ) (parent : Option ι)
    (children : List ι) : Widget ι :=
  { mX := x, mY := y, mWidth := width, mHeight := height, mHAlign := hAlign,
    mVAlign := vAlign, mParent := parent, mChildren := children }

/-- The scenario of the specification: `root(0,0,100,100)` is widget `0`, its only child
`A(10,10,20,20)`, aligned `(0,0)`, is widget `1`. -/
def rootWithA : State (Fin 2) := fun i =>
  if i = 0 then mkWidget 0 0 100 100 0 0 none [1]
  else mkWidget 10 10 20 20 0 0 (some 0) []

/-- The tree of the specification's descendant-count example: `root` (widget `0`) has the
child `A` (`1`), `A` has the children `B` (`2`) and `C` (`3`), and `B` has the child
`D` (`4`). -/
def sampleTree : State (Fin 5) := fun i =>
  if i = 0 then mkWidget 0 0 100 100 0 0 none [1]
  else if i = 1 then mkWidget 0 0 80 80 0 0 (some 0) [2, 3]
  else if i = 2 then mkWidget 5 5 30 30 0 0 (some 1) [4]
  else if i = 3 then mkWidget 40 5 30 30 0 0 (some 1) []
  else mkWidget 1 1 10 10 0 0 (some 2) []

/-- Depth of the widgets of `sampleTree`. -/
def sampleDepth : Fin 5 → Nat := fun i =>
  if i = 0 then 0 else if i = 1 then 1 else if i = 2 then 2 else if i = 3 then 2 else 3

/-- Height of the widgets of `sampleTree`. -/
def sampleHeight : Fin 5 → Nat := fun i =>
  if i = 0 then 3 else if i = 1 then 2 else if i = 2 then 1 else 0

/-- Two overlapping siblings: the parent `P(0,0,100,100)` is widget `0`, its children
are `S1(10,10,20,20)` (widget `1`) and `S2(15,15,20,20)` (widget `2`), in this order. -/
def overlapping : State (Fin 3) := fun i =>
  if i = 0 then mkWidget 0 0 100 100 0 0 none [1, 2]
  else if i = 1 then mkWidget 10 10 20 20 0 0 (some 0) []
  else mkWidget 15 15 20 20 0 0 (some 0) []

/-- Height of the widgets of a tree whose root is widget `0` and whose other widgets are
children of the root. -/
def rootHeight {n : Nat} : Fin n → Nat := fun i => if i.val = 0 then 1 else 0

/-- The container scenario of the specification: the container `(0,0,800,600)` is
widget `0`; the buttons `Load` (widget `1`, bottom-left aligned) and `Zoom` (widget `2`,
bottom-right aligned), both `(10,10,80,40)`, were added in the order `[Load, Zoom]`. -/
def loadZoom : State (Fin 3) := fun i =>
  if i = 0 then mkWidget 0 0 800 600 0 0 none [1, 2]
  else if i = 1 then mkWidget 10 10 80 40 0 1 (some 0) []
  else mkWidget 10 10 80 40 1 1 (some 0) []

/-- Depth of the widgets of a tree whose root is widget `0` and whose other widgets are
children of the root. -/
def rootDepth {n : Nat} : Fin n → Nat := fun i => if i.val = 0 then 0 else 1

end Scenarios

section Float32

/-- A value of the type `float32` of the source, taken to be IEEE binary32: a finite
value, which is a rational number, an infinity, or a NaN.  The two zeros are one value;
no operation embedded here tells them apart. -/
inductive F32 where
  | finite (q : ℚ)
  | posInf
  | negInf
  | nan
deriving DecidableEq

/-- The power `2 ^ k` for an integer `k`. -/
def pow2 (k : Int) : ℚ :=
  if 0 ≤ k then ((2 ^ k.toNat : Nat) : ℚ) else 1 / ((2 ^ (-k).toNat : Nat) : ℚ)

/-- The number of binary digits of `n`, for `n ≤ fuel`. -/
def bitLength : Nat → Nat → Nat
  | 0, _ => 0
  | fuel + 1, n => if n = 0 then 0 else bitLength fuel (n / 2) + 1

/-- The binary exponent of a positive rational `a`: the integer `e` with
`2 ^ e ≤ a < 2 ^ (e + 1)`.  The difference `e0` of the digit counts of numerator and
denominator is `e` or `e + 1`. -/
def exponentOf (a : ℚ) : Int :=
  let e0 : Int := (bitLength a.num.toNat a.num.toNat : Int) - (bitLength a.den a.den : Int)
  if pow2 e0 ≤ a then e0 else e0 - 1

/-- Rounding of a rational to the nearest integer, a tie going to the even one. -/
def roundHalfEven (m : ℚ) : Int :=
  let f := Rat.floor m
  let frac := m - (f : ℚ)
  if frac < 1 / 2 then f
  else if 1 / 2 < frac then f + 1
  else if f % 2 = 0 then f
  else f + 1

/-- Rounding of an exact result to binary32 in the default mode, to nearest with ties to
even: 24 significant bits, exponents from `-126` (below it the values are spaced
`2 ^ (-149)` apart), and an infinity when the rounded magnitude reaches `2 ^ 128`. -/
def F32.round (q : ℚ) : F32 :=
  if q = 0 then F32.finite 0
  else
    let a := |q|
    let e := max (exponentOf a) (-126)
    let ulp := pow2 (e - 23)
    let v := (roundHalfEven (a / ulp) : ℚ) * ulp
    if pow2 128 ≤ v then (if 0 < q then F32.posInf else F32.negInf)
    else F32.finite (if 0 < q then v else -v)

/-- Embedding of the subtraction of two `float32` values: a NaN operand and the
difference of equal infinities give NaN, an infinity absorbs a finite operand, and the
exact difference of finite operands is rounded. -/
def F32.sub : F32 → F32 → F32
  | F32.nan, _ => F32.nan
  | _, F32.nan => F32.nan
  | F32.posInf, F32.posInf => F32.nan
  | F32.negInf, F32.negInf => F32.nan
  | F32.posInf, _ => F32.posInf
  | F32.negInf, _ => F32.negInf
  | F32.finite _, F32.posInf => F32.negInf
  | F32.finite _, F32.negInf => F32.posInf
  | F32.finite a, F32.finite b => F32.round (a - b)

/-- Embedding of `a < b` on `float32` values: false when an operand is NaN. -/
def F32.lt : F32 → F32 → Bool
  | F32.nan, _ => false
  | _, F32.nan => false
  | F32.finite a, F32.finite b => decide (a < b)
  | F32.finite _, F32.posInf => true
  | F32.finite _, F32.negInf => false
  | F32.negInf, F32.negInf => false
  | F32.negInf, _ => true
  | F32.posInf, _ => false

/-- Embedding of `a >= b` on `float32` values: false when an operand is NaN. -/
def F32.ge : F32 → F32 → Bool
  | F32.nan, _ => false
  | _, F32.nan => false
  | a, b => !F32.lt a b

/-- Embedding of `a <= b` on `float32` values: `b >= a`. -/
def F32.le (a b : F32) : Bool := F32.ge b a

/-- The data members `Widget::InBounds` reads, as `float32` values. -/
structure Widget32 where
  mX : F32
  mY : F32
  mWidth : F32
  mHeight : F32

/-- Embedding of `Widget::InBounds` (lines 231-242) over `float32`: the subtractions
round, and the comparisons are those of `float32`; the literal `0` is converted to
`float32`. -/
def InBounds32 (self : Widget32) (x y : F32) : Bool :=
  let x := F32.sub x self.mX
  let y := F32.sub y self.mY
  if F32.lt x (F32.finite 0) || F32.ge x self.mWidth then false
  else if F32.lt y (F32.finite 0) || F32.ge y self.mHeight then false
  else true

end Float32

end Gui

/-!
# Matrix4 of the math library

Shallow embedding of `Include/Math/Matrix4.h`.  A matrix is its array `mMatrix` of four
columns, `mMatrix i j` being `m[i][j]`, component `j` of column `i`.  The element type is
a parameter; `Vector3`, `Vector4` and `Matrix3` are declared in headers that are not among
the sources and are modelled after `Matrix4`.  A write through `operator[]` past the end
of an array is undefined and makes the embedded function return `none`.
`Inverse` is embedded a second time, as `InverseStore`, for what a run computes: there a
write past the nine entries of a `Matrix3` leaves the nine entries as they are.
-/

namespace Core

/-- Modelled from the spec: `Vector3<Type>` (declared in `Vector3.h`, which is not among
the sources) is taken to hold three components read and written by `operator[]`. -/
abbrev Vector3 (R : Type) := Fin 3 → R

/-- Modelled from the spec: `Vector4<Type>` (declared in `Vector4.h`, which is not among
the sources) is taken to hold four components read and written by `operator[]`. -/
abbrev Vector4 (R : Type) := Fin 4 → R

/-- Modelled from the spec: `Matrix3<Type>` (declared in `Matrix3.h`, which is not among
the sources) is taken to be built like `Matrix4`, an array `mMatrix` of three `Vector3`
columns. -/
@[ext] structure Matrix3 (R : Type) where
  mMatrix : Fin 3 → Vector3 R

/-- The data member of `struct Matrix4` (Matrix4.h line 26): four `Vector4` columns. -/
@[ext] structure Matrix4 (R : Type) where
  mMatrix : Fin 4 → Vector4 R

section MatrixOperations

variable {R : Type}

/-- Embedding of the constructor `Matrix4(const Type& s)` (lines 40-46), `Vector4(s)`
setting every component to `s`. -/
def Matrix4.splat (v : R) : Matrix4 R := ⟨fun _ _ => v⟩

/-- Modelled from the spec: the constructor `Matrix3(const Type& s)` of the absent
`Matrix3.h`, taken to fill the matrix with `s` as the one of `Matrix4` does. -/
def Matrix3.splat (v : R) : Matrix3 R := ⟨fun _ _ => v⟩

/-- Embedding of the constant `Matrix4::Identity` (line 259). -/
def Matrix4.Identity [Zero R] [One R] : Matrix4 R :=
  ⟨![![1, 0, 0, 0], ![0, 1, 0, 0], ![0, 0, 1, 0], ![0, 0, 0, 1]]⟩

/-- The assignment `m3[xx][yy] = v` on a `Matrix3`: undefined unless both indices are
below 3. -/
def Matrix3.write (m3 : Matrix3 R) (xx yy : Nat) (v : R) : Option (Matrix3 R) :=
  if h : xx < 3 ∧ yy < 3 then
    some ⟨Function.update m3.mMatrix ⟨xx, h.1⟩
      (Function.update (m3.mMatrix ⟨xx, h.1⟩) ⟨yy, h.2⟩ v)⟩
  else none

/-- The assignment `m[i][j] = v` on a `Matrix4`, for indices below 4. -/
def Matrix4.write (m : Matrix4 R) (i j : Fin 4) (v : R) : Matrix4 R :=
  ⟨Function.update m.mMatrix i (Function.update (m.mMatrix i) j v)⟩

/-- The values `0, 1, 2, 3` a loop variable of `for (int32 i = 0; i < 4; ++i)` takes. -/
def loopIndices : List (Fin 4) := [0, 1, 2, 3]

/-- Modelled from the spec: `Determinant(Matrix3<Type>&)` of the absent `Matrix3.h`, taken
to be the standard determinant of a three by three matrix. -/
def Determinant3 [CommRing R] (m : Matrix3 R) : R :=
  m.mMatrix 0 0 * (m.mMatrix 1 1 * m.mMatrix 2 2 - m.mMatrix 2 1 * m.mMatrix 1 2) -
  m.mMatrix 1 0 * (m.mMatrix 0 1 * m.mMatrix 2 2 - m.mMatrix 2 1 * m.mMatrix 0 2) +
  m.mMatrix 2 0 * (m.mMatrix 0 1 * m.mMatrix 1 2 - m.mMatrix 1 1 * m.mMatrix 0 2)

/-- Embedding of `Determinant(Matrix4<Type>&)` (lines 221-236); the determinant of
`Matrix3` it calls is the parameter `det3`. -/
def Determinant [CommRing R] (det3 : Matrix3 R → R) (m : Matrix4 R) : R :=
  let v1 : Vector3 R := ![m.mMatrix 0 1, m.mMatrix 0 2, m.mMatrix 0 3]
  let v2 : Vector3 R := ![m.mMatrix 1 1, m.mMatrix 1 2, m.mMatrix 1 3]
  let v3 : Vector3 R := ![m.mMatrix 2 1, m.mMatrix 2 2, m.mMatrix 2 3]
  let v4 : Vector3 R := ![m.mMatrix 3 1, m.mMatrix 3 2, m.mMatrix 3 3]
  let m1 : Matrix3 R := ⟨![v2, v3, v4]⟩
  let m2 : Matrix3 R := ⟨![v1, v3, v4]⟩
  let m3 : Matrix3 R := ⟨![v1, v2, v4]⟩
  let m4 : Matrix3 R := ⟨![v1, v2, v3]⟩
  m.mMatrix 0 0 * det3 m1 - m.mMatrix 1 0 * det3 m2 + m.mMatrix 2 0 * det3 m3 -
    m.mMatrix 3 0 * det3 m4

/-- The loop `for j` of `Transpose` (lines 213-216) over the values of `j` still to
come. -/
def transposeInner (m : Matrix4 R) (i : Fin 4) : List (Fin 4) → Matrix4 R → Matrix4 R
  | [], transpose => transpose
  | j :: js, transpose => transposeInner m i js (transpose.write i j (m.mMatrix j i))

/-- The loop `for i` of `Transpose` (lines 211-217) over the values of `i` still to
come. -/
def transposeOuter (m : Matrix4 R) : List (Fin 4) → Matrix4 R → Matrix4 R
  | [], transpose => transpose
  | i :: is, transpose => transposeOuter m is (transposeInner m i loopIndices transpose)

/-- Embedding of `Transpose(Matrix4<Type>&)` (lines 206-219). -/
def Transpose [Zero R] (m : Matrix4 R) : Matrix4 R :=
  transposeOuter m loopIndices (Matrix4.splat 0)

/-- Embedding of the default constructor `Matrix4()` (lines 33-39); `d` is the value the
default constructor of the absent `Vector4` gives to each column before the assignments
of the body. -/
def Matrix4.defaultCtor [Zero R] [One R] (d : Vector4 R) : Matrix4 R :=
  let m0 : Fin 4 → Vector4 R := fun _ => d
  let m1 := Function.update m0 0 ![1, 0, 0, 0]
  let m2 := Function.update m1 1 ![0, 1, 0, 0]
  let m3 := Function.update m2 2 ![0, 0, 1, 0]
  let m4 := Function.update m3 2 ![0, 0, 0, 1]
  ⟨m4⟩

/-- The index pairs `(xx, yy)` of the writes `m3[xx][yy] = ...` of the loop `for y` of
`Inverse` (lines 186-192), with the final value of `yy`. -/
def minorInnerWrites (j : Fin 4) (xx : Nat) : List (Fin 4) → Nat → List (Nat × Nat) × Nat
  | [], yy => ([], yy)
  | y :: ys, yy =>
    if y ≠ j then
      ((xx, yy) :: (minorInnerWrites j xx ys (yy + 1)).1,
        (minorInnerWrites j xx ys (yy + 1)).2)
    else minorInnerWrites j xx ys yy

/-- The index pairs `(xx, yy)` of all writes `m3[xx][yy] = ...` made while the minor for
`(i, j)` is built (lines 183-195), in the order they happen. -/
def minorOuterWrites (i j : Fin 4) : List (Fin 4) → Nat → List (Nat × Nat)
  | [], _ => []
  | x :: xs, xx =>
    (minorInnerWrites j xx loopIndices 0).1 ++
      minorOuterWrites i j xs (if x ≠ i then xx + 1 else xx)

/-- Embedding of `Matrix4::operator/=(const Type& s)` (lines 132-142). -/
def Matrix4.divScalar [Div R] (m : Matrix4 R) (s : R) : Matrix4 R :=
  ⟨fun i j => m.mMatrix i j / s⟩

/-- The loop `for y` of `Inverse` (lines 186-192) over the values of `y` still to come;
the state is `m3` and the local `yy`. -/
def minorInner (m : Matrix4 R) (j x : Fin 4) (xx : Nat) :
    List (Fin 4) → Matrix3 R × Nat → Option (Matrix3 R × Nat)
  | [], st => some st
  | y :: ys, (m3, yy) =>
    if y ≠ j then
      match m3.write xx yy (m.mMatrix x y) with
      | none => none
      | some m3a => minorInner m j x xx ys (m3a, yy + 1)
    else minorInner m j x xx ys (m3, yy)

/-- The loop `for x` of `Inverse` (lines 183-195) over the values of `x` still to come;
the state is `m3` and the local `xx`. -/
def minorOuter (m : Matrix4 R) (i j : Fin 4) :
    List (Fin 4) → Matrix3 R × Nat → Option (Matrix3 R × Nat)
  | [], st => some st
  | x :: xs, (m3, xx) =>
    match minorInner m j x xx loopIndices (m3, 0) with
    | none => none
    | some (m3a, _) => minorOuter m i j xs (m3a, if x ≠ i then xx + 1 else xx)

/-- The loop `for j` of `Inverse` (lines 179-197) over the values of `j` still to come,
`std::pow(-1, i + j)` being the exact power. -/
def cofactorColumn [CommRing R] (det3 : Matrix3 R → R) (m : Matrix4 R) (i : Fin 4) :
    List (Fin 4) → Matrix4 R → Option (Matrix4 R)
  | [], inverse => some inverse
  | j :: js, inverse =>
    match minorOuter m i j loopIndices (Matrix3.splat 0, 0) with
    | none => none
    | some (m3, _) =>
      cofactorColumn det3 m i js (inverse.write i j ((-1) ^ (i.val + j.val) * det3 m3))

/-- The loop `for i` of `Inverse` (lines 177-198) over the values of `i` still to
come. -/
def cofactors [CommRing R] (det3 : Matrix3 R → R) (m : Matrix4 R) :
    List (Fin 4) → Matrix4 R → Option (Matrix4 R)
  | [], inverse => some inverse
  | i :: is, inverse =>
    match cofactorColumn det3 m i loopIndices inverse with
    | none => none
    | some inverse1 => cofactors det3 m is inverse1

/-- Embedding of `Inverse(Matrix4<Type>)` (lines 165-204). -/
def Inverse [Field R] [DecidableEq R] (det3 : Matrix3 R → R) (m : Matrix4 R) :
    Option (Matrix4 R) :=
  let determinant := Determinant det3 m
  if determinant = 0 then some (Matrix4.splat 0)
  else
    match cofactors det3 m loopIndices (Matrix4.splat 0) with
    | none => none
    | some inverse => some ((Transpose inverse).divScalar determinant)

/-- The mathematical matrix a `Matrix3` stands for: row `r`, column `c` is `m[c][r]`. -/
def Matrix3.toMatrix (m : Matrix3 R) : Matrix (Fin 3) (Fin 3) R :=
  Matrix.of fun r c => m.mMatrix c r

/-- The mathematical matrix a `Matrix4` stands for: row `r`, column `c` is `m[c][r]`. -/
def Matrix4.toMatrix (m : Matrix4 R) : Matrix (Fin 4) (Fin 4) R :=
  Matrix.of fun r c => m.mMatrix c r

end MatrixOperations

end Core

/-!
# The OBJ loaders of FileIO

Shallow embedding of `Source/FileIO.cpp`.  The text of the file read through
`boost::filesystem::ifstream` is an argument of the loaders; a `double` is a rational
number, the value of the decimal numeral read (rounding to binary64 and its range are not
part of the embedding); an `int` is an integer kept in the range of 32 bits.  The class
`std::stringstream` belongs to the C++ library and is embedded by the three bits of state
the loaders depend on: the characters not yet extracted, `eofbit` and `failbit`.  A local
variable is an `Option`, `none` while it was never written; a loader returns `none` when
the source reads a variable never written or indexes a vector out of range, or when a
numeral with an exponent is met, which the embedded `operator>>` does not cover.  The
line printed to `std::cout` by `LoadObj` is not recorded.
-/

namespace ObjFile

/-- The four members of a `FileIO` object written by `LoadObj`; the four reference
arguments of `LoadObj2` are held in the same structure. -/
structure ObjData where
  mGeometricVertices : List (List ℚ)
  mTextureCoordinates : List (List ℚ)
  mNormalVertices : List (List ℚ)
  mFaceElements : List (List (List Int))
deriving DecidableEq

/-- Four empty vectors. -/
def ObjData.empty : ObjData := ⟨[], [], [], []⟩

/-- The state of a `std::stringstream` used for input. -/
structure IStream where
  rest : List Char
  eofbit : Bool
  failbit : Bool
deriving DecidableEq

/-- Embedding of the constructor `std::stringstream ss(str)`. -/
def IStream.ofString (str : List Char) : IStream := ⟨str, false, false⟩

/-- Embedding of `good()`: no state bit is set. -/
def IStream.good (ss : IStream) : Bool := !ss.eofbit && !ss.failbit

/-- Embedding of `std::isspace` in the classic locale: space, and the controls 9 to 13. -/
def isSpace (c : Char) : Bool := c.toNat == 32 || (decide (9 ≤ c.toNat) && decide (c.toNat ≤ 13))

/-- Embedding of `std::getline(File, FileLine)` called until it fails: the lines of the
text, a line ending at a line feed or at the end of the text; `acc` holds the characters
of the current line in reverse. -/
def getLines : List Char → List Char → List (List Char)
  | acc, [] => if acc.isEmpty then [] else [acc.reverse]
  | acc, c :: cs => if c = Char.ofNat 10 then acc.reverse :: getLines [] cs else getLines (c :: acc) cs

/-- The sentry of a formatted input function: a stream that is not `good()` gets
`failbit`; otherwise white space is skipped, and reaching the end sets `eofbit` and
`failbit`.  The boolean tells whether the extraction goes on. -/
def sentry (ss : IStream) : IStream × Bool :=
  if ss.good then
    let r := ss.rest.dropWhile isSpace
    if r.isEmpty then ({ rest := [], eofbit := true, failbit := true }, false)
    else ({ ss with rest := r }, true)
  else ({ ss with failbit := true }, false)

/-- Embedding of `ss >> c` for a `char` holding `v`: the next character that is not white
space is extracted; when the sentry fails the variable keeps its value. -/
def readChar (ss : IStream) (v : Option Char) : IStream × Option Char :=
  match sentry ss with
  | (ss1, false) => (ss1, v)
  | (ss1, true) =>
    match ss1.rest with
    | [] => (ss1, v)
    | c :: cs => ({ ss1 with rest := cs }, some c)

/-- Embedding of `ss.peek()`: the next character without extracting it, `none` standing
for `EOF`; a stream that is not `good()` gets `failbit`, the end of the characters sets
`eofbit`. -/
def peek (ss : IStream) : IStream × Option Char :=
  if ss.good then
    match ss.rest with
    | [] => ({ ss with eofbit := true }, none)
    | c :: _ => (ss, some c)
  else ({ ss with failbit := true }, none)

/-- The value of a run of decimal digits. -/
def natOfDigits (ds : List Char) : Nat := ds.foldl (fun n c => 10 * n + (c.toNat - 48)) 0

/-- An optional sign is taken off: the boolean tells whether it was a minus. -/
def takeSign : List Char → Bool × List Char
  | [] => (false, [])
  | c :: cs => if c = '-' then (true, cs) else if c = '+' then (false, cs) else (false, c :: cs)

/-- Embedding of `ss >> x` for a `double` holding `v`: after the sentry an optional sign,
digits, and an optional point followed by digits are extracted.  Without any digit the
value 0 is stored and `failbit` set; reaching the end of the characters sets `eofbit`.
The result is `none` when an exponent follows the digits. -/
def readDouble (ss : IStream) (v : Option ℚ) : Option (IStream × Option ℚ) :=
  match sentry ss with
  | (ss1, false) => some (ss1, v)
  | (ss1, true) =>
    let sr := takeSign ss1.rest
    let ip := sr.2.takeWhile Char.isDigit
    let r2 := sr.2.dropWhile Char.isDigit
    let fr : List Char × List Char :=
      match r2 with
      | [] => ([], [])
      | c :: cs =>
        if c = '.' then (cs.takeWhile Char.isDigit, cs.dropWhile Char.isDigit) else ([], c :: cs)
    let noDigit := ip.isEmpty && fr.1.isEmpty
    if !noDigit && (fr.2.head? = some 'e' || fr.2.head? = some 'E') then none
    else
      let ss2 : IStream := { rest := fr.2, eofbit := fr.2.isEmpty, failbit := noDigit }
      let q : ℚ := (natOfDigits ip : ℚ) + (natOfDigits fr.1 : ℚ) / ((10 ^ fr.1.length : Nat) : ℚ)
      some (ss2, some (if noDigit then 0 else if sr.1 then -q else q))

/-- Embedding of `ss >> n` for an `int` holding `v`: after the sentry an optional sign and
decimal digits are extracted.  Without any digit the value 0 is stored and `failbit` set;
a value out of the range of `int` is stored as the nearest bound with `failbit` set;
reaching the end of the characters sets `eofbit`. -/
def readInt (ss : IStream) (v : Option Int) : IStream × Option Int :=
  match sentry ss with
  | (ss1, false) => (ss1, v)
  | (ss1, true) =>
    let sr := takeSign ss1.rest
    let ds := sr.2.takeWhile Char.isDigit
    let r2 := sr.2.dropWhile Char.isDigit
    let n : Int := if sr.1 then -(natOfDigits ds : Int) else (natOfDigits ds : Int)
    let tooBig := decide (2147483647 < n)
    let tooSmall := decide (n < -2147483648)
    ({ rest := r2, eofbit := r2.isEmpty, failbit := ds.isEmpty || tooBig || tooSmall },
      some (if tooBig then 2147483647 else if tooSmall then -2147483648 else n))

/-- Embedding of the condition `ss.peek( ) != '/' || ss.peek( ) != ' '`, the second
`peek` being called when the first one gave `'/'`. -/
def peekNotSlashOrNotSpace (ss : IStream) : IStream × Bool :=
  let p1 := peek ss
  if p1.2 ≠ some '/' then (p1.1, true)
  else
    let p2 := peek p1.1
    (p2.1, decide (p2.2 ≠ some ' '))

/-- Embedding of `if( ss.peek( ) == '/' ) ss >> temp;`: the value of `temp` is never
read and is not kept. -/
def skipSlash (ss : IStream) : IStream :=
  let p := peek ss
  if p.2 = some '/' then (readChar p.1 none).1 else p.1

/-- Embedding of `ref[ ref.size( ) - 1 ].push_back( v )`, `none` when `ref` is empty. -/
def pushBackLast {α : Type} (ref : List (List α)) (v : α) : Option (List (List α)) :=
  match ref.getLast? with
  | none => none
  | some l => some (ref.dropLast ++ [l ++ [v]])

/-- Embedding of `ref[ ref.size( ) - 1 ][ i ].push_back( v )`, `none` when `ref` is empty
or its last element has no index `i`. -/
def pushBackLastAt (ref : List (List (List Int))) (i : Nat) (v : Int) :
    Option (List (List (List Int))) :=
  match ref.getLast? with
  | none => none
  | some f =>
    match f[i]? with
    | none => none
    | some l => some (ref.dropLast ++ [f.set i (l ++ [v])])

/-- Embedding of `FileIO::mParseGeometricVertex` (lines 23-38). -/
def mParseGeometricVertex (str : List Char) (refGeometricVertices : List (List ℚ)) :
    Option (List (List ℚ)) := do
  let ss := IStream.ofString str
  let (ss, _) := readChar ss none
  let (ss, _) := readChar ss none
  let (ss, x) ← readDouble ss none
  let (ss, y) ← readDouble ss none
  let (_, z) ← readDouble ss none
  let x ← x
  let y ← y
  let z ← z
  let r ← pushBackLast refGeometricVertices x
  let r ← pushBackLast r y
  pushBackLast r z

/-- Embedding of `FileIO::mParseTextureCoordinates` (lines 46-58). -/
def mParseTextureCoordinates (str : List Char) (refTextureCoordinates : List (List ℚ)) :
    Option (List (List ℚ)) := do
  let ss := IStream.ofString str
  let (ss, temp) := readChar ss none
  let (ss, _) := readChar ss temp
  let (ss, x) ← readDouble ss none
  let (_, y) ← readDouble ss none
  let x ← x
  let y ← y
  let r ← pushBackLast refTextureCoordinates x
  pushBackLast r y

/-- Embedding of `FileIO::mParseNormalVertex` (lines 66-82). -/
def mParseNormalVertex (str : List Char) (refNormalVertices : List (List ℚ)) :
    Option (List (List ℚ)) := do
  let ss := IStream.ofString str
  let (ss, _) := readChar ss none
  let (ss, _) := readChar ss none
  let (ss, x) ← readDouble ss none
  let (ss, y) ← readDouble ss none
  let (_, z) ← readDouble ss none
  let x ← x
  let y ← y
  let z ← z
  let r ← pushBackLast refNormalVertices x
  let r ← pushBackLast r y
  pushBackLast r z

/-- The `for` loop of `FileIO::mParseFaceElements` (lines 97-116) over the values of `i`
still to come; `v1`, `v2`, `v3` are declared before the loop and keep their values from
one iteration to the next. -/
def mParseFaceElementsLoop :
    List Nat → IStream → Option Int → Option Int → Option Int →
      List (List (List Int)) → Option (List (List (List Int)))
  | [], _, _, _, _, ref => some ref
  | i :: is, ss, v1, v2, v3, ref =>
    let r1 := readInt ss v1
    let ss := skipSlash r1.1
    let c2 := peekNotSlashOrNotSpace ss
    let r2 := if c2.2 then readInt c2.1 v2 else (c2.1, v2)
    let ss := skipSlash r2.1
    let c3 := peekNotSlashOrNotSpace ss
    let r3 := if c3.2 then readInt c3.1 v3 else (c3.1, v3)
    match r1.2, r2.2, r3.2 with
    | some a, some b, some c =>
      match pushBackLastAt ref i a with
      | none => none
      | some ref1 =>
        match pushBackLastAt ref1 i b with
        | none => none
        | some ref2 =>
          match pushBackLastAt ref2 i c with
          | none => none
          | some ref3 => mParseFaceElementsLoop is r3.1 r1.2 r2.2 r3.2 ref3
    | _, _, _ => none

/-- Embedding of `FileIO::mParseFaceElements` (lines 90-117). -/
def mParseFaceElements (str : List Char) (refFaceElements : List (List (List Int))) :
    Option (List (List (List Int))) :=
  let ss := IStream.ofString str
  let (ss, _) := readChar ss none
  mParseFaceElementsLoop [0, 1, 2] ss none none none refFaceElements

/-- The block of `FileIO::LoadObj` for a geometric vertex (lines 185-198). -/
def LoadObj.geometricVertex (FileLine : List Char) (self : ObjData) : Option ObjData := do
  let S := IStream.ofString FileLine
  let (S, _) := readChar S none
  let (S, X) ← readDouble S none
  let (S, Y) ← readDouble S none
  let (_, Z) ← readDouble S none
  let X ← X
  let Y ← Y
  let Z ← Z
  let GeometricVector := [X, Y, Z]
  some { self with mGeometricVertices := self.mGeometricVertices ++ [GeometricVector] }

/-- The block of `FileIO::LoadObj` for texture coordinates (lines 204-218). -/
def LoadObj.textureCoordinates (FileLine : List Char) (self : ObjData) : Option ObjData := do
  let S := IStream.ofString FileLine
  let (S, _) := readChar S none
  let (S, _) := readChar S none
  let (S, X) ← readDouble S none
  let (_, Y) ← readDouble S none
  let X ← X
  let Y ← Y
  let TextureVector := [X, Y]
  some { self with mTextureCoordinates := self.mTextureCoordinates ++ [TextureVector] }

/-- The block of `FileIO::LoadObj` for a normal vertex (lines 224-240). -/
def LoadObj.normalVertex (FileLine : List Char) (self : ObjData) : Option ObjData := do
  let S := IStream.ofString FileLine
  let (S, _) := readChar S none
  let (S, _) := readChar S none
  let (S, X) ← readDouble S none
  let (S, Y) ← readDouble S none
  let (_, Z) ← readDouble S none
  let X ← X
  let Y ← Y
  let Z ← Z
  let NormalVector := [X, Y, Z]
  some { self with mNormalVertices := self.mNormalVertices ++ [NormalVector] }

/-- One set of vertices in the face block of `FileIO::LoadObj` (lines 254-279, written
again at lines 283-308 and 312-337): the stream and the locals `V1`, `V2`, `V3` go in,
and come out with the `VerticeVector` built.  The `else` branches that push 0 belong to
the source; their condition never fails. -/
def LoadObj.vertexSet (S : IStream) (V1 V2 V3 : Option Int) :
    Option (IStream × Option Int × Option Int × Option Int × List Int) := do
  let r1 := readInt S V1
  let a ← r1.2
  let VerticeVector := [a]
  let S := skipSlash r1.1
  let c2 := peekNotSlashOrNotSpace S
  let (S, V2, VerticeVector) ←
    if c2.2 then
      let r2 := readInt c2.1 V2
      r2.2.map (fun b => (r2.1, r2.2, VerticeVector ++ [b]))
    else some (c2.1, V2, VerticeVector ++ [0])
  let S := skipSlash S
  let c3 := peekNotSlashOrNotSpace S
  let (S, V3, VerticeVector) ←
    if c3.2 then
      let r3 := readInt c3.1 V3
      r3.2.map (fun c => (r3.1, r3.2, VerticeVector ++ [c]))
    else some (c3.1, V3, VerticeVector ++ [0])
  some (S, r1.2, V2, V3, VerticeVector)

/-- The block of `FileIO::LoadObj` for face elements (lines 246-338). -/
def LoadObj.faceElements (FileLine : List Char) (self : ObjData) : Option ObjData := do
  let S := IStream.ofString FileLine
  let (S, _) := readChar S none
  let (S, V1, V2, V3, VerticeVector1) ← LoadObj.vertexSet S none none none
  let (S, V1, V2, V3, VerticeVector2) ← LoadObj.vertexSet S V1 V2 V3
  let (_, _, _, _, VerticeVector3) ← LoadObj.vertexSet S V1 V2 V3
  let FaceVector := [VerticeVector1, VerticeVector2, VerticeVector3]
  some { self with mFaceElements := self.mFaceElements ++ [FaceVector] }

/-- The body of the `while` loop of `FileIO::LoadObj` (lines 178-340) for one line. -/
def LoadObj.line (FileLine : List Char) (self : ObjData) : Option ObjData :=
  if FileLine.length > 2 then do
    let self ←
      if FileLine[0]? = some 'v' ∧ FileLine[1]? = some ' ' then
        LoadObj.geometricVertex FileLine self
      else some self
    let self ←
      if FileLine[0]? = some 'v' ∧ FileLine[1]? = some 't' then
        LoadObj.textureCoordinates FileLine self
      else some self
    let self ←
      if FileLine[0]? = some 'v' ∧ FileLine[1]? = some 'n' then
        LoadObj.normalVertex FileLine self
      else some self
    if FileLine[0]? = some 'f' ∧ FileLine[1]? = some ' ' then
      LoadObj.faceElements FileLine self
    else some self
  else some self

/-- The `while` loop of `FileIO::LoadObj` over the lines still to be read. -/
def LoadObj.loop : List (List Char) → ObjData → Option ObjData
  | [], self => some self
  | FileLine :: rest, self =>
    match LoadObj.line FileLine self with
    | none => none
    | some self1 => LoadObj.loop rest self1

/-- Embedding of `FileIO::LoadObj` (lines 170-342): `text` is the content of the file at
the path `p`, `self` holds the members of the object before the call. -/
def LoadObj (text : String) (self : ObjData) : Option ObjData :=
  LoadObj.loop (getLines [] text.toList) self

/-- The body of the `while` loop of `FileIO::LoadObj2` (lines 362-401) for one line. -/
def LoadObj2.line (fileLine : List Char) (refs : ObjData) : Option ObjData :=
  if fileLine.length > 2 then do
    let refs ←
      if fileLine[0]? = some 'v' ∧ fileLine[1]? = some ' ' then
        let geometricVertex : List ℚ := []
        (mParseGeometricVertex fileLine (refs.mGeometricVertices ++ [geometricVertex])).map
          (fun r => { refs with mGeometricVertices := r })
      else some refs
    let refs ←
      if fileLine[0]? = some 'v' ∧ fileLine[1]? = some 't' then
        let TextureCoordinate : List ℚ := []
        (mParseTextureCoordinates fileLine (refs.mTextureCoordinates ++ [TextureCoordinate])).map
          (fun r => { refs with mTextureCoordinates := r })
      else some refs
    let refs ←
      if fileLine[0]? = some 'v' ∧ fileLine[1]? = some 'n' then
        let NormalVertex : List ℚ := []
        (mParseNormalVertex fileLine (refs.mNormalVertices ++ [NormalVertex])).map
          (fun r => { refs with mNormalVertices := r })
      else some refs
    if fileLine[0]? = some 'f' ∧ fileLine[1]? = some ' ' then
      let vertexSet1 : List Int := []
      let vertexSet2 : List Int := []
      let vertexSet3 : List Int := []
      let faceVertices := [vertexSet1, vertexSet2, vertexSet3]
      (mParseFaceElements fileLine (refs.mFaceElements ++ [faceVertices])).map
        (fun r => { refs with mFaceElements := r })
    else some refs
  else some refs

/-- The `while` loop of `FileIO::LoadObj2` over the lines still to be read. -/
def LoadObj2.loop : List (List Char) → ObjData → Option ObjData
  | [], refs => some refs
  | fileLine :: rest, refs =>
    match LoadObj2.line fileLine refs with
    | none => none
    | some refs1 => LoadObj2.loop rest refs1

/-- Embedding of `FileIO::LoadObj2` (lines 353-403): `text` is the content of the file at
the path `p`, `refs` holds the four vectors passed by reference. -/
def LoadObj2 (text : String) (refs : ObjData) : Option ObjData :=
  LoadObj2.loop (getLines [] text.toList) refs

end ObjFile

/-!
# Modeler3D::LoadObj

Shallow embedding of `Modeler3D::LoadObj` of `Source/Modeler3D.cpp`: the vector
`vertices` the function builds from the file is its result; the release of the old
vertex buffer and the upload of the new one are calls into the graphics backend and are
not embedded.  Positions are exact rationals.  An access past the end of a vector is
undefined and makes the embedded function return `none`.
-/

namespace Modeler3D

/-- The `struct VertexPosition3Normal3` (lines 114-118); `Vector3f` is declared in a header
that is not among the sources and is taken to hold three components. -/
structure VertexPosition3Normal3 where
  Position : Core.Vector3 ℚ
  Normal : Core.Vector3 ℚ

/-- The values `0, 1, 2` of the loop variables `j` and `k`. -/
def cornerIndices : List (Fin 3) := [0, 1, 2]

/-- The loop `for k` (lines 160-163) over the values of `k` still to come, `P` being
`verts[j].Position`. -/
def positionLoop (pos : List ℚ) : List (Fin 3) → Core.Vector3 ℚ → Option (Core.Vector3 ℚ)
  | [], P => some P
  | k :: ks, P =>
    match pos[k.val]? with
    | none => none
    | some c => positionLoop pos ks (Function.update P k (c * 10))

/-- The loop `for j` (lines 157-164) over the values of `j` still to come, for the face
`faces[i]`.  The index `faces[i][0][j] - 1` is an `int`; a negative one is converted to
an index past every vector. -/
def cornerLoop (positions : List (List ℚ)) (face : List (List Int)) :
    List (Fin 3) → (Fin 3 → VertexPosition3Normal3) → Option (Fin 3 → VertexPosition3Normal3)
  | [], verts => some verts
  | j :: js, verts =>
    match face[0]? with
    | none => none
    | some set0 =>
      match set0[j.val]? with
      | none => none
      | some n =>
        if n - 1 < 0 then none
        else
          match positions[(n - 1).toNat]? with
          | none => none
          | some pos =>
            match positionLoop pos cornerIndices (verts j).Position with
            | none => none
            | some P =>
              cornerLoop positions face js
                (Function.update verts j { verts j with Position := P })

/-- The loop `for i` (lines 154-173) over the values of `i` still to come.  `Cross` and
`Normalize` are declared in `Math/VectorMath.h`, which is not among the sources, and are
parameters; `verts0` is the value of a default-constructed `VertexPosition3Normal3`, the
start value of every element of the array `verts`. -/
def faceLoop (Cross : Core.Vector3 ℚ → Core.Vector3 ℚ → Core.Vector3 ℚ)
    (Normalize : Core.Vector3 ℚ → Core.Vector3 ℚ) (verts0 : VertexPosition3Normal3)
    (positions : List (List ℚ)) (faces : List (List (List Int))) :
    List Nat → List VertexPosition3Normal3 → Option (List VertexPosition3Normal3)
  | [], vertices => some vertices
  | i :: is, vertices =>
    match faces[i]? with
    | none => none
    | some face =>
      match cornerLoop positions face cornerIndices (fun _ => verts0) with
      | none => none
      | some verts =>
        let normal := Cross (Normalize ((verts 1).Position - (verts 0).Position))
          (Normalize ((verts 2).Position - (verts 0).Position))
        let verts0N : VertexPosition3Normal3 := { verts 0 with Normal := normal }
        let verts1N : VertexPosition3Normal3 := { verts 1 with Normal := normal }
        let verts2N : VertexPosition3Normal3 := { verts 2 with Normal := normal }
        faceLoop Cross Normalize verts0 positions faces is
          (vertices ++ [verts0N, verts1N, verts2N])

/-- Embedding of `Modeler3D::LoadObj` (lines 137-178): `text` is the content of the file
named by `file`; the result is the vector `vertices`. -/
def LoadObj (Cross : Core.Vector3 ℚ → Core.Vector3 ℚ → Core.Vector3 ℚ)
    (Normalize : Core.Vector3 ℚ → Core.Vector3 ℚ) (verts0 : VertexPosition3Normal3)
    (text : String) : Option (List VertexPosition3Normal3) :=
  match ObjFile.LoadObj text ObjFile.ObjData.empty with
  | none => none
  | some objFile =>
    let positions := objFile.mGeometricVertices
    let faces := objFile.mFaceElements
    faceLoop Cross Normalize verts0 positions faces (List.range faces.length) []

/-- The three components of the position of each vertex. -/
def positionsOf (vertices : List VertexPosition3Normal3) : List (List ℚ) :=
  vertices.map (fun v => [v.Position 0, v.Position 1, v.Position 2])

/-- The position `P` is ten times the vertex `positions[face[0][j] - 1]`: the one-based
index used for corner `j` is entry `j` of the first vertex set of the face. -/
def IsCornerPosition (positions : List (List ℚ)) (face : List (List Int)) (j : Fin 3)
    (P : Core.Vector3 ℚ) : Prop :=
  ∃ set0 n pos, face[0]? = some set0 ∧ set0[j.val]? = some n ∧ 1 ≤ n ∧
    positions[(n - 1).toNat]? = some pos ∧
    ∀ k : Fin 3, pos[k.val]?.map (fun c => c * 10) = some (P k)

/-- An OBJ text whose face line holds plain vertex indices: the vertices `(1, 2, 3)`,
`(4, 5, 6)`, `(7, 8, 9)` and the face `f 1 2 3`. -/
def plainTriangle : String := "v 1 2 3\nv 4 5 6\nv 7 8 9\nf 1 2 3"

/-- An OBJ text whose face line holds `v/vt/vn` groups: the same three vertices, one
texture coordinate, one normal, and the face `f 1/1/1 2/1/1 3/1/1`. -/
def groupedTriangle : String :=
  "v 1 2 3\nv 4 5 6\nv 7 8 9\nvt 0 0\nvn 0 0 1\nf 1/1/1 2/1/1 3/1/1"

/-- An OBJ text with three vertices and four texture coordinates whose face refers to the
fourth texture coordinate: `f 1/4/1 2/4/1 3/4/1`.  Every geometric-vertex index of the
face is between 1 and 3. -/
def texturedTriangle : String :=
  "v 1 2 3\nv 4 5 6\nv 7 8 9\nvt 0 0\nvt 1 0\nvt 0 1\nvt 1 1\nvn 0 0 1\nf 1/4/1 2/4/1 3/4/1"

end Modeler3D

namespace Gui

section BasicLemmas

variable {ι : Type} [DecidableEq ι]

theorem RemoveChild_mParent (s : State ι) (p w x : ι) :
    (RemoveChild s p w x).mParent =
      if (s w).mParent = some p ∧ x = w then none else (s x).mParent := by
  unfold RemoveChild
  by_cases h : (s w).mParent = some p
  · rw [if_neg (not_not.mpr h)]
    by_cases hx : x = w
    · subst hx
      by_cases hp : x = p
      · subst hp; simp [h]
      · simp [h, Function.update_noteq hp]
    · by_cases hp : x = p
      · subst hp; simp [h, hx, Function.update_noteq hx]
      · simp [hx, Function.update_noteq hx, Function.update_noteq hp]
  · simp [h]

theorem RemoveChild_mChildren (s : State ι) (p w q : ι) :
    (RemoveChild s p w q).mChildren =
      if (s w).mParent = some p ∧ q = p then
        (s q).mChildren.filter (fun c => decide (c ≠ w))
      else (s q).mChildren := by
  unfold RemoveChild
  by_cases h : (s w).mParent = some p
  · rw [if_neg (not_not.mpr h)]
    by_cases hq : q = p
    · subst hq
      by_cases hw : q = w
      · subst hw; simp [h]
      · simp [h, Function.update_noteq hw]
    · by_cases hw : q = w
      · subst hw; simp [hq, Function.update_noteq hq]
      · simp [hq, Function.update_noteq hq, Function.update_noteq hw]
  · simp [h]

theorem RemoveChild_apply (s : State ι) (p w x : ι) :
    RemoveChild s p w x =
      { s x with
        mParent := if (s w).mParent = some p ∧ x = w then none else (s x).mParent
        mChildren :=
          if (s w).mParent = some p ∧ x = p then
            (s x).mChildren.filter (fun c => decide (c ≠ w))
          else (s x).mChildren } := by
  have h1 := RemoveChild_mParent s p w x
  have h2 := RemoveChild_mChildren s p w x
  have h3 : (RemoveChild s p w x).mX = (s x).mX ∧ (RemoveChild s p w x).mY = (s x).mY ∧
      (RemoveChild s p w x).mWidth = (s x).mWidth ∧
      (RemoveChild s p w x).mHeight = (s x).mHeight ∧
      (RemoveChild s p w x).mHAlign = (s x).mHAlign ∧
      (RemoveChild s p w x).mVAlign = (s x).mVAlign := by
    unfold RemoveChild
    by_cases h : (s w).mParent = some p
    · rw [if_neg (not_not.mpr h)]
      by_cases hx : x = w
      · subst hx
        by_cases hp : x = p
        · subst hp; simp
        · simp [Function.update_noteq hp]
      · by_cases hp : x = p
        · subst hp; simp [Function.update_noteq hx]
        · simp [Function.update_noteq hx, Function.update_noteq hp]
    · simp [h]
  obtain ⟨a1, a2, a3, a4, a5, a6⟩ := h3
  cases hr : RemoveChild s p w x
  rw [hr] at h1 h2 a1 a2 a3 a4 a5 a6
  simp only at h1 h2 a1 a2 a3 a4 a5 a6
  subst a1 a2 a3 a4 a5 a6
  rw [h1, h2]

theorem detached_apply (s : State ι) (w x : ι) :
    (match GetParent s w with
      | some parent => RemoveChild s parent w
      | none => s) x =
      { s x with
        mParent := if x = w then none else (s x).mParent
        mChildren := detachedChildren s w x } := by
  unfold detachedChildren GetParent
  cases h : (s w).mParent with
  | none =>
    by_cases hx : x = w
    · subst hx
      cases hs : s x
      simp_all
    · simp [hx]
  | some parent =>
    simp only [RemoveChild_apply, h, true_and]
    by_cases hq : x = parent
    · subst hq; simp
    · have : ¬ parent = x := fun e => hq e.symm
      simp [hq, this]

theorem AddChild_eq_some_iff (s s1 : State ι) (p w : ι) (i : Nat) :
    AddChild s p w i = some s1 ↔
      i ≤ (detachedChildren s w p).length ∧
      s1 = fun x =>
        { s x with
          mParent := if x = w then some p else (s x).mParent
          mChildren :=
            if x = p then (detachedChildren s w x).insertIdx i w
            else detachedChildren s w x } := by
  unfold AddChild
  generalize hs0 : (match GetParent s w with
      | some parent => RemoveChild s parent w
      | none => s) = s0
  have h0 : ∀ x, s0 x = { s x with
        mParent := if x = w then none else (s x).mParent
        mChildren := detachedChildren s w x } := by
    intro x; rw [← hs0]; exact detached_apply s w x
  have key : ∀ x, (SetParent (Function.update s0 p
        { s0 p with mChildren := (s0 p).mChildren.insertIdx i w }) w (some p)) x =
      { s x with
          mParent := if x = w then some p else (s x).mParent
          mChildren :=
            if x = p then (detachedChildren s w x).insertIdx i w
            else detachedChildren s w x } := by
    intro x
    unfold SetParent
    by_cases hx : x = w
    · subst hx
      by_cases hp : x = p
      · subst hp; simp [h0]
      · simp [hp, Function.update_noteq hp, h0]
    · by_cases hp : x = p
      · subst hp; simp [hx, Function.update_noteq hx, h0]
      · simp [hx, hp, Function.update_noteq hx, Function.update_noteq hp, h0]
  have hlen : (s0 p).mChildren = detachedChildren s w p := by rw [h0]
  by_cases hi : i ≤ (s0 p).mChildren.length
  · have hi1 : i ≤ (detachedChildren s w p).length := by rw [← hlen]; exact hi
    simp only [hi, hi1, if_true, true_and, Option.some.injEq]
    constructor
    · intro h; rw [← h]; funext x; exact key x
    · intro h; rw [h]; funext x; exact key x
  · have hi1 : ¬ i ≤ (detachedChildren s w p).length := by rw [← hlen]; exact hi
    simp [hi, hi1]

theorem AddChild_mParent {s s1 : State ι} {p w : ι} {i : Nat}
    (h : AddChild s p w i = some s1) (x : ι) :
    (s1 x).mParent = if x = w then some p else (s x).mParent := by
  rw [((AddChild_eq_some_iff s s1 p w i).mp h).2]

theorem AddChild_mChildren {s s1 : State ι} {p w : ι} {i : Nat}
    (h : AddChild s p w i = some s1) (q : ι) :
    (s1 q).mChildren =
      if q = p then (detachedChildren s w q).insertIdx i w else detachedChildren s w q := by
  rw [((AddChild_eq_some_iff s s1 p w i).mp h).2]

theorem AddChild_isSome (s : State ι) (p w : ι) (i : Nat)
    (hi : i ≤ (detachedChildren s w p).length) : ∃ s1, AddChild s p w i = some s1 :=
  ⟨_, (AddChild_eq_some_iff s _ p w i).mpr ⟨hi, rfl⟩⟩

theorem mem_detachedChildren {s : State ι} {w q x : ι} :
    x ∈ detachedChildren s w q ↔
      x ∈ (s q).mChildren ∧ ¬ ((s w).mParent = some q ∧ x = w) := by
  unfold detachedChildren
  by_cases h : (s w).mParent = some q
  · simp [h, List.mem_filter]
  · simp [h]

theorem count_detachedChildren {s : State ι} {w q x : ι} (hx : x ≠ w) :
    (detachedChildren s w q).count x = (s q).mChildren.count x := by
  unfold detachedChildren
  by_cases h : (s w).mParent = some q
  · rw [if_pos h]
    exact List.count_filter (by simpa using hx)
  · rw [if_neg h]

theorem wellFormed_iff {s : State ι} :
    WellFormed s ↔
      (∀ w p, (s w).mParent = some p → (s p).mChildren.count w = 1) ∧
      (∀ w q, w ∈ (s q).mChildren → (s w).mParent = some q) := by
  constructor
  · rintro ⟨h1, h2⟩
    refine ⟨fun w p hp => (h1 w p hp).1, fun w q hq => ?_⟩
    cases hw : (s w).mParent with
    | none => exact absurd hq (h2 w hw q)
    | some p =>
      by_cases hqp : q = p
      · rw [hqp]
      · exact absurd hq ((h1 w p hw).2 q hqp)
  · rintro ⟨h1, h2⟩
    refine ⟨fun w p hp => ⟨h1 w p hp, fun q hq hmem => ?_⟩, fun w hw q hmem => ?_⟩
    · have := h2 w q hmem
      rw [hp] at this
      exact hq (Option.some.inj this).symm
    · have := h2 w q hmem
      rw [hw] at this
      cases this

theorem not_mem_detachedChildren {s : State ι} (hs : WellFormed s) (w q : ι) :
    w ∉ detachedChildren s w q := by
  rw [mem_detachedChildren]
  rintro ⟨h1, h2⟩
  exact h2 ⟨(wellFormed_iff.mp hs).2 w q h1, rfl⟩

theorem wellFormed_removeChild {s : State ι} (hs : WellFormed s) (p w : ι) :
    WellFormed (RemoveChild s p w) := by
  by_cases hp : (s w).mParent = some p
  · have hs1 := wellFormed_iff.mp hs
    rw [wellFormed_iff]
    constructor
    · intro x q hx
      rw [RemoveChild_mParent] at hx
      by_cases hxw : x = w
      · simp [hp, hxw] at hx
      · simp only [hxw, and_false, if_false] at hx
        rw [RemoveChild_mChildren]
        split
        · rw [List.count_filter (by simpa using hxw)]
          exact hs1.1 x q hx
        · exact hs1.1 x q hx
    · intro x q hx
      rw [RemoveChild_mChildren] at hx
      rw [RemoveChild_mParent]
      by_cases hxw : x = w
      · subst hxw
        by_cases hq : q = p
        · simp [hp, hq, List.mem_filter] at hx
        · simp only [hq, and_false, if_false] at hx
          have := hs1.2 x q hx
          rw [hp] at this
          exact absurd (Option.some.inj this).symm hq
      · simp only [hxw, and_false, if_false]
        split at hx
        · exact hs1.2 x q (List.mem_filter.mp hx).1
        · exact hs1.2 x q hx
  · have : RemoveChild s p w = s := by
      unfold RemoveChild
      rw [if_pos hp]
    rw [this]
    exact hs

theorem wellFormed_addChild {s s1 : State ι} (hs : WellFormed s) {p w : ι} {i : Nat}
    (h : AddChild s p w i = some s1) : WellFormed s1 := by
  have hs1 := wellFormed_iff.mp hs
  have hi := ((AddChild_eq_some_iff s s1 p w i).mp h).1
  rw [wellFormed_iff]
  constructor
  · intro x q hx
    rw [AddChild_mParent h] at hx
    rw [AddChild_mChildren h]
    by_cases hxw : x = w
    · subst hxw
      simp only [if_true, Option.some.injEq] at hx
      subst hx
      simp only [if_true]
      rw [(List.perm_insertIdx x _ hi).count_eq, List.count_cons_self,
        List.count_eq_zero.mpr (not_mem_detachedChildren hs x p)]
    · simp only [hxw, if_false] at hx
      have hc : (detachedChildren s w q).count x = 1 := by
        rw [count_detachedChildren hxw]; exact hs1.1 x q hx
      split
      · next hqp =>
        subst hqp
        rw [(List.perm_insertIdx w _ hi).count_eq, List.count_cons_of_ne hxw, hc]
      · exact hc
  · intro x q hx
    rw [AddChild_mChildren h] at hx
    rw [AddChild_mParent h]
    by_cases hxw : x = w
    · subst hxw
      simp only [if_true]
      by_cases hqp : q = p
      · rw [hqp]
      · simp only [hqp, if_false] at hx
        exact absurd hx (not_mem_detachedChildren hs x q)
    · simp only [hxw, if_false]
      have hx1 : x ∈ detachedChildren s w q := by
        split at hx
        · next hqp =>
          subst hqp
          rcases (List.mem_insertIdx hi).mp hx with h1 | h1
          · exact absurd h1 hxw
          · exact h1
        · exact hx
      exact hs1.2 x q (mem_detachedChildren.mp hx1).1

theorem AddChild_zero_of_parent {s : State ι} {p w : ι} (h : (s w).mParent = some p) :
    AddChild s p w 0 = some (moveToFront s p w) := by
  rw [AddChild_eq_some_iff]
  refine ⟨Nat.zero_le _, ?_⟩
  funext x
  unfold moveToFront detachedChildren
  have hpar : (if x = w then some p else (s x).mParent) = (s x).mParent := by
    by_cases hx : x = w
    · subst hx; simp [h]
    · simp [hx]
  rw [hpar]
  by_cases hx : x = p
  · subst hx; simp [h]
  · have : ¬ p = x := fun e => hx e.symm
    simp [h, hx, this]

theorem moveToFront_mParent (s : State ι) (p w x : ι) :
    (moveToFront s p w x).mParent = (s x).mParent := rfl

theorem Focus_succ_of_parent {s : State ι} {p w : ι} (h : (s w).mParent = some p)
    (fuel : Nat) : Focus (fuel + 1) s w = Focus fuel (moveToFront s p w) p := by
  simp only [Focus, GetParent, h, AddChild_zero_of_parent h, moveToFront_mParent]

theorem Focus_succ_of_root {s : State ι} {w : ι} (h : (s w).mParent = none)
    (fuel : Nat) : Focus (fuel + 1) s w = some s := by
  simp only [Focus, GetParent, h]

theorem depthBound_moveToFront {s : State ι} {d : ι → Nat} (hd : DepthBound s d)
    (p w : ι) : DepthBound (moveToFront s p w) d :=
  fun x q hx => hd x q hx

theorem wellFormed_moveToFront {s : State ι} (hs : WellFormed s) {p w : ι}
    (h : (s w).mParent = some p) : WellFormed (moveToFront s p w) :=
  wellFormed_addChild hs (AddChild_zero_of_parent h)

theorem Focus_terminates {s : State ι} {d : ι → Nat} (hd : DepthBound s d) (w : ι)
    (fuel : Nat) (hf : d w < fuel) : ∃ s1, Focus fuel s w = some s1 := by
  induction fuel generalizing s w with
  | zero => exact absurd hf (Nat.not_lt_zero _)
  | succ n ih =>
    cases hp : (s w).mParent with
    | none => exact ⟨s, Focus_succ_of_root hp n⟩
    | some p =>
      rw [Focus_succ_of_parent hp]
      exact ih (depthBound_moveToFront hd p w) p (by have := hd w p hp; omega)

theorem Focus_wellFormed {s s1 : State ι} (hs : WellFormed s) {w : ι} {fuel : Nat}
    (h : Focus fuel s w = some s1) : WellFormed s1 := by
  induction fuel generalizing s w with
  | zero => simp [Focus] at h
  | succ n ih =>
    cases hp : (s w).mParent with
    | none =>
      rw [Focus_succ_of_root hp] at h
      cases h
      exact hs
    | some p =>
      rw [Focus_succ_of_parent hp] at h
      exact ih (wellFormed_moveToFront hs hp) h

theorem Focus_mParent {s s1 : State ι} {w : ι} {fuel : Nat}
    (h : Focus fuel s w = some s1) (x : ι) : (s1 x).mParent = (s x).mParent := by
  induction fuel generalizing s w with
  | zero => simp [Focus] at h
  | succ n ih =>
    cases hp : (s w).mParent with
    | none =>
      rw [Focus_succ_of_root hp] at h
      cases h
      rfl
    | some p =>
      rw [Focus_succ_of_parent hp] at h
      rw [ih h, moveToFront_mParent]

theorem Focus_mChildren_of_depth {s s1 : State ι} {d : ι → Nat} (hd : DepthBound s d)
    {w : ι} {fuel : Nat} (h : Focus fuel s w = some s1) (q : ι) (hq : d w ≤ d q) :
    (s1 q).mChildren = (s q).mChildren := by
  induction fuel generalizing s w with
  | zero => simp [Focus] at h
  | succ n ih =>
    cases hp : (s w).mParent with
    | none =>
      rw [Focus_succ_of_root hp] at h
      cases h
      rfl
    | some p =>
      rw [Focus_succ_of_parent hp] at h
      have hlt := hd w p hp
      rw [ih (depthBound_moveToFront hd p w) h (by omega)]
      have hne : q ≠ p := by
        rintro rfl
        omega
      simp [Gui.moveToFront, hne]

theorem Focus_head_on_path {s s1 : State ι} {d : ι → Nat} (hd : DepthBound s d)
    {w : ι} {fuel : Nat} (h : Focus fuel s w = some s1) (v p : ι)
    (hv : OnPathToRoot s w v) (hp : (s v).mParent = some p) :
    (s1 p).mChildren[0]? = some v := by
  induction fuel generalizing s w with
  | zero => simp [Focus] at h
  | succ n ih =>
    rcases Relation.ReflTransGen.cases_head hv with hwv | ⟨c, hwc, hcv⟩
    · subst hwv
      rw [Focus_succ_of_parent hp] at h
      rw [Focus_mChildren_of_depth (depthBound_moveToFront hd p w) h p (le_refl _)]
      simp [Gui.moveToFront]
    · have hwc1 : (s w).mParent = some c := hwc
      rw [Focus_succ_of_parent hwc1] at h
      refine ih (depthBound_moveToFront hd c w) h ?_ hp
      exact hcv

theorem filter_ne_of_count_eq_one {l : List ι} {w : ι} (h : l.count w = 1) :
    ∃ l1 l2, l = l1 ++ w :: l2 ∧ w ∉ l1 ∧ w ∉ l2 ∧
      l.filter (fun c => decide (c ≠ w)) = l1 ++ l2 := by
  have hmem : w ∈ l := List.count_pos_iff.mp (by omega)
  obtain ⟨l1, l2, hl, h1⟩ := List.eq_append_cons_of_mem hmem
  have h2 : w ∉ l2 := by
    intro hw
    have hc : 0 < l2.count w := List.count_pos_iff.mpr hw
    rw [hl, List.count_append, List.count_cons_self] at h
    omega
  refine ⟨l1, l2, hl, h1, h2, ?_⟩
  have f1 : l1.filter (fun c => decide (c ≠ w)) = l1 :=
    List.filter_eq_self.mpr (fun a ha => by
      have : a ≠ w := fun e => h1 (e ▸ ha)
      simpa using this)
  have f2 : l2.filter (fun c => decide (c ≠ w)) = l2 :=
    List.filter_eq_self.mpr (fun a ha => by
      have : a ≠ w := fun e => h2 (e ▸ ha)
      simpa using this)
  rw [hl, List.filter_append, f1, List.filter_cons]
  simp only [ne_eq, not_true_eq_false, decide_False, Bool.false_eq_true, if_false]
  rw [f2]

theorem detachedChildren_of_ne {s : State ι} {w q : ι} (h : (s w).mParent ≠ some q) :
    detachedChildren s w q = (s q).mChildren := by
  unfold detachedChildren
  rw [if_neg h]

theorem isAncestor_depth_lt {s : State ι} {d : ι → Nat} (hd : DepthBound s d) {a w : ι}
    (h : IsAncestor s a w) : d a < d w := by
  unfold IsAncestor at h
  induction h with
  | single h1 => exact hd _ _ h1
  | tail _ h2 ih => exact lt_trans (hd _ _ h2) ih

theorem wellFormed_of_reachable {s : State ι} (h : Reachable s) : WellFormed s := by
  induction h with
  | init s h0 =>
    refine ⟨fun w p hp => ?_, fun w _ q hq => ?_⟩
    · rw [(h0 w).1] at hp; cases hp
    · rw [(h0 q).2] at hq; cases hq
  | addChild s s1 p w index _ ha ih => exact wellFormed_addChild ih ha
  | removeChild s p w _ ih => exact wellFormed_removeChild ih p w
  | focus s s1 w fuel _ hf ih => exact Focus_wellFormed ih hf
  | setGeometry s s1 _ hg ih =>
    obtain ⟨h1, h2⟩ := ih
    refine ⟨fun w p hp => ?_, fun w hw q => ?_⟩
    · rw [(hg w).1] at hp
      rw [(hg p).2]
      refine ⟨(h1 w p hp).1, fun q hq => ?_⟩
      rw [(hg q).2]
      exact (h1 w p hp).2 q hq
    · rw [(hg w).1] at hw
      rw [(hg q).2]
      exact h2 w hw q

theorem FocusCalls_fst (fuel : Nat) (s : State ι) (w : ι) :
    (FocusCalls fuel s w).map Prod.fst = Focus fuel s w := by
  induction fuel generalizing s w with
  | zero => rfl
  | succ n ih =>
    rw [FocusCalls, Focus]
    cases GetParent s w with
    | none => rfl
    | some p =>
      simp only
      cases AddChild s p w 0 with
      | none => rfl
      | some s1 =>
        simp only
        cases GetParent s1 w with
        | none => rfl
        | some w1 =>
          simp only
          rw [← ih s1 w1]
          cases FocusCalls n s1 w1 with
          | none => rfl
          | some r => rfl

theorem FocusCalls_succ_of_parent {s : State ι} {p w : ι} (h : (s w).mParent = some p)
    (fuel : Nat) :
    FocusCalls (fuel + 1) s w =
      (FocusCalls fuel (moveToFront s p w) p).map (fun r => (r.1, (p, w) :: r.2)) := by
  simp only [FocusCalls, GetParent, h, AddChild_zero_of_parent h, moveToFront_mParent]
  cases FocusCalls fuel (moveToFront s p w) p with
  | none => rfl
  | some r => rfl

theorem parentChain_moveToFront (s : State ι) (p w : ι) (fuel : Nat) (x : ι) :
    parentChain (moveToFront s p w) fuel x = parentChain s fuel x := by
  induction fuel generalizing x with
  | zero => rfl
  | succ n ih =>
    simp only [parentChain, moveToFront_mParent]
    cases (s x).mParent with
    | none => rfl
    | some q => simp only [ih]

theorem parentChain_fuel {s : State ι} {d : ι → Nat} (hd : DepthBound s d) (f1 f2 : Nat)
    (w : ι) (h1 : d w ≤ f1) (h2 : d w ≤ f2) : parentChain s f1 w = parentChain s f2 w := by
  induction f1 generalizing f2 w with
  | zero =>
    cases hp : (s w).mParent with
    | none => cases f2 <;> simp [parentChain, hp]
    | some p => have := hd w p hp; omega
  | succ n ih =>
    cases hp : (s w).mParent with
    | none => cases f2 <;> simp [parentChain, hp]
    | some p =>
      have hlt := hd w p hp
      cases f2 with
      | zero => omega
      | succ k =>
        simp only [parentChain, hp]
        rw [ih k p (by omega) (by omega)]

theorem mem_parentChain {s : State ι} {d : ι → Nat} (hd : DepthBound s d) (fuel : Nat)
    (w : ι) (hf : d w ≤ fuel) (a : ι) : a ∈ parentChain s fuel w ↔ IsAncestor s a w := by
  induction fuel generalizing w with
  | zero =>
    have hp : (s w).mParent = none := by
      cases hp : (s w).mParent with
      | none => rfl
      | some p => have := hd w p hp; omega
    simp only [parentChain, List.not_mem_nil, false_iff]
    intro ha
    rcases Relation.TransGen.head'_iff.mp ha with ⟨c, hc, _⟩
    have hc1 : (s w).mParent = some c := hc
    rw [hp] at hc1
    cases hc1
  | succ n ih =>
    cases hp : (s w).mParent with
    | none =>
      simp only [parentChain, hp, List.not_mem_nil, false_iff]
      intro ha
      rcases Relation.TransGen.head'_iff.mp ha with ⟨c, hc, _⟩
      have hc1 : (s w).mParent = some c := hc
      rw [hp] at hc1
      cases hc1
    | some p =>
      have hlt := hd w p hp
      simp only [parentChain, hp, List.mem_cons]
      rw [ih p (by omega)]
      constructor
      · rintro (rfl | ha)
        · exact Relation.TransGen.single hp
        · exact Relation.TransGen.head hp ha
      · intro ha
        rcases Relation.TransGen.head'_iff.mp ha with ⟨c, hc, hrest⟩
        have hc1 : (s w).mParent = some c := hc
        rw [hp] at hc1
        cases hc1
        rcases Relation.reflTransGen_iff_eq_or_transGen.mp hrest with e | ht
        · exact Or.inl e
        · exact Or.inr ht

theorem parentChain_nodup {s : State ι} {d : ι → Nat} (hd : DepthBound s d) (fuel : Nat)
    (w : ι) (hf : d w ≤ fuel) : (parentChain s fuel w).Nodup := by
  induction fuel generalizing w with
  | zero => exact List.nodup_nil
  | succ n ih =>
    cases hp : (s w).mParent with
    | none => simp [parentChain, hp]
    | some p =>
      have hlt := hd w p hp
      simp only [parentChain, hp, List.nodup_cons]
      refine ⟨fun hm => ?_, ih p (by omega)⟩
      have := isAncestor_depth_lt hd ((mem_parentChain hd n p (by omega) p).mp hm)
      omega

theorem FocusCalls_eq_zip {s : State ι} {d : ι → Nat} (hd : DepthBound s d) (n : Nat)
    (w : ι) (hf : d w ≤ n) :
    ∃ s1, FocusCalls (n + 1) s w =
      some (s1, List.zip (parentChain s n w) (w :: parentChain s n w)) := by
  induction n generalizing s w with
  | zero =>
    have hp : (s w).mParent = none := by
      cases hp : (s w).mParent with
      | none => rfl
      | some p => have := hd w p hp; omega
    exact ⟨s, by simp [FocusCalls, GetParent, hp, parentChain]⟩
  | succ k ih =>
    cases hp : (s w).mParent with
    | none => exact ⟨s, by simp [FocusCalls, GetParent, hp, parentChain]⟩
    | some p =>
      have hlt := hd w p hp
      obtain ⟨s1, h1⟩ := ih (depthBound_moveToFront hd p w) p (by omega)
      refine ⟨s1, ?_⟩
      rw [FocusCalls_succ_of_parent hp, h1]
      simp only [Option.map_some', parentChain, hp, parentChain_moveToFront, List.zip_cons_cons]

theorem parent_of_mem_zip_parentChain (s : State ι) (n : Nat) (w : ι) :
    ∀ c ∈ List.zip (parentChain s n w) (w :: parentChain s n w),
      (s c.2).mParent = some c.1 := by
  induction n generalizing w with
  | zero => intro c hc; simp [parentChain] at hc
  | succ k ih =>
    cases hp : (s w).mParent with
    | none => intro c hc; simp [parentChain, hp] at hc
    | some p =>
      intro c hc
      simp only [parentChain, hp, List.zip_cons_cons, List.mem_cons] at hc
      rcases hc with rfl | hc
      · exact hp
      · exact ih p c hc

theorem moveToFront_fields (s : State ι) (p w x : ι) :
    moveToFront s p w x = { s x with mChildren := (moveToFront s p w x).mChildren } := rfl

theorem moveToFront_mChildren_of_ne (s : State ι) {p q : ι} (w : ι) (h : q ≠ p) :
    (moveToFront s p w q).mChildren = (s q).mChildren := by
  simp [Gui.moveToFront, h]

theorem moveToFront_perm {s : State ι} (hs : WellFormed s) {p w : ι}
    (h : (s w).mParent = some p) (q : ι) :
    List.Perm (moveToFront s p w q).mChildren (s q).mChildren := by
  by_cases hq : q = p
  · subst hq
    obtain ⟨l1, l2, hl, _, _, hf⟩ := filter_ne_of_count_eq_one ((wellFormed_iff.mp hs).1 w q h)
    have e : (moveToFront s q w q).mChildren = w :: (l1 ++ l2) := by
      simp only [Gui.moveToFront, if_true, hf]
    rw [e, hl]
    exact List.perm_middle.symm
  · rw [moveToFront_mChildren_of_ne s w hq]

theorem moveToFront_filter (s : State ι) (p w : ι) (L : List ι) (hw : w ∈ L) (q : ι) :
    (moveToFront s p w q).mChildren.filter (fun c => decide (c ∉ L)) =
      (s q).mChildren.filter (fun c => decide (c ∉ L)) := by
  by_cases hq : q = p
  · subst hq
    have e : (moveToFront s q w q).mChildren =
        w :: (s q).mChildren.filter (fun c => decide (c ≠ w)) := by
      simp only [Gui.moveToFront, if_true]
    rw [e, List.filter_cons_of_neg (by simpa using hw), List.filter_filter]
    apply List.filter_congr
    intro c _
    by_cases hc : c ∈ L
    · simp [hc]
    · have : c ≠ w := fun e1 => hc (e1 ▸ hw)
      simp [hc, this]
  · rw [moveToFront_mChildren_of_ne s w hq]

theorem moveToFront_eq_self {s : State ι} (hs : WellFormed s) {p w : ι}
    (h : (s w).mParent = some p) (hhead : (s p).mChildren[0]? = some w) :
    moveToFront s p w = s := by
  funext x
  by_cases hx : x = p
  · subst hx
    have hc := (wellFormed_iff.mp hs).1 w x h
    cases hl : (s x).mChildren with
    | nil => rw [hl] at hhead; simp at hhead
    | cons a rest =>
      rw [hl] at hhead hc
      simp only [List.getElem?_cons_zero, Option.some.injEq] at hhead
      subst hhead
      have hn : a ∉ rest := by
        intro hm
        have : 0 < rest.count a := List.count_pos_iff.mpr hm
        rw [List.count_cons_self] at hc
        omega
      have hf : rest.filter (fun c => decide (c ≠ a)) = rest :=
        List.filter_eq_self.mpr (fun c hc1 => by
          have : c ≠ a := fun e => hn (e ▸ hc1)
          simpa using this)
      have e : (moveToFront s x a x).mChildren = (s x).mChildren := by
        simp only [Gui.moveToFront, if_true, hl, List.filter_cons, ne_eq, not_true_eq_false,
          decide_False, Bool.false_eq_true, if_false, hf]
      rw [moveToFront_fields, e]
  · rw [moveToFront_fields, moveToFront_mChildren_of_ne s w hx]

theorem Focus_fields {s s1 : State ι} {w : ι} {fuel : Nat}
    (h : Focus fuel s w = some s1) (x : ι) :
    s1 x = { s x with mChildren := (s1 x).mChildren } := by
  induction fuel generalizing s w with
  | zero => simp [Focus] at h
  | succ n ih =>
    cases hp : (s w).mParent with
    | none =>
      rw [Focus_succ_of_root hp] at h
      cases h
      rfl
    | some p =>
      rw [Focus_succ_of_parent hp] at h
      rw [ih h]
      rfl

theorem Focus_perm {s s1 : State ι} (hs : WellFormed s) {w : ι} {fuel : Nat}
    (h : Focus fuel s w = some s1) (q : ι) :
    List.Perm (s1 q).mChildren (s q).mChildren := by
  induction fuel generalizing s w with
  | zero => simp [Focus] at h
  | succ n ih =>
    cases hp : (s w).mParent with
    | none =>
      rw [Focus_succ_of_root hp] at h
      cases h
      exact List.Perm.refl _
    | some p =>
      rw [Focus_succ_of_parent hp] at h
      exact (ih (wellFormed_moveToFront hs hp) h).trans (moveToFront_perm hs hp q)

theorem Focus_filter {s s1 : State ι} {w : ι} {fuel : Nat}
    (h : Focus fuel s w = some s1) (L : List ι) (hL : ∀ v, OnPathToRoot s w v → v ∈ L)
    (q : ι) :
    (s1 q).mChildren.filter (fun c => decide (c ∉ L)) =
      (s q).mChildren.filter (fun c => decide (c ∉ L)) := by
  induction fuel generalizing s w with
  | zero => simp [Focus] at h
  | succ n ih =>
    cases hp : (s w).mParent with
    | none =>
      rw [Focus_succ_of_root hp] at h
      cases h
      rfl
    | some p =>
      rw [Focus_succ_of_parent hp] at h
      rw [ih h (fun v hv => hL v (Relation.ReflTransGen.head hp hv))]
      exact moveToFront_filter s p w L (hL w Relation.ReflTransGen.refl) q

theorem Focus_mChildren_of_not_ancestor {s s1 : State ι} {w : ι} {fuel : Nat}
    (h : Focus fuel s w = some s1) (q : ι) (hq : ¬ IsAncestor s q w) :
    (s1 q).mChildren = (s q).mChildren := by
  induction fuel generalizing s w with
  | zero => simp [Focus] at h
  | succ n ih =>
    cases hp : (s w).mParent with
    | none =>
      rw [Focus_succ_of_root hp] at h
      cases h
      rfl
    | some p =>
      rw [Focus_succ_of_parent hp] at h
      have hne : q ≠ p := by
        rintro rfl
        exact hq (Relation.TransGen.single hp)
      rw [ih h (fun ha => hq (Relation.TransGen.head hp ha))]
      exact moveToFront_mChildren_of_ne s w hne

theorem Focus_fixed {s : State ι} (hs : WellFormed s) {d : ι → Nat} (hd : DepthBound s d)
    (w : ι) (fuel : Nat) (hf : d w < fuel)
    (hhead : ∀ v p, OnPathToRoot s w v → (s v).mParent = some p →
      (s p).mChildren[0]? = some v) :
    Focus fuel s w = some s := by
  induction fuel generalizing w with
  | zero => exact absurd hf (Nat.not_lt_zero _)
  | succ n ih =>
    cases hp : (s w).mParent with
    | none => exact Focus_succ_of_root hp n
    | some p =>
      have hlt := hd w p hp
      rw [Focus_succ_of_parent hp,
        moveToFront_eq_self hs hp (hhead w p Relation.ReflTransGen.refl hp)]
      exact ih p (by omega) (fun v q hv hq => hhead v q (Relation.ReflTransGen.head hp hv) hq)

theorem onPathToRoot_congr {s s1 : State ι} (h : ∀ x, (s1 x).mParent = (s x).mParent)
    {w v : ι} (hv : OnPathToRoot s1 w v) : OnPathToRoot s w v := by
  refine Relation.ReflTransGen.mono (fun a b hab => ?_) hv
  have hab1 : (s1 a).mParent = some b := hab
  rw [h a] at hab1
  exact hab1

end BasicLemmas

end Gui

namespace Gui

section TraversalLemmas

variable {ι : Type} [DecidableEq ι]

theorem forall₂_range_getElem (l : List ι) :
    List.Forall₂ (fun i c => l[i]? = some c) (List.range l.length) l := by
  rw [List.forall₂_iff_get]
  refine ⟨List.length_range _, fun i h1 h2 => ?_⟩
  simp [List.getElem?_eq_getElem h2]

theorem forall₂_range_reverse (l : List ι) :
    List.Forall₂ (fun i c => l[l.length - i - 1]? = some c) (List.range l.length)
      l.reverse := by
  rw [List.forall₂_iff_get]
  refine ⟨by simp, fun i h1 h2 => ?_⟩
  simp only [List.length_reverse] at h2
  simp only [List.get_eq_getElem, List.getElem_range, List.getElem_reverse]
  rw [List.getElem?_eq_getElem (by omega)]
  congr 2
  omega

theorem ComputePosition_of_parent {s : State ι} {c : ι} (h : (s c).mParent ≠ none)
    (pxy : Option (ℚ × ℚ)) : ComputePosition s c pxy = some (childOffset s c) := by
  unfold childOffset ComputePosition
  cases hp : (s c).mParent with
  | none => exact absurd hp h
  | some p => simp

theorem mouseButtonLoop_eq_dispatch (s : State ι) (self : ι) (x y : ℚ)
    (recur : ι → ℚ → ℚ → Option (Bool × List (MouseEvent ι))) {is : List Nat}
    {cs : List ι} (h : List.Forall₂ (fun i c => GetChild s self i = some c) is cs)
    (hp : ∀ c ∈ cs, (s c).mParent ≠ none) (pxy : Option (ℚ × ℚ)) :
    mouseButtonLoop s self x y recur is pxy =
      dispatchChildren
        (fun c => recur c (x - (childOffset s c).1) (y - (childOffset s c).2)) cs := by
  induction h generalizing pxy with
  | nil => rfl
  | @cons i c is1 cs1 hic _ ih =>
    have hc : (s c).mParent ≠ none := hp c (List.mem_cons_self _ _)
    simp only [mouseButtonLoop, hic, ComputePosition_of_parent hc, dispatchChildren]
    rw [ih (fun c1 hc1 => hp c1 (List.mem_cons_of_mem _ hc1))]

theorem drawLoop_eq_drawChildren (s : State ι) (self : ι)
    (recur : ι → Option (List (DrawCmd ι))) (is : List Nat) (cs : List ι)
    (h : List.Forall₂
      (fun i c => GetChild s self (GetChildCount s self - i - 1) = some c) is cs)
    (hp : ∀ c ∈ cs, (s c).mParent ≠ none) (xy : Option (ℚ × ℚ)) :
    drawLoop s self recur is xy = drawChildren s recur cs := by
  induction h generalizing xy with
  | nil => rfl
  | @cons i c is1 cs1 hic _ ih =>
    have hc : (s c).mParent ≠ none := hp c (List.mem_cons_self _ _)
    simp only [drawLoop, hic, ComputePosition_of_parent hc, drawChildren]
    rw [ih (fun c1 hc1 => hp c1 (List.mem_cons_of_mem _ hc1))]

theorem parent_of_mem_children {s : State ι} (hs : WellFormed s) {w c : ι}
    (h : c ∈ (s w).mChildren) : (s c).mParent = some w :=
  (wellFormed_iff.mp hs).2 c w h

theorem mem_children_of_parent {s : State ι} (hs : WellFormed s) {w c : ι}
    (h : (s c).mParent = some w) : c ∈ (s w).mChildren :=
  List.count_pos_iff.mp (by rw [(wellFormed_iff.mp hs).1 c w h]; exact Nat.one_pos)

theorem children_have_parent {s : State ι} (hs : WellFormed s) (w : ι) :
    ∀ c ∈ (s w).mChildren, (s c).mParent ≠ none := by
  intro c hc
  rw [parent_of_mem_children hs hc]
  exact fun e => Option.noConfusion e

theorem MouseButton_succ {s : State ι} (hs : WellFormed s) (fuel : Nat) (w : ι) (x y : ℚ)
    (button : Int) (down : Bool) :
    MouseButton s (fuel + 1) w x y button down =
      match dispatchChildren (callChild s fuel x y button down) (s w).mChildren with
      | none => none
      | some (true, tr) => some (true, MouseEvent.mouseButton w x y button down :: tr)
      | some (false, tr) =>
        some (InBounds s w x y, MouseEvent.mouseButton w x y button down :: tr ++
          (if InBounds s w x y then [MouseEvent.onMouseButton w x y button down] else [])) := by
  rw [MouseButton, mouseButtonLoop_eq_dispatch s w x y _ (forall₂_range_getElem _)
    (children_have_parent hs w)]
  rfl

theorem Draw_succ {s : State ι} (hs : WellFormed s) (fuel : Nat) (w : ι) :
    Draw s (fuel + 1) w =
      match drawChildren s (fun c => Draw s fuel c) (s w).mChildren.reverse with
      | none => none
      | some tr => some (DrawCmd.onDraw w :: tr) := by
  have h := drawLoop_eq_drawChildren s w (fun c => Draw s fuel c)
    (List.range (GetChildCount s w)) (s w).mChildren.reverse
    (forall₂_range_reverse _)
    (fun c hc => children_have_parent hs w c (List.mem_reverse.mp hc)) none
  rw [Draw, h]

theorem dispatchChildren_inv {call : ι → Option (Bool × List (MouseEvent ι))}
    {cs : List ι} {b : Bool} {tr : List (MouseEvent ι)}
    (h : dispatchChildren call cs = some (b, tr)) :
    (b = true ∧ ∃ l1 c l2 pre trc, cs = l1 ++ c :: l2 ∧
        (∀ c1 ∈ l1, ∃ t, call c1 = some (false, t)) ∧ call c = some (true, trc) ∧
        tr = pre ++ trc ∧ ∀ e ∈ pre, ∃ c1 ∈ l1, ∃ t, call c1 = some (false, t) ∧ e ∈ t) ∨
    (b = false ∧ (∀ c ∈ cs, ∃ t, call c = some (false, t)) ∧
        ∀ e ∈ tr, ∃ c ∈ cs, ∃ t, call c = some (false, t) ∧ e ∈ t) := by
  induction cs generalizing b tr with
  | nil =>
    simp only [dispatchChildren, Option.some.injEq, Prod.mk.injEq] at h
    obtain ⟨rfl, rfl⟩ := h
    right
    simp
  | cons c rest ih =>
    rw [dispatchChildren] at h
    cases hc : call c with
    | none => rw [hc] at h; cases h
    | some r =>
      obtain ⟨bc, tc⟩ := r
      cases bc with
      | true =>
        rw [hc] at h
        simp only [Option.some.injEq, Prod.mk.injEq] at h
        obtain ⟨rfl, rfl⟩ := h
        left
        exact ⟨rfl, [], c, rest, [], tc, rfl, by simp, hc, rfl, by simp⟩
      | false =>
        rw [hc] at h
        cases hr : dispatchChildren call rest with
        | none => rw [hr] at h; cases h
        | some r1 =>
          obtain ⟨b1, t1⟩ := r1
          rw [hr] at h
          simp only [Option.some.injEq, Prod.mk.injEq] at h
          obtain ⟨rfl, rfl⟩ := h
          rcases ih hr with ⟨hb, l1, c2, l2, pre, trc, e1, h1, h2, e2, h3⟩ |
            ⟨hb, h1, h2⟩
          · left
            refine ⟨hb, c :: l1, c2, l2, tc ++ pre, trc, by rw [e1]; rfl, ?_, h2,
              by rw [e2, List.append_assoc], ?_⟩
            · intro c1 hc1
              rcases List.mem_cons.mp hc1 with rfl | hc1
              · exact ⟨tc, hc⟩
              · exact h1 c1 hc1
            · intro e he
              rcases List.mem_append.mp he with he | he
              · exact ⟨c, List.mem_cons_self _ _, tc, hc, he⟩
              · obtain ⟨c1, hc1, t, ht, het⟩ := h3 e he
                exact ⟨c1, List.mem_cons_of_mem _ hc1, t, ht, het⟩
          · right
            refine ⟨hb, ?_, ?_⟩
            · intro c1 hc1
              rcases List.mem_cons.mp hc1 with rfl | hc1
              · exact ⟨tc, hc⟩
              · exact h1 c1 hc1
            · intro e he
              rcases List.mem_append.mp he with he | he
              · exact ⟨c, List.mem_cons_self _ _, tc, hc, he⟩
              · obtain ⟨c1, hc1, t, ht, het⟩ := h2 e he
                exact ⟨c1, List.mem_cons_of_mem _ hc1, t, ht, het⟩

theorem dispatchChildren_of_false {call : ι → Option (Bool × List (MouseEvent ι))}
    {l1 : List ι} (h1 : ∀ c ∈ l1, ∃ t, call c = some (false, t)) (l2 : List ι) :
    ∃ pre, (∀ e ∈ pre, ∃ c ∈ l1, ∃ t, call c = some (false, t) ∧ e ∈ t) ∧
      dispatchChildren call (l1 ++ l2) =
        (dispatchChildren call l2).map (fun r => (r.1, pre ++ r.2)) := by
  induction l1 with
  | nil =>
    refine ⟨[], by simp, ?_⟩
    rw [List.nil_append]
    cases dispatchChildren call l2 <;> simp
  | cons c rest ih =>
    obtain ⟨tc, hc⟩ := h1 c (List.mem_cons_self _ _)
    obtain ⟨pre, hpre, e⟩ := ih (fun c1 hc1 => h1 c1 (List.mem_cons_of_mem _ hc1))
    refine ⟨tc ++ pre, ?_, ?_⟩
    · intro e he
      rcases List.mem_append.mp he with he | he
      · exact ⟨c, List.mem_cons_self _ _, tc, hc, he⟩
      · obtain ⟨c1, hc1, t, ht, het⟩ := hpre e he
        exact ⟨c1, List.mem_cons_of_mem _ hc1, t, ht, het⟩
    · rw [List.cons_append, dispatchChildren, hc, e]
      cases dispatchChildren call l2 with
      | none => rfl
      | some r => simp [List.append_assoc]

theorem dispatchChildren_mono {call1 : ι → Option (Bool × List (MouseEvent ι))}
    (call2 : ι → Option (Bool × List (MouseEvent ι))) {cs : List ι} (hm : ∀ c ∈ cs, ∀ r, call1 c = some r → call2 c = some r)
    {r : Bool × List (MouseEvent ι)} (h : dispatchChildren call1 cs = some r) :
    dispatchChildren call2 cs = some r := by
  induction cs generalizing r with
  | nil => exact h
  | cons c rest ih =>
    rw [dispatchChildren] at h ⊢
    cases hc : call1 c with
    | none => rw [hc] at h; cases h
    | some rc =>
      rw [hc] at h
      rw [hm c (List.mem_cons_self _ _) rc hc]
      obtain ⟨bc, tc⟩ := rc
      cases bc with
      | true => exact h
      | false =>
        cases hr : dispatchChildren call1 rest with
        | none => rw [hr] at h; cases h
        | some r1 =>
          rw [hr] at h
          rw [ih (fun c1 hc1 => hm c1 (List.mem_cons_of_mem _ hc1)) hr]
          exact h

theorem dispatchChildren_total (call : ι → Option (Bool × List (MouseEvent ι)))
    (cs : List ι) (ht : ∀ c ∈ cs, ∃ r, call c = some r) :
    ∃ r, dispatchChildren call cs = some r := by
  induction cs with
  | nil => exact ⟨_, rfl⟩
  | cons c rest ih =>
    obtain ⟨⟨bc, tc⟩, hc⟩ := ht c (List.mem_cons_self _ _)
    obtain ⟨⟨b1, t1⟩, hr⟩ := ih (fun c1 hc1 => ht c1 (List.mem_cons_of_mem _ hc1))
    rw [dispatchChildren, hc, hr]
    cases bc with
    | true => exact ⟨_, rfl⟩
    | false => exact ⟨_, rfl⟩

theorem dispatchChildren_events {call : ι → Option (Bool × List (MouseEvent ι))}
    {cs : List ι} {b : Bool} {tr : List (MouseEvent ι)}
    (h : dispatchChildren call cs = some (b, tr)) :
    ∀ e ∈ tr, ∃ c ∈ cs, ∃ r, call c = some r ∧ e ∈ r.2 := by
  intro e he
  rcases dispatchChildren_inv h with ⟨_, l1, c, l2, pre, trc, e1, _, h2, e2, h3⟩ | ⟨_, _, h2⟩
  · rw [e2] at he
    rcases List.mem_append.mp he with he | he
    · obtain ⟨c1, hc1, t, ht, het⟩ := h3 e he
      exact ⟨c1, by rw [e1]; exact List.mem_append_left _ hc1, _, ht, het⟩
    · exact ⟨c, by rw [e1]; simp, _, h2, he⟩
  · obtain ⟨c1, hc1, t, ht, het⟩ := h2 e he
    exact ⟨c1, hc1, _, ht, het⟩

theorem MouseButton_succ_inv {s : State ι} (hs : WellFormed s) {fuel : Nat} {w : ι}
    {x y : ℚ} {button : Int} {down : Bool} {res : Bool} {tr : List (MouseEvent ι)}
    (h : MouseButton s (fuel + 1) w x y button down = some (res, tr)) :
    ∃ bl tl, dispatchChildren (callChild s fuel x y button down) (s w).mChildren =
        some (bl, tl) ∧
      ((bl = true ∧ res = true ∧ tr = MouseEvent.mouseButton w x y button down :: tl) ∨
       (bl = false ∧ res = InBounds s w x y ∧
        tr = MouseEvent.mouseButton w x y button down :: tl ++
          (if InBounds s w x y then [MouseEvent.onMouseButton w x y button down]
           else []))) := by
  rw [MouseButton_succ hs] at h
  cases hd : dispatchChildren (callChild s fuel x y button down) (s w).mChildren with
  | none => rw [hd] at h; cases h
  | some r =>
    obtain ⟨bl, tl⟩ := r
    rw [hd] at h
    refine ⟨bl, tl, rfl, ?_⟩
    cases bl with
    | true =>
      simp only [Option.some.injEq, Prod.mk.injEq] at h
      exact Or.inl ⟨rfl, h.1.symm, h.2.symm⟩
    | false =>
      simp only [Option.some.injEq, Prod.mk.injEq] at h
      exact Or.inr ⟨rfl, h.1.symm, h.2.symm⟩

theorem MouseButton_mono_succ {s : State ι} (hs : WellFormed s) {fuel : Nat} {w : ι}
    {x y : ℚ} {button : Int} {down : Bool} {r : Bool × List (MouseEvent ι)}
    (h : MouseButton s fuel w x y button down = some r) :
    MouseButton s (fuel + 1) w x y button down = some r := by
  induction fuel generalizing w x y r with
  | zero => simp [MouseButton] at h
  | succ n ih =>
    rw [MouseButton_succ hs] at h ⊢
    cases hd : dispatchChildren (callChild s n x y button down) (s w).mChildren with
    | none => rw [hd] at h; cases h
    | some r0 =>
      rw [hd] at h
      rw [dispatchChildren_mono (callChild s (n + 1) x y button down)
        (fun c _ r1 hr1 => ih hr1) hd]
      exact h

theorem MouseButton_mono {s : State ι} (hs : WellFormed s) {fuel fuel1 : Nat} {w : ι}
    {x y : ℚ} {button : Int} {down : Bool} {r : Bool × List (MouseEvent ι)}
    (h : MouseButton s fuel w x y button down = some r) (hle : fuel ≤ fuel1) :
    MouseButton s fuel1 w x y button down = some r := by
  induction hle with
  | refl => exact h
  | step _ ih => exact MouseButton_mono_succ hs ih

theorem MouseButton_unique {s : State ι} (hs : WellFormed s) {f1 f2 : Nat} {w : ι}
    {x y : ℚ} {button : Int} {down : Bool} {r1 r2 : Bool × List (MouseEvent ι)}
    (h1 : MouseButton s f1 w x y button down = some r1)
    (h2 : MouseButton s f2 w x y button down = some r2) : r1 = r2 := by
  have a := MouseButton_mono hs h1 (Nat.le_max_left f1 f2)
  have b := MouseButton_mono hs h2 (Nat.le_max_right f1 f2)
  rw [a] at b
  exact Option.some.inj b

theorem MouseButton_total {s : State ι} (hs : WellFormed s) {h : ι → Nat}
    (hh : HeightBound s h) (fuel : Nat) (w : ι) (hf : h w < fuel) (x y : ℚ)
    (button : Int) (down : Bool) : ∃ r, MouseButton s fuel w x y button down = some r := by
  induction fuel generalizing w x y with
  | zero => exact absurd hf (Nat.not_lt_zero _)
  | succ n ih =>
    rw [MouseButton_succ hs]
    obtain ⟨⟨bl, tl⟩, hd⟩ := dispatchChildren_total
      (callChild s n x y button down) (s w).mChildren
      (fun c hc => ih c (by have := hh w c hc; omega) _ _)
    rw [hd]
    cases bl with
    | true => exact ⟨_, rfl⟩
    | false => exact ⟨_, rfl⟩

theorem MouseButton_events_inSubtree {s : State ι} (hs : WellFormed s) {fuel : Nat}
    {w : ι} {x y : ℚ} {button : Int} {down : Bool} {r : Bool × List (MouseEvent ι)}
    (h : MouseButton s fuel w x y button down = some r) :
    ∀ e ∈ r.2, InSubtree s w e.widget := by
  induction fuel generalizing w x y r with
  | zero => simp [MouseButton] at h
  | succ n ih =>
    obtain ⟨res, tr⟩ := r
    obtain ⟨bl, tl, hd, hcase⟩ := MouseButton_succ_inv hs h
    have htl : ∀ e ∈ tl, InSubtree s w e.widget := by
      intro e he
      obtain ⟨c, hc, rc, hrc, hec⟩ := dispatchChildren_events hd e he
      exact Relation.ReflTransGen.head hc (ih hrc e hec)
    intro e he
    rcases hcase with ⟨_, _, rfl⟩ | ⟨_, _, rfl⟩
    · rcases List.mem_cons.mp he with rfl | he
      · exact Relation.ReflTransGen.refl
      · exact htl e he
    · simp only [List.cons_append, List.mem_cons, List.mem_append] at he
      rcases he with rfl | he | he
      · exact Relation.ReflTransGen.refl
      · exact htl e he
      · split at he
        · simp only [List.mem_singleton] at he
          rw [he]
          exact Relation.ReflTransGen.refl
        · simp at he

theorem MouseButton_true_of_inBounds {s : State ι} (hs : WellFormed s) {fuel : Nat}
    {w : ι} {x y : ℚ} {button : Int} {down : Bool} {r : Bool × List (MouseEvent ι)}
    (h : MouseButton s fuel w x y button down = some r) (hb : InBounds s w x y = true) :
    r.1 = true := by
  cases fuel with
  | zero => simp [MouseButton] at h
  | succ n =>
    obtain ⟨res, tr⟩ := r
    obtain ⟨bl, tl, _, hcase⟩ := MouseButton_succ_inv hs h
    rcases hcase with ⟨_, e, _⟩ | ⟨_, e, _⟩
    · exact e
    · rw [e]; exact hb

theorem MouseButton_click_iff {s : State ι} (hs : WellFormed s) {fuel : Nat}
    {w : ι} {x y : ℚ} {button : Int} {down : Bool} {r : Bool × List (MouseEvent ι)}
    (h : MouseButton s fuel w x y button down = some r) :
    r.1 = true ↔ ∃ e ∈ r.2, e.isClick = true := by
  induction fuel generalizing w x y r with
  | zero => simp [MouseButton] at h
  | succ n ih =>
    obtain ⟨res, tr⟩ := r
    obtain ⟨bl, tl, hd, hcase⟩ := MouseButton_succ_inv hs h
    rcases hcase with ⟨rfl, rfl, rfl⟩ | ⟨rfl, rfl, rfl⟩
    · rcases dispatchChildren_inv hd with ⟨_, l1, c, l2, pre, trc, _, _, h2, e2, _⟩ | ⟨hb, _⟩
      · obtain ⟨e, he, hcl⟩ := (ih h2).mp rfl
        simp only [true_iff]
        exact ⟨e, List.mem_cons_of_mem _ (by rw [e2]; exact List.mem_append_right _ he), hcl⟩
      · cases hb
    · rcases dispatchChildren_inv hd with ⟨hb, _⟩ | ⟨_, _, h2⟩
      · cases hb
      · have hno : ∀ e ∈ tl, e.isClick = false := by
          intro e he
          obtain ⟨c, _, t, ht, het⟩ := h2 e he
          by_contra hcl
          have := (ih ht).mpr ⟨e, het, by simpa using hcl⟩
          cases this
        constructor
        · intro hb
          simp only at hb
          refine ⟨MouseEvent.onMouseButton w x y button down, ?_, rfl⟩
          simp [hb]
        · rintro ⟨e, he, hcl⟩
          simp only [List.cons_append, List.mem_cons, List.mem_append] at he
          rcases he with rfl | he | he
          · cases hcl
          · rw [hno e he] at hcl; cases hcl
          · by_contra hb
            simp only [Bool.not_eq_true] at hb
            simp [hb] at he

theorem height_le_of_inSubtree {s : State ι} {h : ι → Nat} (hh : HeightBound s h)
    {r v : ι} (hv : InSubtree s r v) : h v ≤ h r := by
  unfold InSubtree at hv
  induction hv with
  | refl => exact le_refl _
  | tail _ hc ih => exact le_trans (le_of_lt (hh _ _ hc)) ih

theorem path_of_inSubtree {s : State ι} (hs : WellFormed s) {r v : ι}
    (hv : InSubtree s r v) : OnPathToRoot s v r := by
  unfold InSubtree at hv
  induction hv with
  | refl => exact Relation.ReflTransGen.refl
  | tail _ hc ih => exact Relation.ReflTransGen.head (parent_of_mem_children hs hc) ih

theorem inSubtree_of_path {s : State ι} (hs : WellFormed s) {r v : ι}
    (hv : OnPathToRoot s v r) : InSubtree s r v := by
  unfold OnPathToRoot at hv
  induction hv with
  | refl => exact Relation.ReflTransGen.refl
  | tail _ hc ih => exact Relation.ReflTransGen.head (mem_children_of_parent hs hc) ih

theorem isParentOf_rightUnique (s : State ι) : Relator.RightUnique (IsParentOf s) := by
  intro a b c hb hc
  unfold IsParentOf at hb hc
  rw [hb] at hc
  exact Option.some.inj hc

theorem not_path_between_siblings {s : State ι} (hs : WellFormed s) {h : ι → Nat}
    (hh : HeightBound s h) {P c1 c2 : ι} (h1 : c1 ∈ (s P).mChildren)
    (h2 : c2 ∈ (s P).mChildren) (hne : c1 ≠ c2) : ¬ OnPathToRoot s c1 c2 := by
  intro hp
  rcases Relation.ReflTransGen.cases_head hp with e | ⟨m, hm, hrest⟩
  · exact hne e
  · have hmP : m = P := isParentOf_rightUnique s hm (parent_of_mem_children hs h1)
    subst hmP
    have := height_le_of_inSubtree hh (inSubtree_of_path hs hrest)
    have := hh m c2 h2
    omega

theorem subtrees_of_siblings_disjoint {s : State ι} (hs : WellFormed s) {h : ι → Nat}
    (hh : HeightBound s h) {P c1 c2 : ι} (h1 : c1 ∈ (s P).mChildren)
    (h2 : c2 ∈ (s P).mChildren) (hne : c1 ≠ c2) {v : ι} (hv : InSubtree s c1 v) :
    ¬ InSubtree s c2 v := by
  intro hv2
  rcases Relation.ReflTransGen.total_of_right_unique (isParentOf_rightUnique s)
    (path_of_inSubtree hs hv) (path_of_inSubtree hs hv2) with hp | hp
  · exact not_path_between_siblings hs hh h1 h2 hne hp
  · exact not_path_between_siblings hs hh h2 h1 (Ne.symm hne) hp

theorem callChild_eq {s : State ι} (hs : WellFormed s) {w c : ι}
    (hc : c ∈ (s w).mChildren) {o : ℚ × ℚ} (ho : ComputePosition s c none = some o)
    (fuel : Nat) (x y : ℚ) (button : Int) (down : Bool) :
    callChild s fuel x y button down c =
      MouseButton s fuel c (x - o.1) (y - o.2) button down := by
  rw [ComputePosition_of_parent (children_have_parent hs w c hc)] at ho
  rw [← Option.some.inj ho]
  rfl

theorem originAfter_append (o : ℚ × ℚ) (a b : List (DrawCmd ι)) :
    originAfter o (a ++ b) = originAfter (originAfter o a) b := by
  induction a generalizing o with
  | nil => rfl
  | cons c rest ih =>
    cases c with
    | onDraw w => exact ih o
    | translate dx dy => exact ih _

theorem translateSum_append (a b : List (DrawCmd ι)) :
    translateSum (a ++ b) =
      ((translateSum a).1 + (translateSum b).1, (translateSum a).2 + (translateSum b).2) := by
  induction a with
  | nil => simp [translateSum]
  | cons c rest ih =>
    cases c with
    | onDraw w => exact ih
    | translate dx dy =>
      show (dx + (translateSum (rest ++ b)).1, dy + (translateSum (rest ++ b)).2) = _
      rw [ih]
      simp only [translateSum, add_assoc]

theorem originAfter_of_paired {tr : List (DrawCmd ι)} (h : Paired tr) (o : ℚ × ℚ) :
    originAfter o tr = o := by
  induction h generalizing o with
  | nil => rfl
  | onDraw w tr _ ih => simp only [originAfter, ih]
  | translate dx dy inner rest _ _ ih1 ih2 =>
    show originAfter (o.1 + dx, o.2 + dy) (inner ++ _) = o
    rw [originAfter_append, ih1]
    show originAfter (o.1 + dx + -dx, o.2 + dy + -dy) rest = o
    rw [ih2]
    ext <;> simp

theorem translateSum_of_paired {tr : List (DrawCmd ι)} (h : Paired tr) :
    translateSum tr = (0, 0) := by
  induction h with
  | nil => rfl
  | onDraw w tr _ ih => simp only [translateSum, ih]
  | translate dx dy inner rest _ _ ih1 ih2 =>
    show (dx + (translateSum (inner ++ _)).1, dy + (translateSum (inner ++ _)).2) = _
    rw [translateSum_append, ih1]
    show (dx + (0 + (-dx + (translateSum rest).1)), dy + (0 + (-dy + (translateSum rest).2))) = _
    rw [ih2]
    ext <;> simp

theorem drawLoop_paired (s : State ι) (self : ι) (recur : ι → Option (List (DrawCmd ι)))
    (hrec : ∀ c tr, recur c = some tr → Paired tr) (is : List Nat) (xy : Option (ℚ × ℚ))
    (tr : List (DrawCmd ι)) (h : drawLoop s self recur is xy = some tr) : Paired tr := by
  induction is generalizing xy tr with
  | nil =>
    simp only [drawLoop, Option.some.injEq] at h
    rw [← h]
    exact Paired.nil
  | cons i rest ih =>
    rw [drawLoop] at h
    cases hc : GetChild s self (GetChildCount s self - i - 1) with
    | none => simp only [hc] at h; cases h
    | some c =>
      simp only [hc] at h
      cases hxy : ComputePosition s c xy with
      | none => simp only [hxy] at h; cases h
      | some o =>
        obtain ⟨x, y⟩ := o
        simp only [hxy] at h
        cases hr : recur c with
        | none => simp only [hr] at h; cases h
        | some trc =>
          simp only [hr] at h
          cases hl : drawLoop s self recur rest (some (x, y)) with
          | none => simp only [hl] at h; cases h
          | some tr1 =>
            simp only [hl, Option.some.injEq] at h
            rw [← h]
            exact Paired.translate x y trc tr1 (hrec c trc hr) (ih _ _ hl)

theorem Draw_paired (s : State ι) (fuel : Nat) (w : ι) (tr : List (DrawCmd ι))
    (h : Draw s fuel w = some tr) : Paired tr := by
  induction fuel generalizing w tr with
  | zero => simp [Draw] at h
  | succ n ih =>
    rw [Draw] at h
    cases hl : drawLoop s w (fun c => Draw s n c) (List.range (GetChildCount s w)) none with
    | none => rw [hl] at h; cases h
    | some tl =>
      rw [hl] at h
      simp only [Option.some.injEq] at h
      rw [← h]
      exact Paired.onDraw w tl (drawLoop_paired s w _ (fun c trc hc => ih c trc hc) _ _ _ hl)

theorem drawChildren_total (s : State ι) (recur : ι → Option (List (DrawCmd ι)))
    (cs : List ι) (ht : ∀ c ∈ cs, ∃ tr, recur c = some tr) :
    ∃ tr, drawChildren s recur cs = some tr := by
  induction cs with
  | nil => exact ⟨_, rfl⟩
  | cons c rest ih =>
    obtain ⟨trc, hc⟩ := ht c (List.mem_cons_self _ _)
    obtain ⟨tr1, hr⟩ := ih (fun c1 hc1 => ht c1 (List.mem_cons_of_mem _ hc1))
    rw [drawChildren, hc, hr]
    exact ⟨_, rfl⟩

theorem Draw_total {s : State ι} (hs : WellFormed s) {h : ι → Nat}
    (hh : HeightBound s h) (fuel : Nat) (w : ι) (hf : h w < fuel) :
    ∃ tr, Draw s fuel w = some tr := by
  induction fuel generalizing w with
  | zero => exact absurd hf (Nat.not_lt_zero _)
  | succ n ih =>
    rw [Draw_succ hs]
    obtain ⟨tl, hd⟩ := drawChildren_total s (fun c => Draw s n c) (s w).mChildren.reverse
      (fun c hc => ih c (by have := hh w c (List.mem_reverse.mp hc); omega))
    rw [hd]
    exact ⟨_, rfl⟩

theorem drawChildren_append (s : State ι) (recur : ι → Option (List (DrawCmd ι)))
    {l1 l2 : List ι} {a b : List (DrawCmd ι)} (h1 : drawChildren s recur l1 = some a)
    (h2 : drawChildren s recur l2 = some b) :
    drawChildren s recur (l1 ++ l2) = some (a ++ b) := by
  induction l1 generalizing a with
  | nil =>
    simp only [drawChildren, Option.some.injEq] at h1
    rw [← h1]
    exact h2
  | cons c rest ih =>
    rw [drawChildren] at h1
    cases hc : recur c with
    | none => simp only [hc] at h1; cases h1
    | some trc =>
      simp only [hc] at h1
      cases hr : drawChildren s recur rest with
      | none => simp only [hr] at h1; cases h1
      | some tr1 =>
        simp only [hr, Option.some.injEq] at h1
        rw [List.cons_append, drawChildren, hc, ih hr, ← h1]
        simp

theorem drawChildren_singleton (s : State ι) (recur : ι → Option (List (DrawCmd ι)))
    {c : ι} {trc : List (DrawCmd ι)} (hc : recur c = some trc) :
    drawChildren s recur [c] =
      some (DrawCmd.translate (childOffset s c).1 (childOffset s c).2 :: trc ++
        [DrawCmd.translate (-(childOffset s c).1) (-(childOffset s c).2)]) := by
  simp only [drawChildren, hc]

theorem drawChildren_mem (s : State ι) (recur : ι → Option (List (DrawCmd ι)))
    {l : List ι} {tr : List (DrawCmd ι)} (h : drawChildren s recur l = some tr) :
    ∀ c ∈ l, ∃ trc, recur c = some trc ∧ ∀ e ∈ trc, e ∈ tr := by
  induction l generalizing tr with
  | nil => intro c hc; cases hc
  | cons c0 rest ih =>
    rw [drawChildren] at h
    cases hc : recur c0 with
    | none => simp only [hc] at h; cases h
    | some trc =>
      simp only [hc] at h
      cases hr : drawChildren s recur rest with
      | none => simp only [hr] at h; cases h
      | some tr1 =>
        simp only [hr, Option.some.injEq] at h
        intro c hmem
        rcases List.mem_cons.mp hmem with rfl | hmem
        · refine ⟨trc, hc, fun e he => ?_⟩
          rw [← h]
          simp [he]
        · obtain ⟨t, ht, hsub⟩ := ih hr c hmem
          refine ⟨t, ht, fun e he => ?_⟩
          rw [← h]
          simp [hsub e he]

theorem drawChildren_onDraw (s : State ι) (recur : ι → Option (List (DrawCmd ι)))
    {l : List ι} {tr : List (DrawCmd ι)} (h : drawChildren s recur l = some tr) (v : ι)
    (hv : DrawCmd.onDraw v ∈ tr) :
    ∃ c ∈ l, ∃ trc, recur c = some trc ∧ DrawCmd.onDraw v ∈ trc := by
  induction l generalizing tr with
  | nil =>
    simp only [drawChildren, Option.some.injEq] at h
    rw [← h] at hv
    cases hv
  | cons c0 rest ih =>
    rw [drawChildren] at h
    cases hc : recur c0 with
    | none => simp only [hc] at h; cases h
    | some trc =>
      simp only [hc] at h
      cases hr : drawChildren s recur rest with
      | none => simp only [hr] at h; cases h
      | some tr1 =>
        simp only [hr, Option.some.injEq] at h
        rw [← h] at hv
        simp only [List.mem_cons, List.mem_append, reduceCtorEq, false_or] at hv
        rcases hv with hv | hv
        · exact ⟨c0, List.mem_cons_self _ _, trc, hc, hv⟩
        · obtain ⟨c, hmem, t, ht, hvt⟩ := ih hr hv
          exact ⟨c, List.mem_cons_of_mem _ hmem, t, ht, hvt⟩

theorem drawChildren_mono (s : State ι) {recur1 : ι → Option (List (DrawCmd ι))}
    (recur2 : ι → Option (List (DrawCmd ι))) {l : List ι}
    (hm : ∀ c ∈ l, ∀ t, recur1 c = some t → recur2 c = some t) {tr : List (DrawCmd ι)}
    (h : drawChildren s recur1 l = some tr) : drawChildren s recur2 l = some tr := by
  induction l generalizing tr with
  | nil => exact h
  | cons c0 rest ih =>
    rw [drawChildren] at h ⊢
    cases hc : recur1 c0 with
    | none => simp only [hc] at h; cases h
    | some trc =>
      simp only [hc] at h
      rw [hm c0 (List.mem_cons_self _ _) trc hc]
      cases hr : drawChildren s recur1 rest with
      | none => simp only [hr] at h; cases h
      | some tr1 =>
        simp only [hr] at h
        rw [ih (fun c1 hc1 => hm c1 (List.mem_cons_of_mem _ hc1)) hr]
        exact h

theorem Draw_mono_succ {s : State ι} (hs : WellFormed s) {fuel : Nat} {w : ι}
    {tr : List (DrawCmd ι)} (h : Draw s fuel w = some tr) :
    Draw s (fuel + 1) w = some tr := by
  induction fuel generalizing w tr with
  | zero => simp [Draw] at h
  | succ n ih =>
    rw [Draw_succ hs] at h ⊢
    cases hd : drawChildren s (fun c => Draw s n c) (s w).mChildren.reverse with
    | none => simp only [hd] at h; cases h
    | some tl =>
      simp only [hd] at h
      rw [drawChildren_mono s (fun c => Draw s (n + 1) c) (fun c _ t ht => ih ht) hd]
      exact h

theorem Draw_mono {s : State ι} (hs : WellFormed s) {fuel fuel1 : Nat} {w : ι}
    {tr : List (DrawCmd ι)} (h : Draw s fuel w = some tr) (hle : fuel ≤ fuel1) :
    Draw s fuel1 w = some tr := by
  induction hle with
  | refl => exact h
  | step _ ih => exact Draw_mono_succ hs ih

theorem Draw_head {s : State ι} {fuel : Nat} {w : ι} {tr : List (DrawCmd ι)}
    (h : Draw s fuel w = some tr) : DrawCmd.onDraw w ∈ tr := by
  cases fuel with
  | zero => simp [Draw] at h
  | succ n =>
    rw [Draw] at h
    cases hl : drawLoop s w (fun c => Draw s n c) (List.range (GetChildCount s w)) none with
    | none => simp only [hl] at h; cases h
    | some tl =>
      simp only [hl, Option.some.injEq] at h
      rw [← h]
      exact List.mem_cons_self _ _

theorem Draw_onDraw_inSubtree {s : State ι} (hs : WellFormed s) {fuel : Nat} {w : ι}
    {tr : List (DrawCmd ι)} (h : Draw s fuel w = some tr) (v : ι)
    (hv : DrawCmd.onDraw v ∈ tr) : InSubtree s w v := by
  induction fuel generalizing w tr with
  | zero => simp [Draw] at h
  | succ n ih =>
    rw [Draw_succ hs] at h
    cases hd : drawChildren s (fun c => Draw s n c) (s w).mChildren.reverse with
    | none => simp only [hd] at h; cases h
    | some tl =>
      simp only [hd, Option.some.injEq] at h
      rw [← h] at hv
      rcases List.mem_cons.mp hv with e | hv
      · cases e
        exact Relation.ReflTransGen.refl
      · obtain ⟨c, hc, t, ht, hvt⟩ := drawChildren_onDraw s _ hd v hv
        exact Relation.ReflTransGen.head (List.mem_reverse.mp hc) (ih ht hvt)

theorem heightBound_of_focus {s s1 : State ι} (hs : WellFormed s) {h : ι → Nat}
    (hh : HeightBound s h) {w : ι} {fuel : Nat} (hf : Focus fuel s w = some s1) :
    HeightBound s1 h := by
  intro q c hc
  have hp := parent_of_mem_children (Focus_wellFormed hs hf) hc
  rw [Focus_mParent hf] at hp
  exact hh q c (mem_children_of_parent hs hp)

theorem inBounds_iff (s : State ι) (w : ι) (x y : ℚ) :
    InBounds s w x y = true ↔
      (0 ≤ x - (s w).mX ∧ x - (s w).mX < (s w).mWidth) ∧
      (0 ≤ y - (s w).mY ∧ y - (s w).mY < (s w).mHeight) := by
  unfold InBounds
  simp only [ge_iff_le]
  split_ifs with h1 h2
  · refine iff_of_false (fun hf => by simp at hf) ?_
    rintro ⟨⟨a, b⟩, _⟩
    rcases h1 with h1 | h1
    · exact absurd a (not_le.mpr h1)
    · exact absurd b (not_lt.mpr h1)
  · refine iff_of_false (fun hf => by simp at hf) ?_
    rintro ⟨_, ⟨a, b⟩⟩
    rcases h2 with h2 | h2
    · exact absurd a (not_le.mpr h2)
    · exact absurd b (not_lt.mpr h2)
  · simp only [not_or, not_lt, not_le] at h1 h2
    exact iff_of_true (by simp) ⟨h1, h2⟩

theorem dispatchChildren_events_sub {call : ι → Option (Bool × List (MouseEvent ι))}
    {cs : List ι} {b : Bool} {tr : List (MouseEvent ι)}
    (h : dispatchChildren call cs = some (b, tr)) :
    ∀ e ∈ tr, ∃ c ∈ cs, ∃ r, call c = some r ∧ e ∈ r.2 ∧ ∀ e1 ∈ r.2, e1 ∈ tr := by
  induction cs generalizing b tr with
  | nil =>
    simp only [dispatchChildren, Option.some.injEq, Prod.mk.injEq] at h
    obtain ⟨_, rfl⟩ := h
    intro e he
    cases he
  | cons c rest ih =>
    rw [dispatchChildren] at h
    cases hc : call c with
    | none => simp only [hc] at h; cases h
    | some rc =>
      obtain ⟨bc, tc⟩ := rc
      cases bc with
      | true =>
        simp only [hc, Option.some.injEq, Prod.mk.injEq] at h
        obtain ⟨_, rfl⟩ := h
        intro e he
        exact ⟨c, List.mem_cons_self _ _, _, hc, he, fun e1 h1 => h1⟩
      | false =>
        simp only [hc] at h
        cases hr : dispatchChildren call rest with
        | none => simp only [hr] at h; cases h
        | some r1 =>
          obtain ⟨b1, t1⟩ := r1
          simp only [hr, Option.some.injEq, Prod.mk.injEq] at h
          obtain ⟨_, rfl⟩ := h
          intro e he
          rcases List.mem_append.mp he with he | he
          · exact ⟨c, List.mem_cons_self _ _, _, hc, he,
              fun e1 h1 => List.mem_append_left _ h1⟩
          · obtain ⟨c1, hc1, r, hr1, her, hsub⟩ := ih hr e he
            exact ⟨c1, List.mem_cons_of_mem _ hc1, r, hr1, her,
              fun e1 h1 => List.mem_append_right _ (hsub e1 h1)⟩

theorem MouseButton_click_inBounds {s : State ι} (hs : WellFormed s) {fuel : Nat}
    {w : ι} {x y : ℚ} {button : Int} {down : Bool} {r : Bool × List (MouseEvent ι)}
    (h : MouseButton s fuel w x y button down = some r) (v : ι) (x1 y1 : ℚ) (b1 : Int)
    (d1 : Bool) (he : MouseEvent.onMouseButton v x1 y1 b1 d1 ∈ r.2) :
    InBounds s v x1 y1 = true ∧ MouseEvent.mouseButton v x1 y1 b1 d1 ∈ r.2 := by
  induction fuel generalizing w x y r with
  | zero => simp [MouseButton] at h
  | succ n ih =>
    obtain ⟨res, tr⟩ := r
    obtain ⟨bl, tl, hd, hcase⟩ := MouseButton_succ_inv hs h
    have htl : MouseEvent.onMouseButton v x1 y1 b1 d1 ∈ tl →
        InBounds s v x1 y1 = true ∧ MouseEvent.mouseButton v x1 y1 b1 d1 ∈ tl := by
      intro hmem
      obtain ⟨c, _, rc, hrc, hec, hsub⟩ := dispatchChildren_events_sub hd _ hmem
      obtain ⟨a, b⟩ := ih hrc hec
      exact ⟨a, hsub _ b⟩
    simp only at he
    rcases hcase with ⟨_, _, rfl⟩ | ⟨_, _, rfl⟩
    · rcases List.mem_cons.mp he with e | he
      · cases e
      · exact ⟨(htl he).1, List.mem_cons_of_mem _ (htl he).2⟩
    · simp only [List.cons_append, List.mem_cons, List.mem_append, reduceCtorEq,
        false_or] at he
      rcases he with he | he
      · exact ⟨(htl he).1,
          List.mem_cons_of_mem _ (List.mem_append_left _ (htl he).2)⟩
      · split at he
        · rename_i hb
          simp only [List.mem_singleton, MouseEvent.onMouseButton.injEq] at he
          obtain ⟨rfl, rfl, rfl, rfl, rfl⟩ := he
          exact ⟨hb, List.mem_cons_self _ _⟩
        · cases he

theorem AddChildLast_of_child {s : State ι} (hs : WellFormed s) {p w : ι}
    (h : (s w).mParent = some p) :
    (detachedChildren s w p).length + 1 = GetChildCount s p ∧ AddChildLast s p w = none := by
  obtain ⟨l1, l2, e1, _, _, e2⟩ := filter_ne_of_count_eq_one ((wellFormed_iff.mp hs).1 w p h)
  have hlen : (detachedChildren s w p).length + 1 = GetChildCount s p := by
    unfold detachedChildren GetChildCount
    rw [if_pos h, e2, e1]
    simp only [List.length_append, List.length_cons]
    omega
  refine ⟨hlen, ?_⟩
  unfold AddChildLast
  cases hr : AddChild s p w (GetChildCount s p) with
  | none => rfl
  | some s1 =>
    have := ((AddChild_eq_some_iff s s1 p w _).mp hr).1
    omega

theorem drawChildren_blocks (s : State ι) (recur : ι → Option (List (DrawCmd ι)))
    (Q : ι → List (DrawCmd ι) → Prop) {l : List ι}
    (hQ : ∀ c ∈ l, ∀ trc, recur c = some trc → Q c trc) {tr : List (DrawCmd ι)}
    (h : drawChildren s recur l = some tr) :
    ∃ blocks : List (List (DrawCmd ι)), tr = blocks.flatten ∧
      List.Forall₂ (fun c b => ∃ trc, Q c trc ∧
        b = DrawCmd.translate (childOffset s c).1 (childOffset s c).2 :: trc ++
          [DrawCmd.translate (-(childOffset s c).1) (-(childOffset s c).2)]) l blocks := by
  induction l generalizing tr with
  | nil =>
    simp only [drawChildren, Option.some.injEq] at h
    exact ⟨[], by rw [← h]; rfl, List.Forall₂.nil⟩
  | cons c rest ih =>
    rw [drawChildren] at h
    cases hc : recur c with
    | none => simp only [hc] at h; cases h
    | some trc =>
      simp only [hc] at h
      cases hr : drawChildren s recur rest with
      | none => simp only [hr] at h; cases h
      | some tr1 =>
        simp only [hr, Option.some.injEq] at h
        obtain ⟨blocks, e, hf⟩ := ih (fun c1 hc1 => hQ c1 (List.mem_cons_of_mem _ hc1)) hr
        refine ⟨_ :: blocks, ?_, List.Forall₂.cons
          ⟨trc, hQ c (List.mem_cons_self _ _) trc hc, rfl⟩ hf⟩
        rw [← h, e]
        simp

theorem Draw_unique {s : State ι} (hs : WellFormed s) {f1 f2 : Nat} {w : ι}
    {t1 t2 : List (DrawCmd ι)} (h1 : Draw s f1 w = some t1) (h2 : Draw s f2 w = some t2) :
    t1 = t2 := by
  have a := Draw_mono hs h1 (Nat.le_max_left f1 f2)
  have b := Draw_mono hs h2 (Nat.le_max_right f1 f2)
  rw [a] at b
  exact Option.some.inj b

theorem updateLoop_eq_updateChildren (s : State ι) (self : ι)
    (recur : ι → Option (List (ι × ℚ))) {is : List Nat} {cs : List ι}
    (h : List.Forall₂ (fun i c => GetChild s self i = some c) is cs) :
    updateLoop s self recur is = updateChildren recur cs := by
  induction h with
  | nil => rfl
  | @cons i c is1 cs1 hic _ ih => simp only [updateLoop, hic, updateChildren, ih]

theorem getDescendantCountLoop_eq_countChildren (s : State ι) (self : ι)
    (recur : ι → Option Nat) {is : List Nat} {cs : List ι}
    (h : List.Forall₂ (fun i c => GetChild s self i = some c) is cs) (count : Nat) :
    getDescendantCountLoop s self recur is count = countChildren recur cs count := by
  induction h generalizing count with
  | nil => rfl
  | @cons i c is1 cs1 hic _ ih =>
    simp only [getDescendantCountLoop, hic, countChildren]
    cases recur c with
    | none => rfl
    | some n => exact ih _

theorem Update_succ (s : State ι) (fuel : Nat) (w : ι) (dt : ℚ) :
    Update s (fuel + 1) w dt =
      match updateChildren (fun c => Update s fuel c dt) (s w).mChildren with
      | none => none
      | some tr => some ((w, dt) :: tr) := by
  have h := updateLoop_eq_updateChildren s w (fun c => Update s fuel c dt)
    (forall₂_range_getElem (s w).mChildren)
  rw [Update]
  unfold GetChildCount
  rw [h]

theorem GetDescendantCount_succ (s : State ι) (fuel : Nat) (w : ι) :
    GetDescendantCount s (fuel + 1) w =
      countChildren (fun c => GetDescendantCount s fuel c) (s w).mChildren
        (s w).mChildren.length := by
  have h := getDescendantCountLoop_eq_countChildren s w
    (fun c => GetDescendantCount s fuel c) (forall₂_range_getElem (s w).mChildren)
    (s w).mChildren.length
  rw [GetDescendantCount]
  unfold GetChildCount
  rw [h]

theorem updateChildren_inv {recur : ι → Option (List (ι × ℚ))} {c : ι} {rest : List ι}
    {tl : List (ι × ℚ)} (h : updateChildren recur (c :: rest) = some tl) :
    ∃ t t1, recur c = some t ∧ updateChildren recur rest = some t1 ∧ tl = t ++ t1 := by
  rw [updateChildren] at h
  cases hc : recur c with
  | none => simp only [hc] at h; cases h
  | some t =>
    simp only [hc] at h
    cases hr : updateChildren recur rest with
    | none => simp only [hr] at h; cases h
    | some t1 =>
      simp only [hr, Option.some.injEq] at h
      exact ⟨t, t1, rfl, rfl, h.symm⟩

theorem updateChildren_parts {recur : ι → Option (List (ι × ℚ))} {l : List ι}
    {tl : List (ι × ℚ)} (h : updateChildren recur l = some tl) :
    ∃ parts : List (List (ι × ℚ)), tl = parts.flatten ∧
      List.Forall₂ (fun c part => recur c = some part) l parts := by
  induction l generalizing tl with
  | nil =>
    simp only [updateChildren, Option.some.injEq] at h
    exact ⟨[], by rw [← h]; rfl, List.Forall₂.nil⟩
  | cons c rest ih =>
    obtain ⟨t, t1, hc, hr, e⟩ := updateChildren_inv h
    obtain ⟨parts, e1, hf⟩ := ih hr
    exact ⟨t :: parts, by rw [e, e1]; rfl, List.Forall₂.cons hc hf⟩

theorem updateChildren_total (recur : ι → Option (List (ι × ℚ))) (cs : List ι)
    (ht : ∀ c ∈ cs, ∃ t, recur c = some t) : ∃ tl, updateChildren recur cs = some tl := by
  induction cs with
  | nil => exact ⟨_, rfl⟩
  | cons c rest ih =>
    obtain ⟨t, hc⟩ := ht c (List.mem_cons_self _ _)
    obtain ⟨t1, hr⟩ := ih (fun c1 hc1 => ht c1 (List.mem_cons_of_mem _ hc1))
    rw [updateChildren, hc, hr]
    exact ⟨_, rfl⟩

theorem updateChildren_mono {recur1 : ι → Option (List (ι × ℚ))}
    (recur2 : ι → Option (List (ι × ℚ))) {l : List ι}
    (hm : ∀ c ∈ l, ∀ t, recur1 c = some t → recur2 c = some t) {tl : List (ι × ℚ)}
    (h : updateChildren recur1 l = some tl) : updateChildren recur2 l = some tl := by
  induction l generalizing tl with
  | nil => exact h
  | cons c rest ih =>
    obtain ⟨t, t1, hc, hr, e⟩ := updateChildren_inv h
    rw [updateChildren, hm c (List.mem_cons_self _ _) t hc,
      ih (fun c1 hc1 => hm c1 (List.mem_cons_of_mem _ hc1)) hr, e]

theorem Update_total {s : State ι} {h : ι → Nat} (hh : HeightBound s h) (fuel : Nat)
    (w : ι) (hf : h w < fuel) (dt : ℚ) : ∃ tr, Update s fuel w dt = some tr := by
  induction fuel generalizing w with
  | zero => exact absurd hf (Nat.not_lt_zero _)
  | succ n ih =>
    rw [Update_succ]
    obtain ⟨tl, hd⟩ := updateChildren_total (fun c => Update s n c dt) (s w).mChildren
      (fun c hc => ih c (by have := hh w c hc; omega))
    rw [hd]
    exact ⟨_, rfl⟩

theorem Update_mono_succ {s : State ι} {fuel : Nat} {w : ι} {dt : ℚ}
    {tr : List (ι × ℚ)} (h : Update s fuel w dt = some tr) :
    Update s (fuel + 1) w dt = some tr := by
  induction fuel generalizing w tr with
  | zero => simp [Update] at h
  | succ n ih =>
    rw [Update_succ] at h ⊢
    cases hd : updateChildren (fun c => Update s n c dt) (s w).mChildren with
    | none => simp only [hd] at h; cases h
    | some tl =>
      simp only [hd] at h
      rw [updateChildren_mono (fun c => Update s (n + 1) c dt) (fun c _ t ht => ih ht) hd]
      exact h

theorem Update_mono {s : State ι} {fuel fuel1 : Nat} {w : ι} {dt : ℚ}
    {tr : List (ι × ℚ)} (h : Update s fuel w dt = some tr) (hle : fuel ≤ fuel1) :
    Update s fuel1 w dt = some tr := by
  induction hle with
  | refl => exact h
  | step _ ih => exact Update_mono_succ ih

theorem Update_unique {s : State ι} {f1 f2 : Nat} {w : ι} {dt : ℚ}
    {t1 t2 : List (ι × ℚ)} (h1 : Update s f1 w dt = some t1)
    (h2 : Update s f2 w dt = some t2) : t1 = t2 := by
  have a := Update_mono h1 (Nat.le_max_left f1 f2)
  have b := Update_mono h2 (Nat.le_max_right f1 f2)
  rw [a] at b
  exact Option.some.inj b

theorem children_nodup {s : State ι} (hs : WellFormed s) (w : ι) :
    (s w).mChildren.Nodup :=
  List.nodup_iff_count_eq_one.mpr
    (fun c hc => (wellFormed_iff.mp hs).1 c w (parent_of_mem_children hs hc))

theorem updateChildren_enum {s : State ι} (hs : WellFormed s) {h : ι → Nat}
    (hh : HeightBound s h) {recur : ι → Option (List (ι × ℚ))} {P : ι} {dt : ℚ}
    (cs : List ι) (hsub : ∀ c ∈ cs, c ∈ (s P).mChildren) (hnd : cs.Nodup)
    (hrec : ∀ c ∈ cs, ∀ t, recur c = some t →
      (∀ e ∈ t, e.2 = dt ∧ InSubtree s c e.1) ∧ (t.map Prod.fst).Nodup ∧
      ∀ v, InSubtree s c v → v ∈ t.map Prod.fst)
    {tl : List (ι × ℚ)} (htl : updateChildren recur cs = some tl) :
    (∀ e ∈ tl, e.2 = dt ∧ ∃ c ∈ cs, InSubtree s c e.1) ∧ (tl.map Prod.fst).Nodup ∧
      ∀ c ∈ cs, ∀ v, InSubtree s c v → v ∈ tl.map Prod.fst := by
  induction cs generalizing tl with
  | nil =>
    simp only [updateChildren, Option.some.injEq] at htl
    rw [← htl]
    exact ⟨fun e he => (by cases he), List.nodup_nil, fun c hc => (by cases hc)⟩
  | cons c rest ih =>
    obtain ⟨t, t1, hc, hr, e⟩ := updateChildren_inv htl
    obtain ⟨a1, a2, a3⟩ := hrec c (List.mem_cons_self _ _) t hc
    obtain ⟨b1, b2, b3⟩ := ih (fun c1 hc1 => hsub c1 (List.mem_cons_of_mem _ hc1))
      (List.Nodup.of_cons hnd)
      (fun c1 hc1 => hrec c1 (List.mem_cons_of_mem _ hc1)) hr
    have hcn : c ∉ rest := (List.nodup_cons.mp hnd).1
    rw [e]
    refine ⟨?_, ?_, ?_⟩
    · intro ev hev
      rcases List.mem_append.mp hev with hev | hev
      · exact ⟨(a1 ev hev).1, c, List.mem_cons_self _ _, (a1 ev hev).2⟩
      · obtain ⟨x1, c1, hc1, x2⟩ := b1 ev hev
        exact ⟨x1, c1, List.mem_cons_of_mem _ hc1, x2⟩
    · rw [List.map_append, List.nodup_append]
      refine ⟨a2, b2, ?_⟩
      rw [List.disjoint_left]
      intro v hv hv1
      obtain ⟨e0, he0, rfl⟩ := List.mem_map.mp hv
      obtain ⟨e1, he1, heq⟩ := List.mem_map.mp hv1
      obtain ⟨_, c1, hc1, hin1⟩ := b1 e1 he1
      rw [heq] at hin1
      have hne : c ≠ c1 := fun e2 => hcn (e2 ▸ hc1)
      exact subtrees_of_siblings_disjoint hs hh (hsub c (List.mem_cons_self _ _))
        (hsub c1 (List.mem_cons_of_mem _ hc1)) hne (a1 e0 he0).2 hin1
    · intro c1 hc1 v hv
      rw [List.map_append, List.mem_append]
      rcases List.mem_cons.mp hc1 with rfl | hc1
      · exact Or.inl (a3 v hv)
      · exact Or.inr (b3 c1 hc1 v hv)

theorem Update_enum {s : State ι} (hs : WellFormed s) {h : ι → Nat}
    (hh : HeightBound s h) {fuel : Nat} {w : ι} {dt : ℚ} {tr : List (ι × ℚ)}
    (htr : Update s fuel w dt = some tr) :
    ∃ tl, tr = (w, dt) :: tl ∧ (∀ e ∈ tl, e.2 = dt) ∧ (tl.map Prod.fst).Nodup ∧
      ∀ v, v ∈ tl.map Prod.fst ↔ InSubtree s w v ∧ v ≠ w := by
  induction fuel generalizing w tr with
  | zero => simp [Update] at htr
  | succ n ih =>
    rw [Update_succ] at htr
    cases hd : updateChildren (fun c => Update s n c dt) (s w).mChildren with
    | none => simp only [hd] at htr; cases htr
    | some tl =>
      simp only [hd, Option.some.injEq] at htr
      have hrec : ∀ c ∈ (s w).mChildren, ∀ t, (fun c => Update s n c dt) c = some t →
          (∀ e ∈ t, e.2 = dt ∧ InSubtree s c e.1) ∧ (t.map Prod.fst).Nodup ∧
          ∀ v, InSubtree s c v → v ∈ t.map Prod.fst := by
        intro c _ t ht
        obtain ⟨tlc, rfl, c1, c2, c3⟩ := ih ht
        refine ⟨?_, ?_, ?_⟩
        · intro e he
          rcases List.mem_cons.mp he with rfl | he
          · exact ⟨rfl, Relation.ReflTransGen.refl⟩
          · exact ⟨c1 e he, ((c3 e.1).mp (List.mem_map.mpr ⟨e, he, rfl⟩)).1⟩
        · rw [List.map_cons, List.nodup_cons]
          exact ⟨fun hm => ((c3 c).mp hm).2 rfl, c2⟩
        · intro v hv
          rw [List.map_cons, List.mem_cons]
          by_cases hvc : v = c
          · exact Or.inl hvc
          · exact Or.inr ((c3 v).mpr ⟨hv, hvc⟩)
      obtain ⟨b1, b2, b3⟩ := updateChildren_enum hs hh (s w).mChildren
        (fun c hc => hc) (children_nodup hs w) hrec hd
      refine ⟨tl, htr.symm, fun e he => (b1 e he).1, b2, fun v => ⟨?_, ?_⟩⟩
      · intro hv
        obtain ⟨e, he, rfl⟩ := List.mem_map.mp hv
        obtain ⟨_, c, hc, hin⟩ := b1 e he
        refine ⟨Relation.ReflTransGen.head hc hin, ?_⟩
        intro heq
        have h1 := height_le_of_inSubtree hh hin
        have h2 := hh w c hc
        rw [heq] at h1
        omega
      · rintro ⟨hin, hne⟩
        rcases Relation.ReflTransGen.cases_head hin with e | ⟨c, hc, hrest⟩
        · exact absurd e.symm hne
        · exact b3 c hc v hrest

theorem countChildren_of_update {recur1 : ι → Option (List (ι × ℚ))}
    (recur2 : ι → Option Nat) (cs : List ι)
    (hrec : ∀ c ∈ cs, ∀ t, recur1 c = some t → ∃ n, recur2 c = some n ∧ n + 1 = t.length)
    {tl : List (ι × ℚ)} (htl : updateChildren recur1 cs = some tl) (k : Nat) :
    ∃ m, countChildren recur2 cs k = some m ∧ m + cs.length = k + tl.length := by
  induction cs generalizing tl k with
  | nil =>
    simp only [updateChildren, Option.some.injEq] at htl
    rw [← htl]
    exact ⟨k, rfl, rfl⟩
  | cons c rest ih =>
    obtain ⟨t, t1, hc, hr, e⟩ := updateChildren_inv htl
    obtain ⟨n, hn, hlen⟩ := hrec c (List.mem_cons_self _ _) t hc
    obtain ⟨m, hm, hsum⟩ := ih (fun c1 hc1 => hrec c1 (List.mem_cons_of_mem _ hc1)) hr
      (k + n)
    refine ⟨m, by rw [countChildren, hn]; exact hm, ?_⟩
    rw [e, List.length_append, List.length_cons]
    omega

theorem GetDescendantCount_of_update {s : State ι} {fuel : Nat} {w : ι} {dt : ℚ}
    {tr : List (ι × ℚ)} (htr : Update s fuel w dt = some tr) :
    ∃ n, GetDescendantCount s fuel w = some n ∧ n + 1 = tr.length := by
  induction fuel generalizing w tr with
  | zero => simp [Update] at htr
  | succ n ih =>
    rw [Update_succ] at htr
    cases hd : updateChildren (fun c => Update s n c dt) (s w).mChildren with
    | none => simp only [hd] at htr; cases htr
    | some tl =>
      simp only [hd, Option.some.injEq] at htr
      obtain ⟨m, hm, hsum⟩ := countChildren_of_update
        (fun c => GetDescendantCount s n c) (s w).mChildren
        (fun c _ t ht => ih ht) hd (s w).mChildren.length
      refine ⟨m, by rw [GetDescendantCount_succ]; exact hm, ?_⟩
      rw [← htr, List.length_cons]
      omega

theorem countChildren_sum {recur : ι → Option Nat} {cs : List ι} {k m : Nat}
    (h : countChildren recur cs k = some m) :
    ∃ ns, List.Forall₂ (fun c n => recur c = some n) cs ns ∧ m = k + ns.sum := by
  induction cs generalizing k with
  | nil =>
    simp only [countChildren, Option.some.injEq] at h
    exact ⟨[], List.Forall₂.nil, by rw [← h]; rfl⟩
  | cons c rest ih =>
    rw [countChildren] at h
    cases hc : recur c with
    | none => simp only [hc] at h; cases h
    | some n =>
      simp only [hc] at h
      obtain ⟨ns, hf, e⟩ := ih h
      exact ⟨n :: ns, List.Forall₂.cons hc hf, by rw [e, List.sum_cons]; omega⟩

theorem forall₂_imp_of_mem {β : Type} {R S : ι → β → Prop} {l1 : List ι} {l2 : List β}
    (h : List.Forall₂ R l1 l2) (himp : ∀ a ∈ l1, ∀ b, R a b → S a b) :
    List.Forall₂ S l1 l2 := by
  induction h with
  | nil => exact List.Forall₂.nil
  | @cons a b l1 l2 hab _ ih =>
    exact List.Forall₂.cons (himp a (List.mem_cons_self _ _) b hab)
      (ih (fun a1 ha1 => himp a1 (List.mem_cons_of_mem _ ha1)))

theorem forall₂_length_add_sum {R : ι → Nat → Prop} {cs : List ι} {ns : List Nat}
    (h : List.Forall₂ R cs ns) : cs.length + ns.sum = (ns.map (fun k => 1 + k)).sum := by
  induction h with
  | nil => rfl
  | cons _ _ ih =>
    simp only [List.length_cons, List.sum_cons, List.map_cons]
    omega

theorem dispatchChildren_clicks {call : ι → Option (Bool × List (MouseEvent ι))}
    {cs : List ι}
    (hcall : ∀ c ∈ cs, ∀ r, call c = some r →
      (r.2.filter MouseEvent.isClick).length = if r.1 = true then 1 else 0)
    {b : Bool} {tr : List (MouseEvent ι)} (h : dispatchChildren call cs = some (b, tr)) :
    (tr.filter MouseEvent.isClick).length = if b = true then 1 else 0 := by
  induction cs generalizing b tr with
  | nil =>
    simp only [dispatchChildren, Option.some.injEq, Prod.mk.injEq] at h
    obtain ⟨rfl, rfl⟩ := h
    rfl
  | cons c rest ih =>
    rw [dispatchChildren] at h
    cases hc : call c with
    | none => rw [hc] at h; cases h
    | some rc =>
      obtain ⟨bc, tc⟩ := rc
      have hcc := hcall c (List.mem_cons_self _ _) _ hc
      simp only [hc] at h
      cases bc with
      | true =>
        simp only [Option.some.injEq, Prod.mk.injEq] at h
        obtain ⟨rfl, rfl⟩ := h
        exact hcc
      | false =>
        cases hr : dispatchChildren call rest with
        | none => simp only [hr] at h; cases h
        | some rr =>
          obtain ⟨b1, t1⟩ := rr
          simp only [hr, Option.some.injEq, Prod.mk.injEq] at h
          obtain ⟨rfl, rfl⟩ := h
          have ih1 := ih (fun c1 hc1 => hcall c1 (List.mem_cons_of_mem _ hc1)) hr
          rw [List.filter_append, List.length_append, ih1, hcc]
          simp

theorem MouseButton_clicks {s : State ι} (hs : WellFormed s) {fuel : Nat}
    {w : ι} {x y : ℚ} {button : Int} {down : Bool} {r : Bool × List (MouseEvent ι)}
    (h : MouseButton s fuel w x y button down = some r) :
    (r.2.filter MouseEvent.isClick).length = if r.1 = true then 1 else 0 := by
  induction fuel generalizing w x y r with
  | zero => simp [MouseButton] at h
  | succ n ih =>
    obtain ⟨res, tr⟩ := r
    obtain ⟨bl, tl, hd, hcase⟩ := MouseButton_succ_inv hs h
    have htl := dispatchChildren_clicks (fun c _ r hr => ih hr) hd
    rcases hcase with ⟨rfl, rfl, rfl⟩ | ⟨rfl, rfl, rfl⟩
    · simpa [List.filter_cons, MouseEvent.isClick] using htl
    · simp only [Bool.false_eq_true, if_false] at htl
      cases hb : InBounds s w x y <;>
        simp [List.filter_cons, MouseEvent.isClick, htl]

theorem MouseButton_leaf (s : State ι) {c : ι} (hleaf : (s c).mChildren = []) (fuel : Nat)
    (x y : ℚ) (button : Int) (down : Bool) :
    MouseButton s (fuel + 1) c x y button down =
      some (InBounds s c x y, MouseEvent.mouseButton c x y button down ::
        (if InBounds s c x y then [MouseEvent.onMouseButton c x y button down] else [])) := by
  simp [MouseButton, hleaf, mouseButtonLoop]

theorem MouseButton_events_on_child {s : State ι} (hs : WellFormed s) {h : ι → Nat}
    (hh : HeightBound s h) {P c : ι} (hc : c ∈ (s P).mChildren) {fuel : Nat} {X Y : ℚ}
    {button : Int} {down : Bool} {r : Bool × List (MouseEvent ι)}
    (hr : MouseButton s (fuel + 1) P X Y button down = some r) :
    ∀ e ∈ r.2, e.widget = c →
      ∃ r1, callChild s fuel X Y button down c = some r1 ∧ e ∈ r1.2 ∧
        ∀ e1 ∈ r1.2, e1 ∈ r.2 := by
  obtain ⟨res, tr⟩ := r
  obtain ⟨bl, tl, hd, hcase⟩ := MouseButton_succ_inv hs hr
  have hne : P ≠ c := by
    rintro rfl
    exact absurd (hh _ _ hc) (lt_irrefl _)
  have hsub : ∀ e ∈ tl, e ∈ tr := by
    intro e he
    rcases hcase with ⟨_, _, rfl⟩ | ⟨_, _, rfl⟩
    · exact List.mem_cons_of_mem _ he
    · exact List.mem_cons_of_mem _ (List.mem_append_left _ he)
  have hin : ∀ e ∈ tr, e.widget = c → e ∈ tl := by
    intro e he hw
    rcases hcase with ⟨_, _, rfl⟩ | ⟨_, _, rfl⟩
    · rcases List.mem_cons.mp he with rfl | he
      · exact absurd hw hne
      · exact he
    · rcases List.mem_cons.mp he with rfl | he
      · exact absurd hw hne
      · rcases List.mem_append.mp he with he | he
        · exact he
        · split_ifs at he
          · rw [List.mem_singleton] at he
            subst he
            exact absurd hw hne
          · cases he
  intro e he hw
  obtain ⟨c1, hc1, r1, hcall, her1, hall⟩ := dispatchChildren_events_sub hd e (hin e he hw)
  have hsubtree : InSubtree s c1 e.widget := MouseButton_events_inSubtree hs hcall e her1
  have hcc : c1 = c := by
    by_contra hne1
    rw [hw] at hsubtree
    exact subtrees_of_siblings_disjoint hs hh hc1 hc hne1 hsubtree Relation.ReflTransGen.refl
  subst hcc
  exact ⟨r1, hcall, her1, fun e1 he1 => hsub e1 (hall e1 he1)⟩

theorem inBounds_eq_and (s : State ι) (c : ι) (x y : ℚ) :
    InBounds s c x y = (xInRange s c x && yInRange s c y) := by
  unfold InBounds xInRange yInRange
  simp only
  split_ifs <;> rfl

theorem xInRange_iff (s : State ι) (c : ι) (x : ℚ) :
    xInRange s c x = true ↔ 0 ≤ x - (s c).mX ∧ x - (s c).mX < (s c).mWidth := by
  unfold xInRange
  simp only [ge_iff_le]
  split_ifs with h1
  · refine iff_of_false (fun hf => by simp at hf) ?_
    rintro ⟨a, b⟩
    rcases h1 with h1 | h1
    · exact absurd a (not_le.mpr h1)
    · exact absurd b (not_lt.mpr h1)
  · simp only [true_iff]
    push_neg at h1
    exact h1

theorem yInRange_iff (s : State ι) (c : ι) (y : ℚ) :
    yInRange s c y = true ↔ 0 ≤ y - (s c).mY ∧ y - (s c).mY < (s c).mHeight := by
  unfold yInRange
  simp only [ge_iff_le]
  split_ifs with h1
  · refine iff_of_false (fun hf => by simp at hf) ?_
    rintro ⟨a, b⟩
    rcases h1 with h1 | h1
    · exact absurd a (not_le.mpr h1)
    · exact absurd b (not_lt.mpr h1)
  · simp only [true_iff]
    push_neg at h1
    exact h1

theorem childOffset_of_parent {s : State ι} {c P : ι} (h : (s c).mParent = some P) :
    childOffset s c =
      ((s P).mX + (s c).mHAlign * ((s P).mWidth - (s P).mX) -
          (if (s c).mHAlign ≤ 1 / 2 then 0 else 1) * ((s c).mWidth + (s c).mX * 2),
        (s P).mY + (s c).mVAlign * ((s P).mHeight - (s P).mY) -
          (if (s c).mVAlign ≤ 1 / 2 then 0 else 1) * ((s c).mHeight + (s c).mY * 2)) := by
  simp [childOffset, ComputePosition, h]

theorem dispatchChildren_entered {call : ι → Option (Bool × List (MouseEvent ι))}
    {l1 : List ι} {c : ι} {l2 : List ι} {b : Bool} {tr : List (MouseEvent ι)}
    (h : dispatchChildren call (l1 ++ c :: l2) = some (b, tr))
    (hbefore : ∀ c1 ∈ l1, ∀ r, call c1 = some r → r.1 = false) :
    ∃ rc, call c = some rc ∧ ∀ e ∈ rc.2, e ∈ tr := by
  induction l1 generalizing b tr with
  | nil =>
    rw [List.nil_append, dispatchChildren] at h
    cases hc : call c with
    | none => rw [hc] at h; cases h
    | some rc =>
      obtain ⟨bc, tc⟩ := rc
      simp only [hc] at h
      refine ⟨(bc, tc), rfl, ?_⟩
      cases bc with
      | true =>
        simp only [Option.some.injEq, Prod.mk.injEq] at h
        obtain ⟨_, rfl⟩ := h
        exact fun e he => he
      | false =>
        cases hr : dispatchChildren call l2 with
        | none => simp only [hr] at h; cases h
        | some rr =>
          obtain ⟨b1, t1⟩ := rr
          simp only [hr, Option.some.injEq, Prod.mk.injEq] at h
          obtain ⟨_, rfl⟩ := h
          exact fun e he => List.mem_append_left _ he
  | cons a rest ih =>
    rw [List.cons_append, dispatchChildren] at h
    cases ha : call a with
    | none => rw [ha] at h; cases h
    | some ra =>
      obtain ⟨ba, ta⟩ := ra
      have hfalse : ba = false := hbefore a (List.mem_cons_self _ _) _ ha
      subst hfalse
      simp only [ha] at h
      cases hr : dispatchChildren call (rest ++ c :: l2) with
      | none => simp only [hr] at h; cases h
      | some rr =>
        obtain ⟨b1, t1⟩ := rr
        simp only [hr, Option.some.injEq, Prod.mk.injEq] at h
        obtain ⟨_, rfl⟩ := h
        obtain ⟨rc, hrc, hsub⟩ :=
          ih hr (fun c1 hc1 => hbefore c1 (List.mem_cons_of_mem _ hc1))
        exact ⟨rc, hrc, fun e he => List.mem_append_right _ (hsub e he)⟩

theorem enteredAt_of_child {s : State ι} {w c : ι} (hc : c ∈ (s w).mChildren)
    {x y : ℚ} {v : ι} {a b : ℚ}
    (h : EnteredAt s c (x - (childOffset s c).1) (y - (childOffset s c).2) v a b) :
    EnteredAt s w x y v a b := by
  induction h with
  | top => exact EnteredAt.child EnteredAt.top hc
  | child _ hc1 ih => exact EnteredAt.child ih hc1

theorem enteredAt_inSubtree {s : State ι} {w : ι} {x y : ℚ} {v : ι} {a b : ℚ}
    (h : EnteredAt s w x y v a b) : InSubtree s w v := by
  induction h with
  | top => exact Relation.ReflTransGen.refl
  | child _ hc ih => exact Relation.ReflTransGen.tail ih hc

theorem enteredAt_unique {s : State ι} (hs : WellFormed s) {h : ι → Nat}
    (hh : HeightBound s h) {w : ι} {x y : ℚ} {v : ι} {a b a1 b1 : ℚ}
    (h1 : EnteredAt s w x y v a b) (h2 : EnteredAt s w x y v a1 b1) :
    a1 = a ∧ b1 = b := by
  induction h1 generalizing a1 b1 with
  | top =>
    cases h2 with
    | top => exact ⟨rfl, rfl⟩
    | child hp hc =>
      have := height_le_of_inSubtree hh (enteredAt_inSubtree hp)
      have := hh _ _ hc
      omega
  | child hp hc ih =>
    cases h2 with
    | top =>
      have := height_le_of_inSubtree hh (enteredAt_inSubtree hp)
      have := hh _ _ hc
      omega
    | child hp1 hc1 =>
      have e : some _ = some _ :=
        (parent_of_mem_children hs hc1).symm.trans (parent_of_mem_children hs hc)
      cases e
      obtain ⟨rfl, rfl⟩ := ih hp1
      exact ⟨rfl, rfl⟩

theorem MouseButton_events_enteredAt {s : State ι} (hs : WellFormed s) {fuel : Nat}
    {w : ι} {x y : ℚ} {button : Int} {down : Bool} {r : Bool × List (MouseEvent ι)}
    (h : MouseButton s fuel w x y button down = some r) :
    ∀ e ∈ r.2, EnteredAt s w x y e.widget e.point.1 e.point.2 ∧
      e.buttonDown = (button, down) := by
  induction fuel generalizing w x y r with
  | zero => simp [MouseButton] at h
  | succ n ih =>
    obtain ⟨res, tr⟩ := r
    obtain ⟨bl, tl, hd, hcase⟩ := MouseButton_succ_inv hs h
    have htl : ∀ e ∈ tl, EnteredAt s w x y e.widget e.point.1 e.point.2 ∧
        e.buttonDown = (button, down) := by
      intro e he
      obtain ⟨c, hc, r1, hcall, her1⟩ := dispatchChildren_events hd e he
      obtain ⟨h1, h2⟩ := ih hcall e her1
      exact ⟨enteredAt_of_child hc h1, h2⟩
    intro e he
    rcases hcase with ⟨_, _, rfl⟩ | ⟨_, _, rfl⟩
    · rcases List.mem_cons.mp he with rfl | he
      · exact ⟨EnteredAt.top, rfl⟩
      · exact htl e he
    · rcases List.mem_cons.mp he with rfl | he
      · exact ⟨EnteredAt.top, rfl⟩
      · rcases List.mem_append.mp he with he | he
        · exact htl e he
        · split_ifs at he
          · rw [List.mem_singleton] at he
            subst he
            exact ⟨EnteredAt.top, rfl⟩
          · cases he

theorem round_ne_nan (q : ℚ) : F32.round q ≠ F32.nan := by
  unfold F32.round
  simp only
  split_ifs <;> simp

theorem rangeTest32_iff {d w : F32} (hd : d ≠ F32.nan) (hw : w ≠ F32.nan) :
    (F32.lt d (F32.finite 0) || F32.ge d w) = false ↔
      F32.le (F32.finite 0) d = true ∧ F32.lt d w = true := by
  cases d <;> cases w <;> simp_all [F32.lt, F32.ge, F32.le]

theorem lt32_trans {d w : F32} (h1 : F32.le (F32.finite 0) d = true)
    (h2 : F32.lt d w = true) : F32.lt (F32.finite 0) w = true := by
  cases d <;> cases w <;> simp_all [F32.lt, F32.ge, F32.le]
  exact lt_of_le_of_lt h1 h2

theorem inBounds32_iff (self : Widget32) (x y : F32)
    (hx : F32.sub x self.mX ≠ F32.nan) (hy : F32.sub y self.mY ≠ F32.nan)
    (hW : self.mWidth ≠ F32.nan) (hH : self.mHeight ≠ F32.nan) :
    InBounds32 self x y = true ↔
      (F32.le (F32.finite 0) (F32.sub x self.mX) = true ∧
        F32.lt (F32.sub x self.mX) self.mWidth = true) ∧
      (F32.le (F32.finite 0) (F32.sub y self.mY) = true ∧
        F32.lt (F32.sub y self.mY) self.mHeight = true) := by
  rw [← rangeTest32_iff hx hW, ← rangeTest32_iff hy hH]
  unfold InBounds32
  simp only
  cases h1 : (F32.lt (F32.sub x self.mX) (F32.finite 0) || F32.ge (F32.sub x self.mX) self.mWidth) <;>
    cases h2 : (F32.lt (F32.sub y self.mY) (F32.finite 0) ||
      F32.ge (F32.sub y self.mY) self.mHeight) <;> simp

end TraversalLemmas

end Gui

namespace Gui

section Claims

variable {ι : Type} [DecidableEq ι]

/-- C1: ownership uniqueness is an invariant of the widget tree.  From a well-formed
state, `p.AddChild(w, index)` with `index` at most the length of the child list of `p`
after `w` is detached, `w` not `p` and not an ancestor of `p`, is defined and ends in a
well-formed state; so does `p.RemoveChild(w)`; and so does every `w.Focus()` that
returns, which it does whenever the parent chains are finite. -/
theorem C1_ownership_invariant (s : State ι) (hs : WellFormed s) :
    (∀ p w index, index ≤ (detachedChildren s w p).length → w ≠ p → ¬ IsAncestor s w p →
      ∃ s1, AddChild s p w index = some s1 ∧ WellFormed s1) ∧
    (∀ p w, WellFormed (RemoveChild s p w)) ∧
    (∀ w fuel s1, Focus fuel s w = some s1 → WellFormed s1) ∧
    (∀ w d, DepthBound s d → ∃ s1, Focus (d w + 1) s w = some s1 ∧ WellFormed s1) := by
  refine ⟨?_, fun p w => wellFormed_removeChild hs p w, fun w fuel s1 h => Focus_wellFormed hs h, ?_⟩
  · intro p w index hi _ _
    obtain ⟨s1, h1⟩ := AddChild_isSome s p w index hi
    exact ⟨s1, h1, wellFormed_addChild hs h1⟩
  · intro w d hd
    obtain ⟨s1, h1⟩ := Focus_terminates hd w (d w + 1) (Nat.lt_succ_self _)
    exact ⟨s1, h1, Focus_wellFormed hs h1⟩

/-- C1 at `sampleTree`: `C.AddChild(D, 0)`, `A.RemoveChild(B)` and `D.Focus()` keep the
tree well-formed. -/
theorem C1_ownership_invariant_witness :
    WellFormed sampleTree ∧
    (∃ s1, AddChild sampleTree 3 4 0 = some s1 ∧ WellFormed s1) ∧
    WellFormed (RemoveChild sampleTree 1 2) ∧
    (∃ s1, Focus (sampleDepth 4 + 1) sampleTree 4 = some s1 ∧ WellFormed s1) :=
  have hs : WellFormed sampleTree := by decide
  have hd : DepthBound sampleTree sampleDepth := by decide
  ⟨hs,
    (C1_ownership_invariant sampleTree hs).1 3 4 0 (by decide) (by decide)
      (fun h => absurd (isAncestor_depth_lt hd h) (by decide)),
    (C1_ownership_invariant sampleTree hs).2.1 1 2,
    (C1_ownership_invariant sampleTree hs).2.2.2 4 sampleDepth hd⟩

/-- C2: reparenting.  In a well-formed state let `W` be a child of `P1`, `P2` a widget
other than `P1` and `W` that `W` is not an ancestor of, and `index` at most the child
count of `P2`.  Then `P2.AddChild(W, index)` is defined; afterwards `W` does not occur in
the child list of `P1`, which is the old list with its one entry `W` taken out; `W` occurs
exactly once in the child list of `P2`, at position `index`, and taking that entry out
gives back the old list of `P2`; and the parent of `W` is `P2`. -/
theorem C2_reparenting (s : State ι) (hs : WellFormed s) (P1 P2 W : ι) (index : Nat)
    (hne : P1 ≠ P2) (hW : (s W).mParent = some P1) (_hWP2 : W ≠ P2)
    (_hanc : ¬ IsAncestor s W P2) (hidx : index ≤ (s P2).mChildren.length) :
    ∃ s1, AddChild s P2 W index = some s1 ∧
      W ∉ (s1 P1).mChildren ∧
      (∃ l1 l2, (s P1).mChildren = l1 ++ W :: l2 ∧ (s1 P1).mChildren = l1 ++ l2) ∧
      (s1 P2).mChildren.count W = 1 ∧
      (s1 P2).mChildren[index]? = some W ∧
      (s1 P2).mChildren.eraseIdx index = (s P2).mChildren ∧
      (s1 W).mParent = some P2 := by
  have hs1 := wellFormed_iff.mp hs
  have hP2 : (s W).mParent ≠ some P2 := by
    rw [hW]
    exact fun e => hne (Option.some.inj e)
  have hd2 : detachedChildren s W P2 = (s P2).mChildren := detachedChildren_of_ne hP2
  have hd1 : detachedChildren s W P1 = (s P1).mChildren.filter (fun c => decide (c ≠ W)) := by
    unfold detachedChildren
    rw [if_pos hW]
  obtain ⟨s1, h1⟩ := AddChild_isSome s P2 W index
    (by rw [hd2]; exact hidx)
  have c1 : (s1 P1).mChildren = (s P1).mChildren.filter (fun c => decide (c ≠ W)) := by
    rw [AddChild_mChildren h1, if_neg hne, hd1]
  have c2 : (s1 P2).mChildren = (s P2).mChildren.insertIdx index W := by
    rw [AddChild_mChildren h1, if_pos rfl, hd2]
  have hnot : W ∉ (s P2).mChildren := fun hm => hP2 (hs1.2 W P2 hm)
  obtain ⟨l1, l2, e1, _, _, e2⟩ := filter_ne_of_count_eq_one (hs1.1 W P1 hW)
  refine ⟨s1, h1, ?_, ⟨l1, l2, e1, by rw [c1, e2]⟩, ?_, ?_, ?_, ?_⟩
  · rw [c1]
    simp [List.mem_filter]
  · rw [c2, (List.perm_insertIdx W _ hidx).count_eq, List.count_cons_self,
      List.count_eq_zero.mpr hnot]
  · rw [c2]
    have hlt : index < ((s P2).mChildren.insertIdx index W).length := by
      rw [List.length_insertIdx _ _ hidx]
      omega
    rw [List.getElem?_eq_getElem hlt, List.getElem_insertIdx_self _ _ _ hidx]
  · rw [c2, List.eraseIdx_insertIdx]
  · rw [AddChild_mParent h1, if_pos rfl]

/-- C2 at `sampleTree`: `C.AddChild(D, 0)` moves `D` from `B` to the front of `C`. -/
theorem C2_reparenting_witness :
    WellFormed sampleTree ∧ (sampleTree 4).mParent = some 2 ∧
    ∃ s1, AddChild sampleTree 3 4 0 = some s1 ∧
      (4 : Fin 5) ∉ (s1 2).mChildren ∧
      (∃ l1 l2, (sampleTree 2).mChildren = l1 ++ 4 :: l2 ∧ (s1 2).mChildren = l1 ++ l2) ∧
      (s1 3).mChildren.count 4 = 1 ∧
      (s1 3).mChildren[0]? = some 4 ∧
      (s1 3).mChildren.eraseIdx 0 = (sampleTree 3).mChildren ∧
      (s1 4).mParent = some 3 :=
  have hs : WellFormed sampleTree := by decide
  have hd : DepthBound sampleTree sampleDepth := by decide
  ⟨hs, by decide,
    C2_reparenting sampleTree hs 2 3 4 0 (by decide) (by decide) (by decide)
      (fun h => absurd (isAncestor_depth_lt hd h) (by decide)) (by decide)⟩

/-- C3: for a widget `w` that is parentless or a child of a widget other than `p`,
`p.AddChild(w)` is defined and appends `w`: the child list of `p` afterwards is the old
list followed by `w`, and the parent of `w` is `p`. -/
theorem C3_addChild_appends (s : State ι) (p w : ι)
    (h : (s w).mParent = none ∨ ∃ q, q ≠ p ∧ (s w).mParent = some q) :
    ∃ s1, AddChildLast s p w = some s1 ∧
      (s1 p).mChildren = (s p).mChildren ++ [w] ∧ (s1 w).mParent = some p := by
  have hp : (s w).mParent ≠ some p := by
    rcases h with h | ⟨q, hq, h⟩
    · rw [h]; exact fun e => Option.noConfusion e
    · rw [h]; exact fun e => hq (Option.some.inj e)
  have hd : detachedChildren s w p = (s p).mChildren := detachedChildren_of_ne hp
  unfold AddChildLast GetChildCount
  obtain ⟨s1, h1⟩ := AddChild_isSome s p w (s p).mChildren.length (by rw [hd])
  refine ⟨s1, h1, ?_, ?_⟩
  · rw [AddChild_mChildren h1, if_pos rfl, hd, List.insertIdx_length_self]
  · rw [AddChild_mParent h1, if_pos rfl]

/-- C3 at `sampleTree`: `C.AddChild(D)`, `D` being a child of `B`, makes the child list
of `C` equal to `[D]`. -/
theorem C3_addChild_appends_witness :
    (∃ q, q ≠ (3 : Fin 5) ∧ (sampleTree 4).mParent = some q) ∧
    ∃ s1, AddChildLast sampleTree 3 4 = some s1 ∧
      (s1 3).mChildren = (sampleTree 3).mChildren ++ [4] ∧ (s1 4).mParent = some 3 :=
  ⟨⟨2, by decide, by decide⟩,
    C3_addChild_appends sampleTree 3 4 (Or.inr ⟨2, by decide, by decide⟩)⟩

/-- C4: `p.RemoveChild(w)` leaves the whole state unchanged when the parent of `w` is not
`p`; in particular the child list of `p`, the parent of `w` and the child list of the
actual parent of `w` are as before. -/
theorem C4_removeChild_noop (s : State ι) (p w : ι) (h : (s w).mParent ≠ some p) :
    RemoveChild s p w = s ∧
      (RemoveChild s p w p).mChildren = (s p).mChildren ∧
      (RemoveChild s p w w).mParent = (s w).mParent ∧
      ∀ q, (s w).mParent = some q → (RemoveChild s p w q).mChildren = (s q).mChildren := by
  have e : RemoveChild s p w = s := by
    unfold RemoveChild
    rw [if_pos h]
  rw [e]
  exact ⟨rfl, rfl, rfl, fun _ _ => rfl⟩

/-- C4 at `sampleTree`: `C.RemoveChild(D)` changes nothing, `D` being a child of `B`. -/
theorem C4_removeChild_noop_witness :
    (sampleTree 4).mParent ≠ some 3 ∧
    RemoveChild sampleTree 3 4 = sampleTree ∧
      (RemoveChild sampleTree 3 4 3).mChildren = (sampleTree 3).mChildren ∧
      (RemoveChild sampleTree 3 4 4).mParent = (sampleTree 4).mParent ∧
      ∀ q, (sampleTree 4).mParent = some q →
        (RemoveChild sampleTree 3 4 q).mChildren = (sampleTree q).mChildren :=
  ⟨by decide, C4_removeChild_noop sampleTree 3 4 (by decide)⟩

/-- C5: in a well-formed state, `p.RemoveChild(w)` with the parent of `w` equal to `p`
clears the parent of `w` and removes the first and only entry of the child list of `p`
that is `w`: the list was `l1 ++ w :: l2` with `w` in neither part and becomes
`l1 ++ l2`, one entry shorter. -/
theorem C5_removeChild_removes (s : State ι) (hs : WellFormed s) (p w : ι)
    (h : (s w).mParent = some p) :
    (RemoveChild s p w w).mParent = none ∧
    (∃ l1 l2, (s p).mChildren = l1 ++ w :: l2 ∧ w ∉ l1 ∧ w ∉ l2 ∧
      (RemoveChild s p w p).mChildren = l1 ++ l2) ∧
    (RemoveChild s p w p).mChildren.length + 1 = (s p).mChildren.length := by
  have hs1 := wellFormed_iff.mp hs
  obtain ⟨l1, l2, e1, n1, n2, e2⟩ := filter_ne_of_count_eq_one (hs1.1 w p h)
  have c : (RemoveChild s p w p).mChildren = l1 ++ l2 := by
    rw [RemoveChild_mChildren, if_pos ⟨h, rfl⟩, e2]
  refine ⟨?_, ⟨l1, l2, e1, n1, n2, c⟩, ?_⟩
  · rw [RemoveChild_mParent, if_pos ⟨h, rfl⟩]
  · rw [c, e1]
    simp only [List.length_append, List.length_cons]
    omega

/-- C5 at `sampleTree`: `A.RemoveChild(B)` turns the child list `[B, C]` of `A` into
`[C]` and leaves `B` parentless. -/
theorem C5_removeChild_removes_witness :
    WellFormed sampleTree ∧ (sampleTree 2).mParent = some 1 ∧
    (RemoveChild sampleTree 1 2 2).mParent = none ∧
    (∃ l1 l2, (sampleTree 1).mChildren = l1 ++ 2 :: l2 ∧ (2 : Fin 5) ∉ l1 ∧ (2 : Fin 5) ∉ l2 ∧
      (RemoveChild sampleTree 1 2 1).mChildren = l1 ++ l2) ∧
    (RemoveChild sampleTree 1 2 1).mChildren.length + 1 = (sampleTree 1).mChildren.length :=
  ⟨by decide, by decide, C5_removeChild_removes sampleTree (by decide) 1 2 (by decide)⟩

/-- C6: in a well-formed tree whose parent chains are finite (depth certificate `d`),
`W.Focus()` returns, the tree stays well-formed, and afterwards every widget `v` on the
path from `W` towards the root that has a parent `p` (every widget of the path but the
root) is at index 0 of the child list of `p`. -/
theorem C6_focus_path_at_front (s : State ι) (hs : WellFormed s) (d : ι → Nat)
    (hd : DepthBound s d) (W : ι) :
    ∃ s1, Focus (d W + 1) s W = some s1 ∧ WellFormed s1 ∧
      ∀ v p, OnPathToRoot s W v → (s v).mParent = some p →
        (s1 v).mParent = some p ∧ (s1 p).mChildren[0]? = some v := by
  obtain ⟨s1, h1⟩ := Focus_terminates hd W (d W + 1) (Nat.lt_succ_self _)
  refine ⟨s1, h1, Focus_wellFormed hs h1, fun v p hv hp => ⟨?_, ?_⟩⟩
  · rw [Focus_mParent h1, hp]
  · exact Focus_head_on_path hd h1 v p hv hp

/-- C6 at `sampleTree`: after `D.Focus()` the widgets `D`, `B` and `A` of the path from
`D` to the root are each first in the child list of their parent. -/
theorem C6_focus_path_at_front_witness :
    WellFormed sampleTree ∧ DepthBound sampleTree sampleDepth ∧
    ∃ s1, Focus (sampleDepth 4 + 1) sampleTree 4 = some s1 ∧ WellFormed s1 ∧
      ∀ v p, OnPathToRoot sampleTree 4 v → (sampleTree v).mParent = some p →
        (s1 v).mParent = some p ∧ (s1 p).mChildren[0]? = some v :=
  ⟨by decide, by decide,
    C6_focus_path_at_front sampleTree (by decide) sampleDepth (by decide) 4⟩

/-- C7: hit-test priority.  In a well-formed tree of finite height let `S1` come before
`S2` in the child list of `P`, and let `(x, y)`, translated by the computed offset of
each, lie in the own region of both, while no child listed before `S1` consumes the
event.  Then `P.MouseButton(x, y, button, down)` returns `true`; a click handler is
invoked and every one invoked belongs to the subtree of `S1`; and no event of the
dispatch, neither an entry of `MouseButton` nor a click handler, concerns `S2` or a
widget of its subtree. -/
theorem C7_hit_test_priority (s : State ι) (hs : WellFormed s) (h : ι → Nat)
    (hh : HeightBound s h) (P S1 S2 : ι) (l1 l2 l3 : List ι)
    (hch : (s P).mChildren = l1 ++ S1 :: (l2 ++ S2 :: l3))
    (x y : ℚ) (button : Int) (down : Bool) (o1 o2 : ℚ × ℚ)
    (ho1 : ComputePosition s S1 none = some o1) (_ho2 : ComputePosition s S2 none = some o2)
    (hb1 : InBounds s S1 (x - o1.1) (y - o1.2) = true)
    (_hb2 : InBounds s S2 (x - o2.1) (y - o2.2) = true)
    (hbefore : ∀ c ∈ l1, ∀ o fuel r, ComputePosition s c none = some o →
      MouseButton s fuel c (x - o.1) (y - o.2) button down = some r → r.1 = false) :
    ∃ tr, MouseButton s (h P + 1) P x y button down = some (true, tr) ∧
      (∃ e ∈ tr, e.isClick = true) ∧
      (∀ e ∈ tr, e.isClick = true → InSubtree s S1 e.widget) ∧
      (∀ e ∈ tr, ¬ InSubtree s S2 e.widget) := by
  have hS1 : S1 ∈ (s P).mChildren := by rw [hch]; simp
  have hS2 : S2 ∈ (s P).mChildren := by rw [hch]; simp
  have hl1 : ∀ c ∈ l1, c ∈ (s P).mChildren := fun c hc => by
    rw [hch]; exact List.mem_append_left _ hc
  have hcount := (wellFormed_iff.mp hs).1 S2 P (parent_of_mem_children hs hS2)
  rw [hch] at hcount
  simp only [List.count_append, List.count_cons_self, List.count_cons] at hcount
  have hne1 : S1 ≠ S2 := by
    intro e
    rw [e] at hcount
    simp at hcount
    omega
  have hnel : ∀ c ∈ l1, c ≠ S2 := by
    intro c hc e
    have : 0 < l1.count S2 := List.count_pos_iff.mpr (e ▸ hc)
    omega
  -- the children listed before `S1` return `false`
  have hfalse : ∀ c ∈ l1, ∃ t, callChild s (h P) x y button down c = some (false, t) := by
    intro c hc
    obtain ⟨⟨b, t⟩, hr⟩ := MouseButton_total hs hh (h P) c (hh P c (hl1 c hc))
      (x - (childOffset s c).1) (y - (childOffset s c).2) button down
    have hb : b = false := hbefore c hc (childOffset s c) (h P) (b, t)
      (ComputePosition_of_parent (children_have_parent hs P c (hl1 c hc)) none) hr
    subst hb
    exact ⟨t, hr⟩
  -- `S1` returns `true`
  obtain ⟨⟨b1, t1⟩, hr1⟩ := MouseButton_total hs hh (h P) S1 (hh P S1 hS1)
    (x - o1.1) (y - o1.2) button down
  have hb1t : b1 = true := MouseButton_true_of_inBounds hs hr1 hb1
  subst hb1t
  have hcall1 : callChild s (h P) x y button down S1 = some (true, t1) := by
    rw [callChild_eq hs hS1 ho1]; exact hr1
  obtain ⟨pre, hpre, hd⟩ := dispatchChildren_of_false hfalse (S1 :: (l2 ++ S2 :: l3))
  rw [dispatchChildren, hcall1] at hd
  simp only [Option.map_some'] at hd
  have hP : MouseButton s (h P + 1) P x y button down =
      some (true, MouseEvent.mouseButton P x y button down :: (pre ++ t1)) := by
    rw [MouseButton_succ hs, hch, hd]
  have hpre_sub : ∀ e ∈ pre, ∃ c ∈ l1, InSubtree s c e.widget ∧ e.isClick = false := by
    intro e he
    obtain ⟨c, hc, t, ht, het⟩ := hpre e he
    refine ⟨c, hc, MouseButton_events_inSubtree hs ht e het, ?_⟩
    by_contra hcl
    have := (MouseButton_click_iff hs ht).mpr ⟨e, het, by simpa using hcl⟩
    cases this
  refine ⟨_, hP, ?_, ?_, ?_⟩
  · obtain ⟨e, he, hcl⟩ := (MouseButton_click_iff hs hr1).mp rfl
    exact ⟨e, List.mem_cons_of_mem _ (List.mem_append_right _ he), hcl⟩
  · intro e he hcl
    simp only [List.mem_cons, List.mem_append] at he
    rcases he with rfl | he | he
    · cases hcl
    · obtain ⟨c, _, _, hno⟩ := hpre_sub e he
      rw [hno] at hcl; cases hcl
    · exact MouseButton_events_inSubtree hs hr1 e he
  · intro e he hin
    simp only [List.mem_cons, List.mem_append] at he
    rcases he with rfl | he | he
    · have := height_le_of_inSubtree hh hin
      have := hh P S2 hS2
      simp only [MouseEvent.widget] at *
      omega
    · obtain ⟨c, hc, hsub, _⟩ := hpre_sub e he
      exact subtrees_of_siblings_disjoint hs hh (hl1 c hc) hS2 (hnel c hc) hsub hin
    · exact subtrees_of_siblings_disjoint hs hh hS1 hS2 hne1
        (MouseButton_events_inSubtree hs hr1 e he) hin

/-- C7 at `overlapping`: the point `(20, 20)` lies in `S1` and in `S2`; the dispatch on
`P` returns `true` with a click in the subtree of `S1` and no event in that of `S2`. -/
theorem C7_hit_test_priority_witness :
    WellFormed overlapping ∧ HeightBound overlapping rootHeight ∧
    (overlapping 0).mChildren = [] ++ 1 :: ([] ++ 2 :: []) ∧
    InBounds overlapping 1 (20 - 0) (20 - 0) = true ∧
    InBounds overlapping 2 (20 - 0) (20 - 0) = true ∧
    ∃ tr, MouseButton overlapping (rootHeight (0 : Fin 3) + 1) 0 20 20 1 true =
        some (true, tr) ∧
      (∃ e ∈ tr, e.isClick = true) ∧
      (∀ e ∈ tr, e.isClick = true → InSubtree overlapping 1 e.widget) ∧
      (∀ e ∈ tr, ¬ InSubtree overlapping 2 e.widget) :=
  have hb1 : InBounds overlapping 1 (20 - 0) (20 - 0) = true := by decide!
  have hb2 : InBounds overlapping 2 (20 - 0) (20 - 0) = true := by decide!
  ⟨by decide, by decide, rfl, hb1, hb2,
    C7_hit_test_priority overlapping (by decide) rootHeight (by decide) 0 1 2 [] [] [] rfl
      20 20 1 true (0, 0) (0, 0)
      (by decide!) (by decide!) hb1 hb2 (fun c hc => absurd hc (List.not_mem_nil c))⟩

/-- C8: in a well-formed tree of finite height `w.MouseButton(x, y, button, down)`
returns a result, and it returns `true` exactly when some child `c`, with computed offset
`o`, returns `true` from `c.MouseButton(x - o.1, y - o.2, button, down)`, or
`w.InBounds(x, y)` holds; the hook `OnMouseButton` of `w` is invoked, with the arguments
`(x, y, button, down)`, exactly when no child consumed the event and `w.InBounds(x, y)`
holds.  In the scenario `root(0,0,100,100)` with child `A(10,10,20,20)`,
`root.MouseButton(15,15,1,true)` returns `true`, enters `root` and `A` and invokes the
hook of `A` only. -/
theorem C8_mouseButton_result :
    (∀ (κ : Type) [DecidableEq κ] (s : State κ), WellFormed s →
      ∀ (h : κ → Nat), HeightBound s h →
      ∀ (w : κ) (x y : ℚ) (button : Int) (down : Bool),
      ∃ r, MouseButton s (h w + 1) w x y button down = some r ∧
        (r.1 = true ↔
          (∃ c ∈ (s w).mChildren, ∃ o fuel rc, ComputePosition s c none = some o ∧
            MouseButton s fuel c (x - o.1) (y - o.2) button down = some rc ∧
            rc.1 = true) ∨ InBounds s w x y = true) ∧
        (MouseEvent.onMouseButton w x y button down ∈ r.2 ↔
          ¬ (∃ c ∈ (s w).mChildren, ∃ o fuel rc, ComputePosition s c none = some o ∧
            MouseButton s fuel c (x - o.1) (y - o.2) button down = some rc ∧
            rc.1 = true) ∧ InBounds s w x y = true) ∧
        (∀ e ∈ r.2, e.isClick = true → e.widget = w →
          e = MouseEvent.onMouseButton w x y button down)) ∧
    MouseButton rootWithA 2 0 15 15 1 true =
      some (true, [MouseEvent.mouseButton 0 15 15 1 true,
        MouseEvent.mouseButton 1 15 15 1 true, MouseEvent.onMouseButton 1 15 15 1 true]) := by
  refine ⟨?_, by decide!⟩
  intro κ _ s hs h hh w x y button down
  obtain ⟨⟨res, tr⟩, hr⟩ := MouseButton_total hs hh (h w + 1) w (Nat.lt_succ_self _)
    x y button down
  obtain ⟨bl, tl, hd, hcase⟩ := MouseButton_succ_inv hs hr
  -- events of the children never concern `w`
  have htl : ∀ e ∈ tl, e.widget ≠ w := by
    intro e he hew
    obtain ⟨c, hc, rc, hrc, hec⟩ := dispatchChildren_events hd e he
    have h1 := height_le_of_inSubtree hh (MouseButton_events_inSubtree hs hrc e hec)
    have h2 := hh w c hc
    rw [hew] at h1
    omega
  -- a child consumes the event exactly when the loop returns `true`
  have hcons : (∃ c ∈ (s w).mChildren, ∃ o fuel rc, ComputePosition s c none = some o ∧
      MouseButton s fuel c (x - o.1) (y - o.2) button down = some rc ∧ rc.1 = true) ↔
      bl = true := by
    constructor
    · rintro ⟨c, hc, o, fuel, rc, ho, hrc, htrue⟩
      rcases dispatchChildren_inv hd with ⟨hb, _⟩ | ⟨_, hall, _⟩
      · exact hb
      · obtain ⟨t, ht⟩ := hall c hc
        rw [callChild_eq hs hc ho] at ht
        have := MouseButton_unique hs hrc ht
        rw [this] at htrue
        cases htrue
    · intro hb
      rcases dispatchChildren_inv hd with ⟨_, l1, c, l2, pre, trc, e1, _, h2, _, _⟩ | ⟨hb1, _⟩
      · have hc : c ∈ (s w).mChildren := by rw [e1]; simp
        have ho := ComputePosition_of_parent (children_have_parent hs w c hc) none
        rw [callChild_eq hs hc ho] at h2
        exact ⟨c, hc, _, _, _, ho, h2, rfl⟩
      · rw [hb] at hb1; cases hb1
  refine ⟨_, hr, ?_, ?_, ?_⟩
  · rw [hcons]
    rcases hcase with ⟨hb, hres, _⟩ | ⟨hb, hres, _⟩
    · simp [hb, hres]
    · simp [hb, hres]
  · rw [hcons]
    rcases hcase with ⟨hb, _, htr⟩ | ⟨hb, _, htr⟩
    · simp only [hb, not_true_eq_false, false_and, iff_false, htr, List.mem_cons]
      rintro (e | e)
      · cases e
      · exact htl _ e rfl
    · simp only [hb, Bool.false_eq_true, not_false_eq_true, true_and, htr]
      constructor
      · intro he
        simp only [List.cons_append, List.mem_cons, List.mem_append] at he
        rcases he with e | e | e
        · cases e
        · exact absurd rfl (htl _ e)
        · by_contra hb2
          simp only [Bool.not_eq_true] at hb2
          simp [hb2] at e
      · intro hb2
        simp [hb2]
  · intro e he hcl hew
    rcases hcase with ⟨_, _, htr⟩ | ⟨_, _, htr⟩
    · rw [htr] at he
      rcases List.mem_cons.mp he with e1 | e1
      · rw [e1] at hcl; cases hcl
      · exact absurd hew (htl e e1)
    · rw [htr] at he
      simp only [List.cons_append, List.mem_cons, List.mem_append] at he
      rcases he with e1 | e1 | e1
      · rw [e1] at hcl; cases hcl
      · exact absurd hew (htl e e1)
      · split at e1
        · simpa using e1
        · simp at e1

/-- C8 at `rootWithA`: the dispatch of `(15, 15)` on `root` returns a result that obeys
the characterisation. -/
theorem C8_mouseButton_result_witness :
    WellFormed rootWithA ∧ HeightBound rootWithA rootHeight ∧
    ∃ r, MouseButton rootWithA (rootHeight (0 : Fin 2) + 1) 0 15 15 1 true = some r ∧
      (r.1 = true ↔
        (∃ c ∈ (rootWithA 0).mChildren, ∃ o fuel rc,
          ComputePosition rootWithA c none = some o ∧
          MouseButton rootWithA fuel c (15 - o.1) (15 - o.2) 1 true = some rc ∧
          rc.1 = true) ∨ InBounds rootWithA 0 15 15 = true) ∧
      (MouseEvent.onMouseButton 0 15 15 1 true ∈ r.2 ↔
        ¬ (∃ c ∈ (rootWithA 0).mChildren, ∃ o fuel rc,
          ComputePosition rootWithA c none = some o ∧
          MouseButton rootWithA fuel c (15 - o.1) (15 - o.2) 1 true = some rc ∧
          rc.1 = true) ∧ InBounds rootWithA 0 15 15 = true) ∧
      (∀ e ∈ r.2, e.isClick = true → e.widget = 0 →
        e = MouseEvent.onMouseButton 0 15 15 1 true) :=
  ⟨by decide, by decide,
    C8_mouseButton_result.1 (Fin 2) rootWithA (by decide) rootHeight (by decide)
      0 15 15 1 true⟩

/-- C10: offset round trip.  In a well-formed tree of finite height `w.Draw(g)` returns;
the sum of all `(dx, dy)` passed to `Translate` is `(0, 0)`; the renderer origin after the
call equals the origin at its entry; the commands are well-bracketed, every
`Translate(x, y)` being matched by `Translate(-x, -y)` with the same `x` and `y`; and the
same holds of every call of `Draw` that returns, so of every recursive call. -/
theorem C10_offset_round_trip (s : State ι) (hs : WellFormed s) (h : ι → Nat)
    (hh : HeightBound s h) (w : ι) :
    (∃ tr, Draw s (h w + 1) w = some tr ∧ translateSum tr = (0, 0) ∧
      (∀ o, originAfter o tr = o) ∧ Paired tr) ∧
    (∀ fuel c trc, Draw s fuel c = some trc →
      translateSum trc = (0, 0) ∧ (∀ o, originAfter o trc = o) ∧ Paired trc) := by
  have key : ∀ fuel c trc, Draw s fuel c = some trc →
      translateSum trc = (0, 0) ∧ (∀ o, originAfter o trc = o) ∧ Paired trc := by
    intro fuel c trc hc
    have hp := Draw_paired s fuel c trc hc
    exact ⟨translateSum_of_paired hp, originAfter_of_paired hp, hp⟩
  obtain ⟨tr, htr⟩ := Draw_total hs hh (h w + 1) w (Nat.lt_succ_self _)
  exact ⟨⟨tr, htr, key _ _ _ htr⟩, key⟩

/-- C10 at `sampleTree`: the draw traversal from the root returns and leaves the origin
where it was. -/
theorem C10_offset_round_trip_witness :
    WellFormed sampleTree ∧ HeightBound sampleTree sampleHeight ∧
    (∃ tr, Draw sampleTree (sampleHeight 0 + 1) 0 = some tr ∧ translateSum tr = (0, 0) ∧
      (∀ o, originAfter o tr = o) ∧ Paired tr) ∧
    (∀ fuel c trc, Draw sampleTree fuel c = some trc →
      translateSum trc = (0, 0) ∧ (∀ o, originAfter o trc = o) ∧ Paired trc) :=
  ⟨by decide, by decide,
    C10_offset_round_trip sampleTree (by decide) sampleHeight (by decide) 0⟩

/-- C9: draw/hit-test inversion.  In a well-formed finite tree let `W` be a child of `P`
that has a sibling.  `W.Focus()` returns, and afterwards `W` is at index 0 of the child
list of `P`; the dispatch `P.MouseButton` enters `P` and then runs the complete dispatch
on `W`, none of whose events concerns a sibling, before anything else; and the commands of
`P.Draw` end with `Translate(o)`, the complete commands of `W.Draw`, `Translate(-o)`, the
hook `OnDraw` of every sibling being invoked before that block and that of `W` only inside
it.  In the container scenario `[Load, Zoom]`, after `Zoom.Focus()` the child order is
`[Zoom, Load]` and `Draw` on the container issues translate/draw/translate-back for `Load`
first and then for `Zoom`. -/
theorem C9_focus_draw_hit_inversion :
    (∀ (κ : Type) [DecidableEq κ] (s : State κ), WellFormed s →
      ∀ (d h : κ → Nat), DepthBound s d → HeightBound s h →
      ∀ (W P : κ), (s W).mParent = some P → (∃ sib ∈ (s P).mChildren, sib ≠ W) →
      ∃ s1 o, Focus (d W + 1) s W = some s1 ∧ (s1 P).mChildren[0]? = some W ∧
        ComputePosition s1 W none = some o ∧
        (∀ (x y : ℚ) (button : Int) (down : Bool), ∃ r rW rest,
          MouseButton s1 (h P + 1) P x y button down = some r ∧
          MouseButton s1 (h W + 1) W (x - o.1) (y - o.2) button down = some rW ∧
          r.2 = MouseEvent.mouseButton P x y button down :: rW.2 ++ rest ∧
          ∀ e ∈ rW.2, ∀ sib ∈ (s1 P).mChildren, sib ≠ W → e.widget ≠ sib) ∧
        (∃ (tr before trW : List (DrawCmd κ)), Draw s1 (h P + 1) P = some tr ∧
          Draw s1 (h W + 1) W = some trW ∧
          tr = before ++ DrawCmd.translate o.1 o.2 :: trW ++
            [DrawCmd.translate (-o.1) (-o.2)] ∧
          DrawCmd.onDraw W ∉ before ∧
          ∀ sib ∈ (s1 P).mChildren, sib ≠ W →
            DrawCmd.onDraw sib ∈ before ∧ DrawCmd.onDraw sib ∉ trW)) ∧
    (Focus 2 loadZoom 2).map (fun s1 => ((s1 0).mChildren, Draw s1 2 0)) =
      some ([2, 1], some [DrawCmd.onDraw 0,
        DrawCmd.translate 0 540, DrawCmd.onDraw 1, DrawCmd.translate 0 (-540),
        DrawCmd.translate 700 540, DrawCmd.onDraw 2, DrawCmd.translate (-700) (-540)]) := by
  refine ⟨?_, by decide!⟩
  intro κ _ s hs d h hd hh W P hWP _
  obtain ⟨s1, hf⟩ := Focus_terminates hd W (d W + 1) (Nat.lt_succ_self _)
  have hs1 : WellFormed s1 := Focus_wellFormed hs hf
  have hh1 : HeightBound s1 h := heightBound_of_focus hs hh hf
  have hhead : (s1 P).mChildren[0]? = some W :=
    Focus_head_on_path hd hf W P Relation.ReflTransGen.refl hWP
  obtain ⟨rest, hlist⟩ : ∃ rest, (s1 P).mChildren = W :: rest := by
    cases hl : (s1 P).mChildren with
    | nil => rw [hl] at hhead; cases hhead
    | cons a rest =>
      rw [hl] at hhead
      simp only [List.getElem?_cons_zero, Option.some.injEq] at hhead
      exact ⟨rest, by rw [hhead]⟩
  have hW : W ∈ (s1 P).mChildren := by rw [hlist]; exact List.mem_cons_self _ _
  have hWlt : h W < h P := hh1 P W hW
  have ho : ComputePosition s1 W none = some (childOffset s1 W) :=
    ComputePosition_of_parent (children_have_parent hs1 P W hW) none
  have hsib : ∀ sib ∈ (s1 P).mChildren, sib ≠ W → ¬ InSubtree s1 W sib := by
    intro sib hsib hne hin
    exact subtrees_of_siblings_disjoint hs1 hh1 hW hsib (Ne.symm hne) hin
      Relation.ReflTransGen.refl
  have hrest : ∀ c ∈ rest, c ∈ (s1 P).mChildren ∧ c ≠ W := by
    intro c hc
    refine ⟨by rw [hlist]; exact List.mem_cons_of_mem _ hc, ?_⟩
    rintro rfl
    have hcount := (wellFormed_iff.mp hs1).1 c P (parent_of_mem_children hs1 hW)
    rw [hlist, List.count_cons_self] at hcount
    have : 0 < rest.count c := List.count_pos_iff.mpr hc
    omega
  refine ⟨s1, childOffset s1 W, hf, hhead, ho, ?_, ?_⟩
  · intro x y button down
    obtain ⟨rW, hrW⟩ := MouseButton_total hs1 hh1 (h W + 1) W (Nat.lt_succ_self _)
      (x - (childOffset s1 W).1) (y - (childOffset s1 W).2) button down
    have hcall : callChild s1 (h P) x y button down W = some rW :=
      MouseButton_mono hs1 hrW hWlt
    obtain ⟨⟨res, tr⟩, hr⟩ := MouseButton_total hs1 hh1 (h P + 1) P (Nat.lt_succ_self _)
      x y button down
    have hev : ∀ e ∈ rW.2, ∀ sib ∈ (s1 P).mChildren, sib ≠ W → e.widget ≠ sib := by
      intro e he sib hsibm hne heq
      have := MouseButton_events_inSubtree hs1 hrW e he
      rw [heq] at this
      exact hsib sib hsibm hne this
    obtain ⟨bl, tl, hdisp, hcase⟩ := MouseButton_succ_inv hs1 hr
    rw [hlist, dispatchChildren, hcall] at hdisp
    obtain ⟨bW, tW⟩ := rW
    have htl : ∃ rest1, tl = tW ++ rest1 := by
      cases bW with
      | true =>
        simp only [Option.some.injEq, Prod.mk.injEq] at hdisp
        exact ⟨[], by rw [← hdisp.2]; simp⟩
      | false =>
        cases hrem : dispatchChildren (callChild s1 (h P) x y button down) rest with
        | none => simp only [hrem] at hdisp; cases hdisp
        | some r1 =>
          simp only [hrem, Option.some.injEq, Prod.mk.injEq] at hdisp
          exact ⟨r1.2, hdisp.2.symm⟩
    obtain ⟨rest1, htl⟩ := htl
    rcases hcase with ⟨_, _, htr⟩ | ⟨_, _, htr⟩
    · exact ⟨(res, tr), (bW, tW), rest1, hr, hrW, by rw [htr, htl]; rfl, hev⟩
    · exact ⟨(res, tr), (bW, tW), _, hr, hrW,
        by rw [htr, htl, List.cons_append, List.append_assoc]; rfl, hev⟩
  · obtain ⟨trW, htrW⟩ := Draw_total hs1 hh1 (h W + 1) W (Nat.lt_succ_self _)
    have hrecW : (fun c => Draw s1 (h P) c) W = some trW := Draw_mono hs1 htrW hWlt
    obtain ⟨pre, hpre⟩ := drawChildren_total s1 (fun c => Draw s1 (h P) c) rest.reverse
      (fun c hc => Draw_total hs1 hh1 (h P) c
        (hh1 P c (hrest c (List.mem_reverse.mp hc)).1))
    have hall := drawChildren_append s1 (fun c => Draw s1 (h P) c) hpre
      (drawChildren_singleton s1 (fun c => Draw s1 (h P) c) hrecW)
    have hP : Draw s1 (h P + 1) P = some (DrawCmd.onDraw P :: (pre ++
        (DrawCmd.translate (childOffset s1 W).1 (childOffset s1 W).2 :: trW ++
          [DrawCmd.translate (-(childOffset s1 W).1) (-(childOffset s1 W).2)]))) := by
      rw [Draw_succ hs1, hlist, List.reverse_cons, hall]
    have hpre_sub : ∀ v, DrawCmd.onDraw v ∈ pre → ∃ c ∈ rest, InSubtree s1 c v := by
      intro v hv
      obtain ⟨c, hc, t, ht, hvt⟩ := drawChildren_onDraw s1 _ hpre v hv
      exact ⟨c, List.mem_reverse.mp hc, Draw_onDraw_inSubtree hs1 ht v hvt⟩
    refine ⟨_, DrawCmd.onDraw P :: pre, trW, hP, htrW, by simp, ?_, ?_⟩
    · intro hmem
      rcases List.mem_cons.mp hmem with e | hmem
      · cases e
        exact absurd hWlt (lt_irrefl _)
      · obtain ⟨c, hc, hin⟩ := hpre_sub W hmem
        exact subtrees_of_siblings_disjoint hs1 hh1 (hrest c hc).1 hW (hrest c hc).2 hin
          Relation.ReflTransGen.refl
    · intro sib hsibm hne
      constructor
      · have hsr : sib ∈ rest := by
          rw [hlist] at hsibm
          rcases List.mem_cons.mp hsibm with e | hm
          · exact absurd e hne
          · exact hm
        obtain ⟨t, ht, hsub⟩ := drawChildren_mem s1 _ hpre sib (List.mem_reverse.mpr hsr)
        exact List.mem_cons_of_mem _ (hsub _ (Draw_head ht))
      · intro hmem
        exact hsib sib hsibm hne (Draw_onDraw_inSubtree hs1 htrW sib hmem)

/-- C9 at `loadZoom`: `Zoom.Focus()` puts `Zoom` first for the dispatch and last for the
draw traversal of the container. -/
theorem C9_focus_draw_hit_inversion_witness :
    WellFormed loadZoom ∧ DepthBound loadZoom rootDepth ∧ HeightBound loadZoom rootHeight ∧
    (loadZoom 2).mParent = some 0 ∧ (∃ sib ∈ (loadZoom 0).mChildren, sib ≠ 2) ∧
    ∃ s1 o, Focus (rootDepth (2 : Fin 3) + 1) loadZoom 2 = some s1 ∧
      (s1 0).mChildren[0]? = some 2 ∧
      ComputePosition s1 2 none = some o ∧
      (∀ (x y : ℚ) (button : Int) (down : Bool), ∃ r rW rest,
        MouseButton s1 (rootHeight (0 : Fin 3) + 1) 0 x y button down = some r ∧
        MouseButton s1 (rootHeight (2 : Fin 3) + 1) 2 (x - o.1) (y - o.2) button down =
          some rW ∧
        r.2 = MouseEvent.mouseButton 0 x y button down :: rW.2 ++ rest ∧
        ∀ e ∈ rW.2, ∀ sib ∈ (s1 0).mChildren, sib ≠ 2 → e.widget ≠ sib) ∧
      (∃ (tr before trW : List (DrawCmd (Fin 3))),
        Draw s1 (rootHeight (0 : Fin 3) + 1) 0 = some tr ∧
        Draw s1 (rootHeight (2 : Fin 3) + 1) 2 = some trW ∧
        tr = before ++ DrawCmd.translate o.1 o.2 :: trW ++
          [DrawCmd.translate (-o.1) (-o.2)] ∧
        DrawCmd.onDraw 2 ∉ before ∧
        ∀ sib ∈ (s1 0).mChildren, sib ≠ 2 →
          DrawCmd.onDraw sib ∈ before ∧ DrawCmd.onDraw sib ∉ trW) :=
  ⟨by decide, by decide, by decide, by decide, ⟨1, by decide, by decide⟩,
    C9_focus_draw_hit_inversion.1 (Fin 3) loadZoom (by decide) rootDepth rootHeight
      (by decide) (by decide) 2 0 (by decide) ⟨1, by decide, by decide⟩⟩

/-- C11: in a well-formed tree of finite height, for a widget `w` with children
`c_0 .. c_{n-1}` the commands of `w.Draw(g)` are the hook `OnDraw` of `w` followed by
one block per child, the children taken in reverse list order (`c_{n-1}` first, `c_0`
last); the block of a child `c` is `Translate(o)`, the complete commands of `c.Draw(g)`,
`Translate(-o)`, where `o` is the offset `ComputePosition` gives for `c`. -/
theorem C11_draw_command_sequence (s : State ι) (hs : WellFormed s) (h : ι → Nat)
    (hh : HeightBound s h) (w : ι) :
    ∃ (tr : List (DrawCmd ι)) (blocks : List (List (DrawCmd ι))),
      Draw s (h w + 1) w = some tr ∧ tr = DrawCmd.onDraw w :: blocks.flatten ∧
      List.Forall₂ (fun c b => ∃ o trc, ComputePosition s c none = some o ∧
          Draw s (h c + 1) c = some trc ∧
          b = DrawCmd.translate o.1 o.2 :: trc ++ [DrawCmd.translate (-o.1) (-o.2)])
        (s w).mChildren.reverse blocks := by
  obtain ⟨tr, htr⟩ := Draw_total hs hh (h w + 1) w (Nat.lt_succ_self _)
  have h0 := htr
  rw [Draw_succ hs] at h0
  cases hd : drawChildren s (fun c => Draw s (h w) c) (s w).mChildren.reverse with
  | none => simp only [hd] at h0; cases h0
  | some tl =>
    simp only [hd, Option.some.injEq] at h0
    obtain ⟨blocks, e, hf⟩ := drawChildren_blocks s (fun c => Draw s (h w) c)
      (fun c trc => ComputePosition s c none = some (childOffset s c) ∧
        Draw s (h c + 1) c = some trc)
      (fun c hc trc hrc => by
        have hc1 : c ∈ (s w).mChildren := List.mem_reverse.mp hc
        obtain ⟨t1, ht1⟩ := Draw_total hs hh (h c + 1) c (Nat.lt_succ_self _)
        have := Draw_unique hs hrc ht1
        exact ⟨ComputePosition_of_parent (children_have_parent hs w c hc1) none,
          by rw [this]; exact ht1⟩) hd
    refine ⟨tr, blocks, htr, by rw [← h0, e], ?_⟩
    exact hf.imp (fun c b ⟨trc, ⟨ho, ht⟩, hb⟩ => ⟨childOffset s c, trc, ho, ht, hb⟩)

/-- C11 at `sampleTree`: `A.Draw` issues `OnDraw` of `A`, then the block of `C`, then the
block of `B`. -/
theorem C11_draw_command_sequence_witness :
    WellFormed sampleTree ∧ HeightBound sampleTree sampleHeight ∧
    ∃ (tr : List (DrawCmd (Fin 5))) (blocks : List (List (DrawCmd (Fin 5)))),
      Draw sampleTree (sampleHeight 1 + 1) 1 = some tr ∧
      tr = DrawCmd.onDraw 1 :: blocks.flatten ∧
      List.Forall₂ (fun c b => ∃ o trc, ComputePosition sampleTree c none = some o ∧
          Draw sampleTree (sampleHeight c + 1) c = some trc ∧
          b = DrawCmd.translate o.1 o.2 :: trc ++ [DrawCmd.translate (-o.1) (-o.2)])
        (sampleTree 1).mChildren.reverse blocks :=
  ⟨by decide, by decide,
    C11_draw_command_sequence sampleTree (by decide) sampleHeight (by decide) 1⟩

/-- C12: in a well-formed tree of finite height `GetDescendantCount()` returns, and
its value is the number of widgets of the subtree of `w` other than `w`: they can be listed
without repetition in a list of that length.  It is also the sum over the children `c` of
`w` of `1 + c.GetDescendantCount()`.  For the tree `root -> A -> {B, C}`, `B -> {D}` the
results are `4` on `root`, `3` on `A`, `1` on `B` and `0` on `C`. -/
theorem C12_descendant_count :
    (∀ (κ : Type) [DecidableEq κ] (s : State κ), WellFormed s →
      ∀ (h : κ → Nat), HeightBound s h → ∀ (w : κ),
      ∃ n, GetDescendantCount s (h w + 1) w = some n ∧
        Set.ncard {v | InSubtree s w v ∧ v ≠ w} = n ∧
        (∃ l : List κ, l.Nodup ∧ (∀ v, v ∈ l ↔ InSubtree s w v ∧ v ≠ w) ∧ l.length = n) ∧
        ∃ ns, List.Forall₂ (fun c k => GetDescendantCount s (h c + 1) c = some k)
            (s w).mChildren ns ∧
          n = (ns.map (fun k => 1 + k)).sum) ∧
    (GetDescendantCount sampleTree 4 0 = some 4 ∧ GetDescendantCount sampleTree 3 1 = some 3 ∧
      GetDescendantCount sampleTree 2 2 = some 1 ∧
      GetDescendantCount sampleTree 1 3 = some 0) := by
  refine ⟨?_, by decide, by decide, by decide, by decide⟩
  intro κ _ s hs h hh w
  obtain ⟨tr, htr⟩ := Update_total hh (h w + 1) w (Nat.lt_succ_self _) 0
  obtain ⟨n, hn, hlen⟩ := GetDescendantCount_of_update htr
  obtain ⟨tl, rfl, _, hnd, hmem⟩ := Update_enum hs hh htr
  have hl : (tl.map Prod.fst).length = n := by
    rw [List.length_map]
    rw [List.length_cons] at hlen
    omega
  refine ⟨n, hn, ?_, ⟨tl.map Prod.fst, hnd, hmem, hl⟩, ?_⟩
  · have hset : {v | InSubtree s w v ∧ v ≠ w} = ↑(tl.map Prod.fst).toFinset := by
      ext v
      simp only [Set.mem_setOf_eq, Finset.mem_coe, List.mem_toFinset]
      exact (hmem v).symm
    rw [hset, Set.ncard_coe_Finset, List.toFinset_card_of_nodup hnd, hl]
  · have h0 := hn
    rw [GetDescendantCount_succ] at h0
    obtain ⟨ns, hf, e⟩ := countChildren_sum h0
    refine ⟨ns, ?_, by rw [e]; exact forall₂_length_add_sum hf⟩
    -- the count of a child does not depend on the fuel left
    have hconv : ∀ c ∈ (s w).mChildren, ∀ k, GetDescendantCount s (h w) c = some k →
        GetDescendantCount s (h c + 1) c = some k := by
      intro c hc k hk
      obtain ⟨t, ht⟩ := Update_total hh (h c + 1) c (Nat.lt_succ_self _) 0
      obtain ⟨n1, hn1, hl1⟩ := GetDescendantCount_of_update ht
      obtain ⟨n2, hn2, hl2⟩ := GetDescendantCount_of_update (Update_mono ht (hh w c hc))
      rw [hk] at hn2
      have : k = n1 := by
        have := Option.some.inj hn2
        omega
      rw [this]
      exact hn1
    exact forall₂_imp_of_mem hf hconv

/-- C12 at `sampleTree`: the descendant count of `root` is returned and is the number of
widgets below `root`. -/
theorem C12_descendant_count_witness :
    WellFormed sampleTree ∧ HeightBound sampleTree sampleHeight ∧
    ∃ n, GetDescendantCount sampleTree (sampleHeight 0 + 1) 0 = some n ∧
      Set.ncard {v | InSubtree sampleTree 0 v ∧ v ≠ 0} = n ∧
      (∃ l : List (Fin 5), l.Nodup ∧
        (∀ v, v ∈ l ↔ InSubtree sampleTree 0 v ∧ v ≠ 0) ∧ l.length = n) ∧
      ∃ ns, List.Forall₂
          (fun c k => GetDescendantCount sampleTree (sampleHeight c + 1) c = some k)
          (sampleTree 0).mChildren ns ∧
        n = (ns.map (fun k => 1 + k)).sum :=
  ⟨by decide, by decide,
    C12_descendant_count.1 (Fin 5) sampleTree (by decide) sampleHeight (by decide) 0⟩

/-- C13: for a widget with a parent, `ComputePosition` writes
`x = px + h * (pw - px) - amtX * (width + 2 * x)` and
`y = py + v * (ph - py) - amtY * (height + 2 * y)`, where `(px, py)`, `(pw, ph)` are the
stored position and size of the parent, `(x, y)`, `(width, height)`, `(h, v)` the stored
position, size and alignment of the widget, `amtX` is `0` when `h ≤ 1/2` and `1`
otherwise, and `amtY` is `0` when `v ≤ 1/2` and `1` otherwise; for a widget without
parent both outputs are left as they were. -/
theorem C13_computePosition_formula (s : State ι) (w : ι) (xy : Option (ℚ × ℚ)) :
    (∀ p, (s w).mParent = some p →
      ComputePosition s w xy =
        some ((s p).mX + (s w).mHAlign * ((s p).mWidth - (s p).mX) -
            (if (s w).mHAlign ≤ 1 / 2 then 0 else 1) * ((s w).mWidth + 2 * (s w).mX),
          (s p).mY + (s w).mVAlign * ((s p).mHeight - (s p).mY) -
            (if (s w).mVAlign ≤ 1 / 2 then 0 else 1) * ((s w).mHeight + 2 * (s w).mY))) ∧
    ((s w).mParent = none → ComputePosition s w xy = xy) := by
  constructor
  · intro p hp
    unfold ComputePosition
    rw [hp]
    simp only [Option.some.injEq, Prod.mk.injEq]
    constructor <;> ring
  · intro hp
    unfold ComputePosition
    rw [hp]

/-- C13 at `loadZoom`: the offset of the bottom-right aligned `Zoom` button is
`(0 + 1 * (800 - 0) - 1 * (80 + 2 * 10), 0 + 1 * (600 - 0) - 1 * (40 + 2 * 10))`, and the
parentless container leaves the outputs alone. -/
theorem C13_computePosition_formula_witness :
    (loadZoom 2).mParent = some 0 ∧ (loadZoom 0).mParent = none ∧
    ComputePosition loadZoom 2 none =
      some ((loadZoom 0).mX + (loadZoom 2).mHAlign * ((loadZoom 0).mWidth - (loadZoom 0).mX) -
          (if (loadZoom 2).mHAlign ≤ 1 / 2 then 0 else 1) *
            ((loadZoom 2).mWidth + 2 * (loadZoom 2).mX),
        (loadZoom 0).mY + (loadZoom 2).mVAlign * ((loadZoom 0).mHeight - (loadZoom 0).mY) -
          (if (loadZoom 2).mVAlign ≤ 1 / 2 then 0 else 1) *
            ((loadZoom 2).mHeight + 2 * (loadZoom 2).mY)) ∧
    ComputePosition loadZoom 0 (some (3, 4)) = some (3, 4) :=
  ⟨by decide, by decide,
    (C13_computePosition_formula loadZoom 2 none).1 0 (by decide),
    (C13_computePosition_formula loadZoom 0 (some (3, 4))).2 (by decide)⟩

/-- C14, as stated, fails on `float32` points.  For the point `(NaN, NaN)` and a widget
of position `(0, 0)` and size `(0, 0)` the difference `x - mX` is NaN, `0 ≤ x - mX` is
false, and `InBounds` returns `true`, also though the width is zero; the same happens
for the point `(NaN, 15)` and the widget `(10, 10, 20, 20)`.  For the widget
`(0.5, 0, 100000000, 10)` and the point `(100000000, 5)` the difference `x - mX` rounds
to `100000000`, and `InBounds` returns `false` while `0 ≤ x - mX < mWidth` and
`0 ≤ y - mY < mHeight` hold of the exact differences. -/
theorem C14_inBounds_counterexample :
    InBounds32 ⟨F32.finite 0, F32.finite 0, F32.finite 0, F32.finite 0⟩ F32.nan F32.nan =
      true ∧
    F32.sub F32.nan (F32.finite 0) = F32.nan ∧
    F32.le (F32.finite 0) (F32.sub F32.nan (F32.finite 0)) = false ∧
    InBounds32 ⟨F32.finite 10, F32.finite 10, F32.finite 20, F32.finite 20⟩ F32.nan
      (F32.finite 15) = true ∧
    InBounds32 ⟨F32.finite (1 / 2), F32.finite 0, F32.finite 100000000, F32.finite 10⟩
      (F32.finite 100000000) (F32.finite 5) = false ∧
    F32.sub (F32.finite 100000000) (F32.finite (1 / 2)) = F32.finite 100000000 ∧
    ((0 : ℚ) ≤ 100000000 - 1 / 2 ∧ (100000000 : ℚ) - 1 / 2 < 100000000) ∧
    ((0 : ℚ) ≤ 5 - 0 ∧ (5 : ℚ) - 0 < 10) := by
  refine ⟨by decide, by decide, by decide, by decide!, by decide!, by decide!, by decide!,
    by decide!⟩

/-- C14, amended: for a widget whose stored position is finite and whose size is not NaN,
and a point `(x, y)` of finite coordinates, `InBounds(x, y)` is true exactly when
`0 ≤ dx < mWidth` and `0 ≤ dy < mHeight`, `dx` and `dy` being the differences `x - mX`
and `y - mY` as `float32` computes them, rounded to nearest; only the stored position of
the widget itself is subtracted.  So it is false for every such point when the width or
the height is zero or negative.  When the two differences are exact, this is
`0 ≤ x - mX < mWidth` and `0 ≤ y - mY < mHeight`, the value of `InBounds` over exact
arithmetic. -/
theorem C14_inBounds_finite (self : Widget32) (x y mX mY : ℚ)
    (hX : self.mX = F32.finite mX) (hY : self.mY = F32.finite mY)
    (hW : self.mWidth ≠ F32.nan) (hH : self.mHeight ≠ F32.nan) :
    (InBounds32 self (F32.finite x) (F32.finite y) = true ↔
      (F32.le (F32.finite 0) (F32.round (x - mX)) = true ∧
        F32.lt (F32.round (x - mX)) self.mWidth = true) ∧
      (F32.le (F32.finite 0) (F32.round (y - mY)) = true ∧
        F32.lt (F32.round (y - mY)) self.mHeight = true)) ∧
    (F32.lt (F32.finite 0) self.mWidth = false ∨ F32.lt (F32.finite 0) self.mHeight = false →
      InBounds32 self (F32.finite x) (F32.finite y) = false) ∧
    (∀ w hgt : ℚ, self.mWidth = F32.finite w → self.mHeight = F32.finite hgt →
      F32.round (x - mX) = F32.finite (x - mX) → F32.round (y - mY) = F32.finite (y - mY) →
      (InBounds32 self (F32.finite x) (F32.finite y) = true ↔
        (0 ≤ x - mX ∧ x - mX < w) ∧ (0 ≤ y - mY ∧ y - mY < hgt)) ∧
      ∀ (s : State ι) (v : ι), (s v).mX = mX → (s v).mY = mY → (s v).mWidth = w →
        (s v).mHeight = hgt →
        InBounds32 self (F32.finite x) (F32.finite y) = InBounds s v x y) := by
  have hsx : F32.sub (F32.finite x) self.mX = F32.round (x - mX) := by rw [hX]; rfl
  have hsy : F32.sub (F32.finite y) self.mY = F32.round (y - mY) := by rw [hY]; rfl
  have key := inBounds32_iff self (F32.finite x) (F32.finite y)
    (by rw [hsx]; exact round_ne_nan _) (by rw [hsy]; exact round_ne_nan _) hW hH
  rw [hsx, hsy] at key
  have hexact : ∀ w hgt : ℚ, self.mWidth = F32.finite w → self.mHeight = F32.finite hgt →
      F32.round (x - mX) = F32.finite (x - mX) → F32.round (y - mY) = F32.finite (y - mY) →
      (InBounds32 self (F32.finite x) (F32.finite y) = true ↔
        (0 ≤ x - mX ∧ x - mX < w) ∧ (0 ≤ y - mY ∧ y - mY < hgt)) := by
    intro w hgt hw hh hrx hry
    rw [key, hrx, hry, hw, hh]
    simp [F32.lt, F32.ge, F32.le]
  refine ⟨key, fun hz => ?_, fun w hgt hw hh hrx hry => ⟨hexact w hgt hw hh hrx hry, ?_⟩⟩
  · cases hb : InBounds32 self (F32.finite x) (F32.finite y) with
    | false => rfl
    | true =>
      obtain ⟨⟨a, b⟩, ⟨c, d⟩⟩ := key.mp hb
      rcases hz with hz | hz
      · rw [lt32_trans a b] at hz; cases hz
      · rw [lt32_trans c d] at hz; cases hz
  · intro s v h1 h2 h3 h4
    have e := hexact w hgt hw hh hrx hry
    have e2 := inBounds_iff s v x y
    rw [h1, h2, h3, h4] at e2
    cases hb : InBounds32 self (F32.finite x) (F32.finite y) with
    | false =>
      cases hq : InBounds s v x y with
      | false => rfl
      | true => rw [e2.mp hq |> e.mpr] at hb; cases hb
    | true => exact (e2.mpr (e.mp hb)).symm

/-- C14, amended, at the widget `(10, 10, 20, 20)` and the point `(15, 15)`, where the
differences `15 - 10` are exact and `InBounds` is true, as it is for the widget `A` of
`rootWithA` over exact arithmetic. -/
theorem C14_inBounds_finite_witness :
    F32.finite 20 ≠ F32.nan ∧
    F32.round (15 - 10) = F32.finite (15 - 10) ∧
    InBounds32 ⟨F32.finite 10, F32.finite 10, F32.finite 20, F32.finite 20⟩
      (F32.finite 15) (F32.finite 15) = true ∧
    InBounds rootWithA 1 15 15 = true ∧
    (InBounds32 ⟨F32.finite 10, F32.finite 10, F32.finite 20, F32.finite 20⟩
        (F32.finite 15) (F32.finite 15) = true ↔
      (F32.le (F32.finite 0) (F32.round (15 - 10)) = true ∧
        F32.lt (F32.round (15 - 10)) (F32.finite 20) = true) ∧
      (F32.le (F32.finite 0) (F32.round (15 - 10)) = true ∧
        F32.lt (F32.round (15 - 10)) (F32.finite 20) = true)) ∧
    (F32.lt (F32.finite 0) (F32.finite 20) = false ∨
        F32.lt (F32.finite 0) (F32.finite 20) = false →
      InBounds32 ⟨F32.finite 10, F32.finite 10, F32.finite 20, F32.finite 20⟩
        (F32.finite 15) (F32.finite 15) = false) ∧
    (∀ w hgt : ℚ, F32.finite 20 = F32.finite w → F32.finite 20 = F32.finite hgt →
      F32.round (15 - 10) = F32.finite (15 - 10) →
      F32.round (15 - 10) = F32.finite (15 - 10) →
      (InBounds32 ⟨F32.finite 10, F32.finite 10, F32.finite 20, F32.finite 20⟩
          (F32.finite 15) (F32.finite 15) = true ↔
        ((0 : ℚ) ≤ 15 - 10 ∧ (15 : ℚ) - 10 < w) ∧ ((0 : ℚ) ≤ 15 - 10 ∧ (15 : ℚ) - 10 < hgt)) ∧
      ∀ (s : State (Fin 2)) (v : Fin 2), (s v).mX = 10 → (s v).mY = 10 → (s v).mWidth = w →
        (s v).mHeight = hgt →
        InBounds32 ⟨F32.finite 10, F32.finite 10, F32.finite 20, F32.finite 20⟩
          (F32.finite 15) (F32.finite 15) = InBounds s v 15 15) :=
  ⟨by decide, by decide!, by decide!, by decide!,
    C14_inBounds_finite ⟨F32.finite 10, F32.finite 10, F32.finite 20, F32.finite 20⟩
      15 15 10 10 rfl rfl (by decide) (by decide)⟩

/-- C15: in a well-formed tree of finite height `w.Update(dt)` returns and its hook
invocations are in pre-order: the hook of `w` first, then the complete invocations of the
update of each child, the children taken in list order; every widget of the subtree of
`w` has its hook invoked exactly once, no other widget has, and every hook receives the
same `dt`. -/
theorem C15_update_preorder (s : State ι) (hs : WellFormed s) (h : ι → Nat)
    (hh : HeightBound s h) (w : ι) (dt : ℚ) :
    ∃ (tr : List (ι × ℚ)) (parts : List (List (ι × ℚ))),
      Update s (h w + 1) w dt = some tr ∧ tr = (w, dt) :: parts.flatten ∧
      List.Forall₂ (fun c part => Update s (h c + 1) c dt = some part)
        (s w).mChildren parts ∧
      (∀ v, InSubtree s w v → (tr.map Prod.fst).count v = 1) ∧
      (∀ e ∈ tr, InSubtree s w e.1 ∧ e.2 = dt) := by
  obtain ⟨tr, htr⟩ := Update_total hh (h w + 1) w (Nat.lt_succ_self _) dt
  obtain ⟨tl, rfl, hdt, hnd, hmem⟩ := Update_enum hs hh htr
  have h0 := htr
  rw [Update_succ] at h0
  cases hd : updateChildren (fun c => Update s (h w) c dt) (s w).mChildren with
  | none => simp only [hd] at h0; cases h0
  | some tl1 =>
    simp only [hd, Option.some.injEq, List.cons.injEq, true_and] at h0
    subst h0
    obtain ⟨parts, e, hf⟩ := updateChildren_parts hd
    have hconv : ∀ c ∈ (s w).mChildren, ∀ t, Update s (h w) c dt = some t →
        Update s (h c + 1) c dt = some t := by
      intro c hc t ht
      obtain ⟨t1, ht1⟩ := Update_total hh (h c + 1) c (Nat.lt_succ_self _) dt
      rw [Update_unique ht ht1]
      exact ht1
    have hnd1 : (((w, dt) :: tl1).map Prod.fst).Nodup := by
      rw [List.map_cons, List.nodup_cons]
      exact ⟨fun hm => ((hmem w).mp hm).2 rfl, hnd⟩
    refine ⟨_, parts, htr, by rw [e], ?_, ?_, ?_⟩
    · exact forall₂_imp_of_mem hf hconv
    · intro v hv
      refine List.count_eq_one_of_mem hnd1 ?_
      rw [List.map_cons]
      by_cases hvw : v = w
      · rw [hvw]; exact List.mem_cons_self _ _
      · exact List.mem_cons_of_mem _ ((hmem v).mpr ⟨hv, hvw⟩)
    · intro e1 he1
      rcases List.mem_cons.mp he1 with rfl | he1
      · exact ⟨Relation.ReflTransGen.refl, rfl⟩
      · exact ⟨((hmem e1.1).mp (List.mem_map.mpr ⟨e1, he1, rfl⟩)).1, hdt e1 he1⟩

/-- C15 at `sampleTree`: the update from `root` returns and visits the five widgets in
pre-order. -/
theorem C15_update_preorder_witness :
    WellFormed sampleTree ∧ HeightBound sampleTree sampleHeight ∧
    Update sampleTree (sampleHeight 0 + 1) 0 (1 / 60) =
      some [(0, 1 / 60), (1, 1 / 60), (2, 1 / 60), (4, 1 / 60), (3, 1 / 60)] ∧
    ∃ (tr : List (Fin 5 × ℚ)) (parts : List (List (Fin 5 × ℚ))),
      Update sampleTree (sampleHeight 0 + 1) 0 (1 / 60) = some tr ∧
      tr = (0, 1 / 60) :: parts.flatten ∧
      List.Forall₂ (fun c part => Update sampleTree (sampleHeight c + 1) c (1 / 60) = some part)
        (sampleTree 0).mChildren parts ∧
      (∀ v, InSubtree sampleTree 0 v → (tr.map Prod.fst).count v = 1) ∧
      (∀ e ∈ tr, InSubtree sampleTree 0 e.1 ∧ e.2 = 1 / 60) :=
  ⟨by decide, by decide, by decide!,
    C15_update_preorder sampleTree (by decide) sampleHeight (by decide) 0 (1 / 60)⟩

/-- C16, as stated, fails: in the scenario `root(0,0,100,100)` with child
`A(10,10,20,20)`, `root.MouseButton(25,25,1,true)` invokes `OnMouseButton(25,25,1,true)`
on `A`, and `25 < 20`, the width of `A`, does not hold. -/
theorem C16_click_coordinates_counterexample :
    ∃ r, MouseButton rootWithA 2 0 25 25 1 true = some r ∧
      MouseEvent.onMouseButton 1 25 25 1 true ∈ r.2 ∧
      ¬ ((0 : ℚ) ≤ 25 ∧ (25 : ℚ) < (rootWithA 1).mWidth) :=
  ⟨(true, [MouseEvent.mouseButton 0 25 25 1 true, MouseEvent.mouseButton 1 25 25 1 true,
      MouseEvent.onMouseButton 1 25 25 1 true]), by decide!, by decide!, by decide!⟩

/-- C16, amended: over exact arithmetic, whenever `w.MouseButton(x, y, button, down)`
invokes `OnMouseButton(x', y', button', down')` on a widget `v`, the arguments are those
the `MouseButton` of `v` was entered with: `button` and `down` are passed on, and
`(x', y')` is the point `(x, y)` less, level by level on the way from `w` down to `v`,
the offset `ComputePosition` gives for each widget entered, the stored position of `v`
not being subtracted; in a tree of finite height no other point is related to `v` in this
way.  The point passes `InBounds` of `v`, which is to say `0 ≤ x' - mX < mWidth` and
`0 ≤ y' - mY < mHeight`. -/
theorem C16_click_coordinates_in_region (s : State ι) (hs : WellFormed s) (fuel : Nat)
    (w : ι) (x y : ℚ) (button : Int) (down : Bool) (r : Bool × List (MouseEvent ι))
    (h : MouseButton s fuel w x y button down = some r) (v : ι) (x1 y1 : ℚ) (b1 : Int)
    (d1 : Bool) (he : MouseEvent.onMouseButton v x1 y1 b1 d1 ∈ r.2) :
    MouseEvent.mouseButton v x1 y1 b1 d1 ∈ r.2 ∧
    EnteredAt s w x y v x1 y1 ∧
    (∀ hgt : ι → Nat, HeightBound s hgt → ∀ a b, EnteredAt s w x y v a b →
      a = x1 ∧ b = y1) ∧
    b1 = button ∧ d1 = down ∧
    InBounds s v x1 y1 = true ∧
    (0 ≤ x1 - (s v).mX ∧ x1 - (s v).mX < (s v).mWidth) ∧
    (0 ≤ y1 - (s v).mY ∧ y1 - (s v).mY < (s v).mHeight) := by
  obtain ⟨a, b⟩ := MouseButton_click_inBounds hs h v x1 y1 b1 d1 he
  obtain ⟨hent, hbd⟩ := MouseButton_events_enteredAt hs h _ he
  simp only [MouseEvent.buttonDown, Prod.mk.injEq] at hbd
  exact ⟨b, hent, fun hgt hh a1 b2 h2 => enteredAt_unique hs hh hent h2, hbd.1, hbd.2, a,
    (inBounds_iff s v x1 y1).mp a⟩

/-- C16, amended, at `loadZoom`: the click at `(750, 570)` on the container reaches the
button `Zoom`, whose computed offset is `(700, 540)`, with the coordinates `(50, 30)`,
for which `0 ≤ 50 - 10 < 80` and `0 ≤ 30 - 10 < 40`. -/
theorem C16_click_coordinates_in_region_witness :
    WellFormed loadZoom ∧
    MouseButton loadZoom 2 0 750 570 1 true =
      some (true, [MouseEvent.mouseButton 0 750 570 1 true,
        MouseEvent.mouseButton 1 750 30 1 true, MouseEvent.mouseButton 2 50 30 1 true,
        MouseEvent.onMouseButton 2 50 30 1 true]) ∧
    (50, 30) = (750 - (childOffset loadZoom 2).1, 570 - (childOffset loadZoom 2).2) ∧
    MouseEvent.mouseButton (2 : Fin 3) 50 30 1 true ∈
      [MouseEvent.mouseButton 0 750 570 1 true,
        MouseEvent.mouseButton 1 750 30 1 true, MouseEvent.mouseButton 2 50 30 1 true,
        MouseEvent.onMouseButton 2 50 30 1 true] ∧
    EnteredAt loadZoom 0 750 570 2 50 30 ∧
    (∀ hgt : Fin 3 → Nat, HeightBound loadZoom hgt → ∀ a b,
      EnteredAt loadZoom 0 750 570 2 a b → a = 50 ∧ b = 30) ∧
    (1 : Int) = 1 ∧ true = true ∧
    InBounds loadZoom 2 50 30 = true ∧
    ((0 : ℚ) ≤ 50 - (loadZoom 2).mX ∧ 50 - (loadZoom 2).mX < (loadZoom 2).mWidth) ∧
    ((0 : ℚ) ≤ 30 - (loadZoom 2).mY ∧ 30 - (loadZoom 2).mY < (loadZoom 2).mHeight) :=
  ⟨by decide, by decide!, by decide!,
    C16_click_coordinates_in_region loadZoom (by decide) 2 0 750 570 1 true
      (true, [MouseEvent.mouseButton 0 750 570 1 true,
        MouseEvent.mouseButton 1 750 30 1 true, MouseEvent.mouseButton 2 50 30 1 true,
        MouseEvent.onMouseButton 2 50 30 1 true])
      (by decide!) 2 50 30 1 true (by decide!)⟩

/-- C17, as stated, fails: `root` is a plain widget, whose hook does nothing, and
`root.MouseButton(50,50,1,true)` does not return `false`. -/
theorem C17_fall_through_counterexample :
    ∃ r, MouseButton rootWithA 2 0 50 50 1 true = some r ∧ r.1 ≠ false :=
  ⟨(true, [MouseEvent.mouseButton 0 50 50 1 true, MouseEvent.mouseButton 1 50 50 1 true,
      MouseEvent.onMouseButton 0 50 50 1 true]), by decide!, by decide⟩

/-- C17, amended: for `root(0,0,100,100)` with the single child `A(10,10,20,20)` aligned
`(0,0)`, `root.MouseButton(50,50,1,true)` is not consumed by `A`, whose dispatch at the
translated point `(50, 50)` returns `false` and invokes no hook, and falls through to
`root`: the hook `OnMouseButton(50,50,1,true)` of `root` is invoked and the result is
`true`, the returned value being that of `InBounds` and not depending on the hook. -/
theorem C17_fall_through_to_root :
    ComputePosition rootWithA 1 none = some (0, 0) ∧
    MouseButton rootWithA 1 1 (50 - 0) (50 - 0) 1 true =
      some (false, [MouseEvent.mouseButton 1 (50 - 0) (50 - 0) 1 true]) ∧
    InBounds rootWithA 0 50 50 = true ∧
    MouseButton rootWithA 2 0 50 50 1 true =
      some (true, [MouseEvent.mouseButton 0 50 50 1 true,
        MouseEvent.mouseButton 1 50 50 1 true, MouseEvent.onMouseButton 0 50 50 1 true]) := by
  refine ⟨by decide!, by decide!, by decide!, by decide!⟩

/-- C20: the code does not do what the claim says.  In `sampleTree` the widget `B` is
a child of `A`, whose child list `[B, C]` has two entries; `A.AddChild(B)` reads the index
`GetChildCount() = 2` before `B` is detached, the list it inserts into has one entry
left, and the insertion at `begin() + 2` is past its end: the call is undefined. -/
theorem C20_addChild_existing_child_out_of_range :
    WellFormed sampleTree ∧ (sampleTree 2).mParent = some 1 ∧
    GetChildCount sampleTree 1 = 2 ∧ (detachedChildren sampleTree 2 1).length = 1 ∧
    AddChild sampleTree 1 2 1 ≠ none ∧
    AddChildLast sampleTree 1 2 = none := by
  refine ⟨by decide, by decide, by decide, by decide, ?_, by decide⟩
  rw [(AddChild_isSome sampleTree 1 2 1 (by decide)).choose_spec]
  exact fun e => Option.noConfusion e

/-- C21: in a well-formed tree with a depth certificate `d`, `W.Focus()` returns, and
its loop makes exactly one call `AddChild(w, 0)` per proper ancestor of `W`: the recorded
calls are the pairs (parent, child) along the path from `W` to the root, the list
`parentChain` enumerates the proper ancestors of `W` without repetition, each call is made
on the parent of the widget passed, the number of proper ancestors of the loop variable
drops by one with each iteration, and an insertion at index 0 is in range in every
state. -/
theorem C21_focus_terminates (s : State ι) (hs : WellFormed s) (d : ι → Nat)
    (hd : DepthBound s d) (W : ι) :
    ∃ s1 calls, FocusCalls (d W + 1) s W = some (s1, calls) ∧
      Focus (d W + 1) s W = some s1 ∧ WellFormed s1 ∧
      calls = List.zip (parentChain s (d W) W) (W :: parentChain s (d W) W) ∧
      calls.length = (parentChain s (d W) W).length ∧
      (parentChain s (d W) W).Nodup ∧
      (∀ a, a ∈ parentChain s (d W) W ↔ IsAncestor s a W) ∧
      (∀ c ∈ calls, (s c.2).mParent = some c.1 ∧
        (parentChain s (d c.1) c.1).length + 1 = (parentChain s (d c.2) c.2).length) ∧
      (∀ (s2 : State ι) (p w : ι), ∃ s3, AddChild s2 p w 0 = some s3) := by
  obtain ⟨s1, h1⟩ := FocusCalls_eq_zip hd (d W) W (le_refl _)
  have h2 : Focus (d W + 1) s W = some s1 := by
    rw [← FocusCalls_fst, h1]
    rfl
  refine ⟨s1, _, h1, h2, Focus_wellFormed hs h2, rfl, ?_, parentChain_nodup hd _ W (le_refl _),
    mem_parentChain hd _ W (le_refl _), fun c hc => ?_, fun s2 p w => ?_⟩
  · simp [List.length_zip]
  · have hp := parent_of_mem_zip_parentChain s (d W) W c hc
    refine ⟨hp, ?_⟩
    have hlt := hd c.2 c.1 hp
    obtain ⟨k, hk⟩ : ∃ k, d c.2 = k + 1 := ⟨d c.2 - 1, by omega⟩
    rw [hk]
    simp only [parentChain, hp, List.length_cons]
    rw [parentChain_fuel hd k (d c.1) c.1 (by omega) (le_refl _)]
  · exact AddChild_isSome s2 p w 0 (Nat.zero_le _)

/-- C21 at `sampleTree`: `D.Focus()` makes the three calls `B.AddChild(D, 0)`,
`A.AddChild(B, 0)` and `root.AddChild(A, 0)`, one per proper ancestor of `D`. -/
theorem C21_focus_terminates_witness :
    WellFormed sampleTree ∧ DepthBound sampleTree sampleDepth ∧
    parentChain sampleTree (sampleDepth 4) 4 = [2, 1, 0] ∧
    ∃ s1 calls, FocusCalls (sampleDepth 4 + 1) sampleTree 4 = some (s1, calls) ∧
      Focus (sampleDepth 4 + 1) sampleTree 4 = some s1 ∧ WellFormed s1 ∧
      calls = List.zip (parentChain sampleTree (sampleDepth 4) 4)
        (4 :: parentChain sampleTree (sampleDepth 4) 4) ∧
      calls.length = (parentChain sampleTree (sampleDepth 4) 4).length ∧
      (parentChain sampleTree (sampleDepth 4) 4).Nodup ∧
      (∀ a, a ∈ parentChain sampleTree (sampleDepth 4) 4 ↔ IsAncestor sampleTree a 4) ∧
      (∀ c ∈ calls, (sampleTree c.2).mParent = some c.1 ∧
        (parentChain sampleTree (sampleDepth c.1) c.1).length + 1 =
          (parentChain sampleTree (sampleDepth c.2) c.2).length) ∧
      (∀ (s2 : State (Fin 5)) (p w : Fin 5), ∃ s3, AddChild s2 p w 0 = some s3) :=
  ⟨by decide, by decide, by decide,
    C21_focus_terminates sampleTree (by decide) sampleDepth (by decide) 4⟩

/-- C25: in a well-formed tree with a depth certificate `d`, `W.Focus()` returns a state
in which every widget has the parent and the geometry it had, every child list is a
permutation of the list before, the entries of every child list that are not on the path
from `W` to the root (`W` and its proper ancestors) stand in the order they had, and the
child list of every widget that is not a proper ancestor of `W` is the list before. -/
theorem C25_focus_permutes (s : State ι) (hs : WellFormed s) (d : ι → Nat)
    (hd : DepthBound s d) (W : ι) :
    ∃ s1, Focus (d W + 1) s W = some s1 ∧
      (∀ x, (s1 x).mParent = (s x).mParent) ∧
      (∀ x, s1 x = { s x with mChildren := (s1 x).mChildren }) ∧
      (∀ q, List.Perm (s1 q).mChildren (s q).mChildren) ∧
      (∀ v, v ∈ W :: parentChain s (d W) W ↔ OnPathToRoot s W v) ∧
      (∀ q, (s1 q).mChildren.filter (fun c => decide (c ∉ W :: parentChain s (d W) W)) =
        (s q).mChildren.filter (fun c => decide (c ∉ W :: parentChain s (d W) W))) ∧
      (∀ q, ¬ IsAncestor s q W → (s1 q).mChildren = (s q).mChildren) := by
  obtain ⟨s1, h1⟩ := Focus_terminates hd W (d W + 1) (Nat.lt_succ_self _)
  have hpath : ∀ v, v ∈ W :: parentChain s (d W) W ↔ OnPathToRoot s W v := by
    intro v
    rw [List.mem_cons, mem_parentChain hd _ W (le_refl _)]
    unfold OnPathToRoot IsAncestor
    rw [Relation.reflTransGen_iff_eq_or_transGen]
  exact ⟨s1, h1, Focus_mParent h1, Focus_fields h1, Focus_perm hs h1, hpath,
    Focus_filter h1 _ (fun v hv => (hpath v).mpr hv), Focus_mChildren_of_not_ancestor h1⟩

/-- C25 at `sampleTree`: `C.Focus()` moves `C` before `B` under `A` and changes nothing
else. -/
theorem C25_focus_permutes_witness :
    WellFormed sampleTree ∧ DepthBound sampleTree sampleDepth ∧
    (sampleTree 1).mChildren = [2, 3] ∧
    (Focus (sampleDepth 3 + 1) sampleTree 3).map (fun s1 => (s1 1).mChildren) = some [3, 2] ∧
    ∃ s1, Focus (sampleDepth 3 + 1) sampleTree 3 = some s1 ∧
      (∀ x, (s1 x).mParent = (sampleTree x).mParent) ∧
      (∀ x, s1 x = { sampleTree x with mChildren := (s1 x).mChildren }) ∧
      (∀ q, List.Perm (s1 q).mChildren (sampleTree q).mChildren) ∧
      (∀ v, v ∈ 3 :: parentChain sampleTree (sampleDepth 3) 3 ↔
        OnPathToRoot sampleTree 3 v) ∧
      (∀ q, (s1 q).mChildren.filter
          (fun c => decide (c ∉ 3 :: parentChain sampleTree (sampleDepth 3) 3)) =
        (sampleTree q).mChildren.filter
          (fun c => decide (c ∉ 3 :: parentChain sampleTree (sampleDepth 3) 3))) ∧
      (∀ q, ¬ IsAncestor sampleTree q 3 → (s1 q).mChildren = (sampleTree q).mChildren) :=
  ⟨by decide, by decide, by decide, by decide,
    C25_focus_permutes sampleTree (by decide) sampleDepth (by decide) 3⟩

/-- C26: in a well-formed tree with a depth certificate `d`, `W.Focus()` returns a state
`s1`, and `W.Focus()` run again on `s1` returns `s1`: the second call changes nothing. -/
theorem C26_focus_idempotent (s : State ι) (hs : WellFormed s) (d : ι → Nat)
    (hd : DepthBound s d) (W : ι) :
    ∃ s1, Focus (d W + 1) s W = some s1 ∧ Focus (d W + 1) s1 W = some s1 ∧
      (Focus (d W + 1) s W).bind (fun s2 => Focus (d W + 1) s2 W) = Focus (d W + 1) s W := by
  obtain ⟨s1, h1⟩ := Focus_terminates hd W (d W + 1) (Nat.lt_succ_self _)
  have hpar := Focus_mParent h1
  have hd1 : DepthBound s1 d := fun x q hx => hd x q (by rw [← hpar x]; exact hx)
  have h2 : Focus (d W + 1) s1 W = some s1 := by
    refine Focus_fixed (Focus_wellFormed hs h1) hd1 W _ (Nat.lt_succ_self _) ?_
    intro v p hv hp
    rw [hpar v] at hp
    exact Focus_head_on_path hd h1 v p (onPathToRoot_congr hpar hv) hp
  refine ⟨s1, h1, h2, ?_⟩
  rw [h1, Option.some_bind, h2]

/-- C26 at `sampleTree`: `D.Focus()` run twice gives the state of one `D.Focus()`. -/
theorem C26_focus_idempotent_witness :
    WellFormed sampleTree ∧ DepthBound sampleTree sampleDepth ∧
    ∃ s1, Focus (sampleDepth 4 + 1) sampleTree 4 = some s1 ∧
      Focus (sampleDepth 4 + 1) s1 4 = some s1 ∧
      (Focus (sampleDepth 4 + 1) sampleTree 4).bind
        (fun s2 => Focus (sampleDepth 4 + 1) s2 4) = Focus (sampleDepth 4 + 1) sampleTree 4 :=
  ⟨by decide, by decide,
    C26_focus_idempotent sampleTree (by decide) sampleDepth (by decide) 4⟩

/-- C27: in a well-formed tree of finite height `w.MouseButton(x, y, button, down)`
returns a result whose events hold at most one invocation of `OnMouseButton`; every
invocation is on a widget of the subtree of `w`; the call returns `true` exactly when
there is one invocation and `false` exactly when there is none. -/
theorem C27_at_most_one_click (s : State ι) (hs : WellFormed s) (h : ι → Nat)
    (hh : HeightBound s h) (w : ι) (x y : ℚ) (button : Int) (down : Bool) :
    ∃ r, MouseButton s (h w + 1) w x y button down = some r ∧
      (r.2.filter MouseEvent.isClick).length ≤ 1 ∧
      (∀ e ∈ r.2, e.isClick = true → InSubtree s w e.widget) ∧
      (r.1 = true ↔ (r.2.filter MouseEvent.isClick).length = 1) ∧
      (r.1 = false ↔ (r.2.filter MouseEvent.isClick).length = 0) := by
  obtain ⟨r, hr⟩ := MouseButton_total hs hh (h w + 1) w (Nat.lt_succ_self _) x y button down
  have hcount := MouseButton_clicks hs hr
  refine ⟨r, hr, ?_, fun e he _ => MouseButton_events_inSubtree hs hr e he, ?_, ?_⟩
  · rw [hcount]; split_ifs <;> omega
  · rw [hcount]; cases r.1 <;> simp
  · rw [hcount]; cases r.1 <;> simp

/-- C27 at `overlapping`: the point `(20, 20)` lies in both siblings, and the dispatch on
the parent invokes one click handler only. -/
theorem C27_at_most_one_click_witness :
    WellFormed overlapping ∧ HeightBound overlapping rootHeight ∧
    InBounds overlapping 1 (20 - 0) (20 - 0) = true ∧
    InBounds overlapping 2 (20 - 0) (20 - 0) = true ∧
    ∃ r, MouseButton overlapping (rootHeight (0 : Fin 3) + 1) 0 20 20 1 true = some r ∧
      (r.2.filter MouseEvent.isClick).length ≤ 1 ∧
      (∀ e ∈ r.2, e.isClick = true → InSubtree overlapping 0 e.widget) ∧
      (r.1 = true ↔ (r.2.filter MouseEvent.isClick).length = 1) ∧
      (r.1 = false ↔ (r.2.filter MouseEvent.isClick).length = 0) :=
  ⟨by decide, by decide, by decide!, by decide!,
    C27_at_most_one_click overlapping (by decide) rootHeight (by decide) 0 20 20 1 true⟩

/-- C28, as stated, fails: in `overlapping` the childless child `S2(15,15,20,20)`,
aligned `(0, 0)` under `P(0,0,100,100)`, has `px + x ≤ 20 < px + x + w` and
`py + y ≤ 20 < py + y + hgt`, but `P.MouseButton(20, 20, 1, true)` is consumed by `S1`,
listed before `S2`: no event of the dispatch is on `S2`, whose range tests are not
reached. -/
theorem C28_hit_region_counterexample :
    (2 : Fin 3) ∈ (overlapping 0).mChildren ∧ (overlapping 2).mChildren = [] ∧
    (overlapping 2).mHAlign = 0 ∧ (overlapping 2).mVAlign = 0 ∧
    ((overlapping 0).mX + (overlapping 2).mX ≤ 20 ∧
      (20 : ℚ) < (overlapping 0).mX + (overlapping 2).mX + (overlapping 2).mWidth) ∧
    ((overlapping 0).mY + (overlapping 2).mY ≤ 20 ∧
      (20 : ℚ) < (overlapping 0).mY + (overlapping 2).mY + (overlapping 2).mHeight) ∧
    ∃ r, MouseButton overlapping 2 0 20 20 1 true = some r ∧
      r.2 = [MouseEvent.mouseButton 0 20 20 1 true, MouseEvent.mouseButton 1 20 20 1 true,
        MouseEvent.onMouseButton 1 20 20 1 true] ∧
      ∀ e ∈ r.2, e.widget ≠ 2 :=
  ⟨by decide, by decide, by decide!, by decide!, by decide!, by decide!,
    (true, [MouseEvent.mouseButton 0 20 20 1 true, MouseEvent.mouseButton 1 20 20 1 true,
      MouseEvent.onMouseButton 1 20 20 1 true]), by decide!, rfl, by decide⟩

/-- C28, amended: let `c` be a childless child of `P` in a well-formed tree of finite
height, and let every child listed before `c` return `false` from its `MouseButton` at
the point translated for it.  Then `P.MouseButton(X, Y, button, down)` returns a result
and enters `c`: the entry of `c.MouseButton` with the point translated by the offset
`ComputePosition` gives for `c` is an event of the dispatch, every event on `c` carries
that point, and the click handler of `c` is invoked exactly when both range tests of
`InBounds` pass on it.  The x-range test passes for horizontal alignment 1 exactly when
`pw - x - w ≤ X < pw - x`, for horizontal alignment 0 exactly when
`px + x ≤ X < px + x + w`; the y-range test passes for vertical alignment 1 exactly when
`ph - y - hgt ≤ Y < ph - y` and for vertical alignment 0 exactly when
`py + y ≤ Y < py + y + hgt`. -/
theorem C28_hit_region_when_reached (s : State ι) (hs : WellFormed s) (h : ι → Nat)
    (hh : HeightBound s h) (P c : ι) (l1 l2 : List ι)
    (hch : (s P).mChildren = l1 ++ c :: l2) (hleaf : (s c).mChildren = [])
    (X Y : ℚ) (button : Int) (down : Bool)
    (hbefore : ∀ c1 ∈ l1, ∀ fuel r,
      MouseButton s fuel c1 (X - (childOffset s c1).1) (Y - (childOffset s c1).2)
        button down = some r → r.1 = false) :
    ∃ r, MouseButton s (h P + 1) P X Y button down = some r ∧
      (∀ pxy, ComputePosition s c pxy = some (childOffset s c)) ∧
      MouseEvent.mouseButton c (X - (childOffset s c).1) (Y - (childOffset s c).2)
          button down ∈ r.2 ∧
      (∀ e ∈ r.2, e.widget = c →
        e = MouseEvent.mouseButton c (X - (childOffset s c).1) (Y - (childOffset s c).2)
              button down ∨
        e = MouseEvent.onMouseButton c (X - (childOffset s c).1) (Y - (childOffset s c).2)
              button down) ∧
      (MouseEvent.onMouseButton c (X - (childOffset s c).1) (Y - (childOffset s c).2)
            button down ∈ r.2 ↔
          xInRange s c (X - (childOffset s c).1) = true ∧
          yInRange s c (Y - (childOffset s c).2) = true) ∧
      (∀ x y, InBounds s c x y = (xInRange s c x && yInRange s c y)) ∧
      ((s c).mHAlign = 1 → (xInRange s c (X - (childOffset s c).1) = true ↔
        (s P).mWidth - (s c).mX - (s c).mWidth ≤ X ∧ X < (s P).mWidth - (s c).mX)) ∧
      ((s c).mHAlign = 0 → (xInRange s c (X - (childOffset s c).1) = true ↔
        (s P).mX + (s c).mX ≤ X ∧ X < (s P).mX + (s c).mX + (s c).mWidth)) ∧
      ((s c).mVAlign = 1 → (yInRange s c (Y - (childOffset s c).2) = true ↔
        (s P).mHeight - (s c).mY - (s c).mHeight ≤ Y ∧ Y < (s P).mHeight - (s c).mY)) ∧
      ((s c).mVAlign = 0 → (yInRange s c (Y - (childOffset s c).2) = true ↔
        (s P).mY + (s c).mY ≤ Y ∧ Y < (s P).mY + (s c).mY + (s c).mHeight)) := by
  obtain ⟨r, hr⟩ := MouseButton_total hs hh (h P + 1) P (Nat.lt_succ_self _) X Y button down
  have hc : c ∈ (s P).mChildren := by rw [hch]; simp
  have hpar : (s c).mParent = some P := parent_of_mem_children hs hc
  have hoff := childOffset_of_parent hpar
  have hev := MouseButton_events_on_child hs hh hc hr
  have hcall : ∀ r1, callChild s (h P) X Y button down c = some r1 →
      r1.2 = MouseEvent.mouseButton c (X - (childOffset s c).1) (Y - (childOffset s c).2)
          button down ::
        (if InBounds s c (X - (childOffset s c).1) (Y - (childOffset s c).2) then
          [MouseEvent.onMouseButton c (X - (childOffset s c).1) (Y - (childOffset s c).2)
            button down] else []) := by
    intro r1 h1
    unfold callChild at h1
    obtain ⟨n, hn⟩ : ∃ n, h P = n + 1 := by
      cases hP : h P with
      | zero => rw [hP] at h1; simp [MouseButton] at h1
      | succ n => exact ⟨n, rfl⟩
    rw [hn, MouseButton_leaf s hleaf] at h1
    cases h1
    rfl
  have hentered : MouseEvent.mouseButton c (X - (childOffset s c).1)
      (Y - (childOffset s c).2) button down ∈ r.2 := by
    obtain ⟨res, tr⟩ := r
    obtain ⟨bl, tl, hd, hcase⟩ := MouseButton_succ_inv hs hr
    rw [hch] at hd
    obtain ⟨rc, hrc, hsub⟩ := dispatchChildren_entered hd
      (fun c1 hc1 r1 hr1 => hbefore c1 hc1 (h P) r1 hr1)
    have hin : MouseEvent.mouseButton c (X - (childOffset s c).1)
        (Y - (childOffset s c).2) button down ∈ tl :=
      hsub _ (by rw [hcall rc hrc]; exact List.mem_cons_self _ _)
    rcases hcase with ⟨_, _, rfl⟩ | ⟨_, _, rfl⟩
    · exact List.mem_cons_of_mem _ hin
    · exact List.mem_cons_of_mem _ (List.mem_append_left _ hin)
  refine ⟨r, hr, fun pxy => ComputePosition_of_parent (by rw [hpar]; simp) pxy, hentered,
    ?_, ?_, inBounds_eq_and s c, ?_, ?_, ?_, ?_⟩
  · intro e he hw
    obtain ⟨r1, h1, her1, _⟩ := hev e he hw
    rw [hcall r1 h1] at her1
    rcases List.mem_cons.mp her1 with rfl | her1
    · exact Or.inl rfl
    · split_ifs at her1
      · exact Or.inr (List.mem_singleton.mp her1)
      · cases her1
  · constructor
    · intro he
      obtain ⟨r1, h1, her1, _⟩ := hev _ he rfl
      have e1 := hcall r1 h1
      rw [e1] at her1
      rcases List.mem_cons.mp her1 with hbad | her1
      · cases hbad
      · split_ifs at her1 with hb
        · rw [inBounds_eq_and, Bool.and_eq_true] at hb
          exact hb
        · cases her1
    · rintro ⟨hx, hy⟩
      obtain ⟨r1, h1, _, hall⟩ := hev _ hentered rfl
      apply hall
      rw [hcall r1 h1, inBounds_eq_and, hx, hy]
      simp
  · intro ha
    rw [xInRange_iff, hoff, ha]
    norm_num
    constructor <;> rintro ⟨a, b⟩ <;> constructor <;> linarith
  · intro ha
    rw [xInRange_iff, hoff, ha]
    norm_num
    constructor <;> rintro ⟨a, b⟩ <;> constructor <;> linarith
  · intro ha
    rw [yInRange_iff, hoff, ha]
    norm_num
    constructor <;> rintro ⟨a, b⟩ <;> constructor <;> linarith
  · intro ha
    rw [yInRange_iff, hoff, ha]
    norm_num
    constructor <;> rintro ⟨a, b⟩ <;> constructor <;> linarith

/-- C28, amended, at `loadZoom`: the button `Zoom(10,10,80,40)`, aligned `(1, 1)` in the
container `(0,0,800,600)`, is listed after `Load`, which refuses the point `(750, 570)`;
`Zoom` has the offset `(700, 540)`, it is entered with `(50, 30)`, and its range tests
pass for `710 ≤ X < 790` and `550 ≤ Y < 590`. -/
theorem C28_hit_region_when_reached_witness :
    WellFormed loadZoom ∧ HeightBound loadZoom rootHeight ∧
    (loadZoom 0).mChildren = [1] ++ 2 :: [] ∧ (loadZoom 2).mChildren = [] ∧
    (loadZoom 2).mHAlign = 1 ∧ (loadZoom 2).mVAlign = 1 ∧
    childOffset loadZoom 2 = (700, 540) ∧
    MouseButton loadZoom 1 1 (750 - (childOffset loadZoom 1).1)
      (570 - (childOffset loadZoom 1).2) 1 true =
        some (false, [MouseEvent.mouseButton 1 (750 - (childOffset loadZoom 1).1)
          (570 - (childOffset loadZoom 1).2) 1 true]) ∧
    ∃ r, MouseButton loadZoom (rootHeight (0 : Fin 3) + 1) 0 750 570 1 true = some r ∧
      (∀ pxy, ComputePosition loadZoom 2 pxy = some (childOffset loadZoom 2)) ∧
      MouseEvent.mouseButton 2 (750 - (childOffset loadZoom 2).1)
          (570 - (childOffset loadZoom 2).2) 1 true ∈ r.2 ∧
      (∀ e ∈ r.2, e.widget = 2 →
        e = MouseEvent.mouseButton 2 (750 - (childOffset loadZoom 2).1)
              (570 - (childOffset loadZoom 2).2) 1 true ∨
        e = MouseEvent.onMouseButton 2 (750 - (childOffset loadZoom 2).1)
              (570 - (childOffset loadZoom 2).2) 1 true) ∧
      (MouseEvent.onMouseButton 2 (750 - (childOffset loadZoom 2).1)
            (570 - (childOffset loadZoom 2).2) 1 true ∈ r.2 ↔
          xInRange loadZoom 2 (750 - (childOffset loadZoom 2).1) = true ∧
          yInRange loadZoom 2 (570 - (childOffset loadZoom 2).2) = true) ∧
      (∀ x y, InBounds loadZoom 2 x y = (xInRange loadZoom 2 x && yInRange loadZoom 2 y)) ∧
      ((loadZoom 2).mHAlign = 1 → (xInRange loadZoom 2 (750 - (childOffset loadZoom 2).1) = true ↔
        (loadZoom 0).mWidth - (loadZoom 2).mX - (loadZoom 2).mWidth ≤ 750 ∧
          750 < (loadZoom 0).mWidth - (loadZoom 2).mX)) ∧
      ((loadZoom 2).mHAlign = 0 → (xInRange loadZoom 2 (750 - (childOffset loadZoom 2).1) = true ↔
        (loadZoom 0).mX + (loadZoom 2).mX ≤ 750 ∧
          750 < (loadZoom 0).mX + (loadZoom 2).mX + (loadZoom 2).mWidth)) ∧
      ((loadZoom 2).mVAlign = 1 → (yInRange loadZoom 2 (570 - (childOffset loadZoom 2).2) = true ↔
        (loadZoom 0).mHeight - (loadZoom 2).mY - (loadZoom 2).mHeight ≤ 570 ∧
          570 < (loadZoom 0).mHeight - (loadZoom 2).mY)) ∧
      ((loadZoom 2).mVAlign = 0 → (yInRange loadZoom 2 (570 - (childOffset loadZoom 2).2) = true ↔
        (loadZoom 0).mY + (loadZoom 2).mY ≤ 570 ∧
          570 < (loadZoom 0).mY + (loadZoom 2).mY + (loadZoom 2).mHeight)) :=
  have hload : MouseButton loadZoom 1 1 (750 - (childOffset loadZoom 1).1)
      (570 - (childOffset loadZoom 1).2) 1 true =
        some (false, [MouseEvent.mouseButton 1 (750 - (childOffset loadZoom 1).1)
          (570 - (childOffset loadZoom 1).2) 1 true]) := by decide!
  ⟨by decide, by decide, by decide, by decide, by decide!, by decide!, by decide!, hload,
    C28_hit_region_when_reached loadZoom (by decide) rootHeight (by decide) 0 2 [1] []
      (by decide) (by decide) 750 570 1 true
      (fun c1 hc1 fuel r hr => by
        rw [List.mem_singleton] at hc1
        subst hc1
        rw [MouseButton_unique (by decide) hr hload])⟩

end Claims

end Gui

namespace Core

section MatrixLemmas

variable {R : Type}

theorem determinant3_eq_det [CommRing R] (a : Matrix3 R) :
    Determinant3 a = a.toMatrix.det := by
  rw [Matrix.det_fin_three]
  simp only [Determinant3, Matrix3.toMatrix, Matrix.of_apply]
  ring

theorem determinant_minors (m : Matrix4 R) :
    (⟨![![m.mMatrix 1 1, m.mMatrix 1 2, m.mMatrix 1 3],
        ![m.mMatrix 2 1, m.mMatrix 2 2, m.mMatrix 2 3],
        ![m.mMatrix 3 1, m.mMatrix 3 2, m.mMatrix 3 3]]⟩ : Matrix3 R) =
      ⟨fun k r => m.mMatrix ((0 : Fin 4).succAbove k) r.succ⟩ ∧
    (⟨![![m.mMatrix 0 1, m.mMatrix 0 2, m.mMatrix 0 3],
        ![m.mMatrix 2 1, m.mMatrix 2 2, m.mMatrix 2 3],
        ![m.mMatrix 3 1, m.mMatrix 3 2, m.mMatrix 3 3]]⟩ : Matrix3 R) =
      ⟨fun k r => m.mMatrix ((1 : Fin 4).succAbove k) r.succ⟩ ∧
    (⟨![![m.mMatrix 0 1, m.mMatrix 0 2, m.mMatrix 0 3],
        ![m.mMatrix 1 1, m.mMatrix 1 2, m.mMatrix 1 3],
        ![m.mMatrix 3 1, m.mMatrix 3 2, m.mMatrix 3 3]]⟩ : Matrix3 R) =
      ⟨fun k r => m.mMatrix ((2 : Fin 4).succAbove k) r.succ⟩ ∧
    (⟨![![m.mMatrix 0 1, m.mMatrix 0 2, m.mMatrix 0 3],
        ![m.mMatrix 1 1, m.mMatrix 1 2, m.mMatrix 1 3],
        ![m.mMatrix 2 1, m.mMatrix 2 2, m.mMatrix 2 3]]⟩ : Matrix3 R) =
      ⟨fun k r => m.mMatrix ((3 : Fin 4).succAbove k) r.succ⟩ := by
  refine ⟨?_, ?_, ?_, ?_⟩ <;>
  · apply Matrix3.ext
    funext k r
    fin_cases k <;> fin_cases r <;> rfl

theorem determinant_laplace [CommRing R] (det3 : Matrix3 R → R) (m : Matrix4 R) :
    Determinant det3 m = ∑ c : Fin 4, (-1) ^ (c : ℕ) * m.mMatrix c 0 *
      det3 ⟨fun k r => m.mMatrix (c.succAbove k) r.succ⟩ := by
  obtain ⟨e0, e1, e2, e3⟩ := determinant_minors m
  unfold Determinant
  simp only [Fin.sum_univ_four]
  rw [e0, e1, e2, e3]
  simp only [Fin.val_zero, Fin.val_one, Fin.val_two]
  have h3 : ((3 : Fin 4) : ℕ) = 3 := rfl
  rw [h3]
  ring

theorem minorOuter_last (m : Matrix4 R) (j : Fin 4) (m3 : Matrix3 R) :
    minorOuter m 3 j loopIndices (m3, 0) = none := by
  fin_cases j <;>
    simp [minorOuter, minorInner, loopIndices, Matrix3.write]

theorem cofactors_eq_none [CommRing R] (det3 : Matrix3 R → R) (m inverse : Matrix4 R) :
    cofactors det3 m loopIndices inverse = none := by
  have h3 : ∀ inv, cofactorColumn det3 m 3 loopIndices inv = none := by
    intro inv
    simp only [loopIndices, cofactorColumn]
    have hlast := minorOuter_last m 0 (Matrix3.splat 0)
    simp only [loopIndices] at hlast
    rw [hlast]
  simp only [loopIndices, cofactors]
  simp only [loopIndices] at h3
  cases cofactorColumn det3 m 0 [0, 1, 2, 3] inverse with
  | none => rfl
  | some a =>
    simp only
    cases cofactorColumn det3 m 1 [0, 1, 2, 3] a with
    | none => rfl
    | some b =>
      simp only
      cases cofactorColumn det3 m 2 [0, 1, 2, 3] b with
      | none => rfl
      | some c =>
        simp only
        rw [h3]

theorem Inverse_eq_none [Field R] [DecidableEq R] (det3 : Matrix3 R → R) (m : Matrix4 R)
    (h : Determinant det3 m ≠ 0) : Inverse det3 m = none := by
  unfold Inverse
  simp only [h, if_false, cofactors_eq_none]

theorem Transpose_apply [Zero R] (m : Matrix4 R) (i j : Fin 4) :
    (Transpose m).mMatrix i j = m.mMatrix j i := by
  fin_cases i <;> fin_cases j <;>
    simp [Transpose, transposeOuter, transposeInner, loopIndices, Matrix4.write,
      Function.update]

theorem minorOuter_isSome_iff (m : Matrix4 R) (i j : Fin 4) (m3 : Matrix3 R) :
    (minorOuter m i j loopIndices (m3, 0)).isSome =
      (minorOuterWrites i j loopIndices 0).all (fun p => decide (p.1 < 3 ∧ p.2 < 3)) := by
  fin_cases i <;> fin_cases j <;>
    simp [minorOuter, minorInner, minorOuterWrites, minorInnerWrites, loopIndices,
      Matrix3.write]

end MatrixLemmas

section MatrixClaims

variable {R : Type}

/-- C18: over a commutative ring, and given that the determinant of `Matrix3` it calls is
the standard one, `Determinant(m)` is the cofactor expansion along the first row, the sum
over the columns `c` of `(-1)^c * m[c][0]` times the determinant of the matrix made of
rows 1..3 of the other three columns, and it equals the determinant of `m`. -/
theorem C18_determinant [CommRing R] (det3 : Matrix3 R → R)
    (hdet3 : ∀ a, det3 a = a.toMatrix.det) (m : Matrix4 R) :
    Determinant det3 m = ∑ c : Fin 4, (-1) ^ (c : ℕ) * m.mMatrix c 0 *
      (Matrix3.mk fun k r => m.mMatrix (c.succAbove k) r.succ).toMatrix.det ∧
    Determinant det3 m = m.toMatrix.det := by
  have h1 : Determinant det3 m = ∑ c : Fin 4, (-1) ^ (c : ℕ) * m.mMatrix c 0 *
      (Matrix3.mk fun k r => m.mMatrix (c.succAbove k) r.succ).toMatrix.det := by
    rw [determinant_laplace]
    exact Finset.sum_congr rfl (fun c _ => by rw [hdet3])
  refine ⟨h1, ?_⟩
  rw [h1, Matrix.det_succ_row_zero]
  rfl

/-- C18 at the identity matrix over the rationals, with the standard determinant of
`Matrix3`. -/
theorem C18_determinant_witness :
    (∀ a : Matrix3 ℚ, Determinant3 a = a.toMatrix.det) ∧
    Determinant Determinant3 (Matrix4.Identity : Matrix4 ℚ) = 1 ∧
    Determinant Determinant3 (Matrix4.Identity : Matrix4 ℚ) =
      (Matrix4.Identity : Matrix4 ℚ).toMatrix.det :=
  ⟨determinant3_eq_det, by decide!,
    (C18_determinant Determinant3 determinant3_eq_det (Matrix4.Identity : Matrix4 ℚ)).2⟩

/-- C22: if `Determinant(m)` equals `0`, `Inverse(m)` returns, and what it returns is
the matrix `Matrix4(0)`, every one of whose sixteen entries is `0`. -/
theorem C22_inverse_of_singular [Field R] [DecidableEq R] (det3 : Matrix3 R → R)
    (m : Matrix4 R) (h : Determinant det3 m = 0) :
    ∃ r, Inverse det3 m = some r ∧ ∀ i j, r.mMatrix i j = 0 := by
  refine ⟨Matrix4.splat 0, ?_, fun _ _ => rfl⟩
  unfold Inverse
  simp only [h, if_true]

/-- C22 at the matrix `Matrix4(2)` over the rationals, all of whose entries are `2`. -/
theorem C22_inverse_of_singular_witness :
    Determinant Determinant3 (Matrix4.splat 2 : Matrix4 ℚ) = 0 ∧
    ∃ r, Inverse Determinant3 (Matrix4.splat 2 : Matrix4 ℚ) = some r ∧
      ∀ i j, r.mMatrix i j = 0 :=
  ⟨by decide!, C22_inverse_of_singular Determinant3 (Matrix4.splat 2) (by decide!)⟩

/-- C23: `Transpose(m)` has entry `[i][j]` equal to `m[j][i]` for all `i`, `j` in `0..3`,
and transposing twice gives `m` back. -/
theorem C23_transpose [Zero R] (m : Matrix4 R) :
    (∀ i j, (Transpose m).mMatrix i j = m.mMatrix j i) ∧ Transpose (Transpose m) = m := by
  refine ⟨Transpose_apply m, ?_⟩
  apply Matrix4.ext
  funext i j
  rw [Transpose_apply, Transpose_apply]

/-- C29: the code breaks the index safety the claim states.  The writes `m3[xx][yy]`
made while a minor is built stay inside the three by three matrix for `i = 0, 1, 2`, but
for `i = 3` and every `j` the three writes for `x = 3` are made with `xx = 3`; for
`(i, j) = (3, 0)` the writes are listed, the last three being `m3[3][0]`, `m3[3][1]`,
`m3[3][2]`.  The loop that builds a minor is defined exactly when all the listed writes
are inside the matrix, so building a minor for `i = 3` is undefined whatever the matrix
is. -/
theorem C29_minor_write_out_of_range :
    (∀ i j : Fin 4, i ≠ 3 →
      ∀ p ∈ minorOuterWrites i j loopIndices 0, p.1 ≤ 2 ∧ p.2 ≤ 2) ∧
    (∀ j : Fin 4, ∃ p ∈ minorOuterWrites 3 j loopIndices 0, p.1 = 3) ∧
    minorOuterWrites 3 0 loopIndices 0 =
      [(0, 0), (0, 1), (0, 2), (1, 0), (1, 1), (1, 2), (2, 0), (2, 1), (2, 2),
        (3, 0), (3, 1), (3, 2)] ∧
    (∀ (m : Matrix4 ℚ) (i j : Fin 4) (m3 : Matrix3 ℚ),
      (minorOuter m i j loopIndices (m3, 0)).isSome =
        (minorOuterWrites i j loopIndices 0).all (fun p => decide (p.1 < 3 ∧ p.2 < 3))) ∧
    (∀ (m : Matrix4 ℚ) (j : Fin 4) (m3 : Matrix3 ℚ),
      minorOuter m 3 j loopIndices (m3, 0) = none) := by
  refine ⟨by decide, by decide, by decide, fun m i j m3 => minorOuter_isSome_iff m i j m3,
    fun m j m3 => minorOuter_last m j m3⟩

/-- C30: the code does not build the identity.  The body of `Matrix4()` assigns
`mMatrix[2]` twice and `mMatrix[3]` never: whatever the default constructor of `Vector4`
leaves in a column, the columns are `(1,0,0,0)`, `(0,1,0,0)`, `(0,0,0,1)` and that
default value, and the matrix differs from `Matrix4::Identity` in column `2`. -/
theorem C30_default_constructor_not_identity :
    ∀ d : Vector4 ℚ,
      (Matrix4.defaultCtor d).mMatrix 0 = ![1, 0, 0, 0] ∧
      (Matrix4.defaultCtor d).mMatrix 1 = ![0, 1, 0, 0] ∧
      (Matrix4.defaultCtor d).mMatrix 2 = ![0, 0, 0, 1] ∧
      (Matrix4.defaultCtor d).mMatrix 3 = d ∧
      (Matrix4.Identity : Matrix4 ℚ).mMatrix 2 = ![0, 0, 1, 0] ∧
      Matrix4.defaultCtor d ≠ (Matrix4.Identity : Matrix4 ℚ) := by
  intro d
  have h2 : (Matrix4.defaultCtor d).mMatrix 2 = ![0, 0, 0, 1] := by
    simp [Matrix4.defaultCtor]
  refine ⟨by simp [Matrix4.defaultCtor], by simp [Matrix4.defaultCtor], h2,
    by simp [Matrix4.defaultCtor], rfl, ?_⟩
  intro e
  have h3 : (Matrix4.defaultCtor d).mMatrix 2 2 = (Matrix4.Identity : Matrix4 ℚ).mMatrix 2 2 := by
    rw [e]
  rw [h2] at h3
  simp [Matrix4.Identity] at h3

end MatrixClaims

end Core

namespace ObjFile

section LoaderClaims

/-- C24, evaluated at the file whose only line is `v 1.0 2.0 3.0`, both loaders starting
from empty vectors: `LoadObj` stores the vertex `(1, 2, 3)`, while `LoadObj2` stores
`(0, 2, 3)`, because `mParseGeometricVertex` extracts two characters, `v` and `1`, before
it reads `x` from `.0`; the two results differ.  On a file without a geometric vertex,
with a texture coordinate, a normal vertex and a face, the two loaders agree. -/
theorem C24_loadObj2_drops_first_digit :
    LoadObj "v 1.0 2.0 3.0" ObjData.empty = some ⟨[[1, 2, 3]], [], [], []⟩ ∧
    LoadObj2 "v 1.0 2.0 3.0" ObjData.empty = some ⟨[[0, 2, 3]], [], [], []⟩ ∧
    (readChar (readChar (IStream.ofString "v 1.0 2.0 3.0".toList) none).1 none) =
      (⟨".0 2.0 3.0".toList, false, false⟩, some '1') ∧
    LoadObj2 "v 1.0 2.0 3.0" ObjData.empty ≠ LoadObj "v 1.0 2.0 3.0" ObjData.empty ∧
    LoadObj "vt 0.5 0.25\nvn 0 0 1\nf 1/1/1 2/2/1 3/3/1" ObjData.empty =
      some ⟨[], [[1 / 2, 1 / 4]], [[0, 0, 1]], [[[1, 1, 1], [2, 2, 1], [3, 3, 1]]]⟩ ∧
    LoadObj2 "vt 0.5 0.25\nvn 0 0 1\nf 1/1/1 2/2/1 3/3/1" ObjData.empty =
      LoadObj "vt 0.5 0.25\nvn 0 0 1\nf 1/1/1 2/2/1 3/3/1" ObjData.empty := by
  refine ⟨by decide!, by decide!, by decide!, by decide!, by decide!, by decide!⟩

end LoaderClaims

end ObjFile

namespace Modeler3D

section LoaderLemmas

theorem positionLoop_spec {pos : List ℚ} {P P1 : Core.Vector3 ℚ}
    (h : positionLoop pos cornerIndices P = some P1) :
    ∀ k : Fin 3, pos[k.val]?.map (fun c => c * 10) = some (P1 k) := by
  simp only [cornerIndices, positionLoop] at h
  split at h
  · cases h
  · rename_i a h0
    split at h
    · cases h
    · rename_i b h1
      split at h
      · cases h
      · rename_i c h2
        simp only [Option.some.injEq] at h
        subst h
        intro k
        fin_cases k
        · simpa [Function.update] using h0
        · simpa [Function.update] using h1
        · simpa [Function.update] using h2

theorem cornerLoop_spec {positions : List (List ℚ)} {face : List (List Int)}
    {js : List (Fin 3)} (hjs : js.Nodup) {verts verts1 : Fin 3 → VertexPosition3Normal3}
    (h : cornerLoop positions face js verts = some verts1) :
    (∀ j ∈ js, IsCornerPosition positions face j (verts1 j).Position) ∧
    (∀ j, j ∉ js → verts1 j = verts j) := by
  induction js generalizing verts with
  | nil =>
    simp only [cornerLoop, Option.some.injEq] at h
    subst h
    exact ⟨fun j hj => absurd hj (List.not_mem_nil j), fun _ _ => rfl⟩
  | cons j js ih =>
    rw [cornerLoop] at h
    split at h
    · cases h
    · rename_i set0 h0
      split at h
      · cases h
      · rename_i n h1
        split at h
        · cases h
        · rename_i hn
          split at h
          · cases h
          · rename_i pos h2
            split at h
            · cases h
            · rename_i P h3
              obtain ⟨hnd, hjs1⟩ := List.nodup_cons.mp hjs
              obtain ⟨ih1, ih2⟩ := ih hjs1 h
              refine ⟨fun j1 hj1 => ?_, fun j1 hj1 => ?_⟩
              · rcases List.mem_cons.mp hj1 with rfl | hj1
                · rw [ih2 j1 hnd]
                  simp only [Function.update_same]
                  exact ⟨set0, n, pos, h0, h1, by omega, h2, positionLoop_spec h3⟩
                · exact ih1 j1 hj1
              · have hne : j1 ≠ j := fun e => hj1 (e ▸ List.mem_cons_self _ _)
                rw [ih2 j1 (fun hm => hj1 (List.mem_cons_of_mem _ hm))]
                simp [Function.update, hne]

theorem faceLoop_spec {Cross : Core.Vector3 ℚ → Core.Vector3 ℚ → Core.Vector3 ℚ}
    {Normalize : Core.Vector3 ℚ → Core.Vector3 ℚ} {verts0 : VertexPosition3Normal3}
    {positions : List (List ℚ)} {faces : List (List (List Int))} {is : List Nat}
    {vertices vs : List VertexPosition3Normal3}
    (h : faceLoop Cross Normalize verts0 positions faces is vertices = some vs) :
    vs.length = vertices.length + 3 * is.length ∧
    (∀ t, t < vertices.length → vs[t]? = vertices[t]?) ∧
    ∀ m i, is[m]? = some i → ∀ j : Fin 3, ∃ face v, faces[i]? = some face ∧
      vs[vertices.length + 3 * m + j.val]? = some v ∧
      IsCornerPosition positions face j v.Position := by
  induction is generalizing vertices with
  | nil =>
    simp only [faceLoop, Option.some.injEq] at h
    subst h
    exact ⟨by simp, fun _ _ => rfl, fun m i hm => by simp at hm⟩
  | cons i is ih =>
    rw [faceLoop] at h
    split at h
    · cases h
    · rename_i face h0
      split at h
      · cases h
      · rename_i verts h1
        obtain ⟨hlen, hpre, hrest⟩ := ih h
        obtain ⟨hc, _⟩ := cornerLoop_spec (by decide) h1
        simp only [List.length_append, List.length_cons, List.length_nil] at hlen hpre hrest
        refine ⟨by simp only [List.length_cons]; omega, fun t ht => ?_, fun m i1 hm j => ?_⟩
        · rw [hpre t (by omega), List.getElem?_append_left ht]
        · cases m with
          | zero =>
            simp only [List.getElem?_cons_zero, Option.some.injEq] at hm
            subst hm
            have hj : j.val < 3 := j.isLt
            have hcj := hc j (by fin_cases j <;> simp [cornerIndices])
            have key : ∃ v, vs[vertices.length + 3 * 0 + j.val]? = some v ∧
                v.Position = (verts j).Position := by
              rw [hpre _ (by omega), Nat.mul_zero, Nat.add_zero,
                List.getElem?_append_right (Nat.le_add_right _ _), Nat.add_sub_cancel_left]
              fin_cases j <;> exact ⟨_, rfl, rfl⟩
            obtain ⟨v, hv, hvp⟩ := key
            exact ⟨face, v, h0, hv, by rw [hvp]; exact hcj⟩
          | succ m1 =>
            simp only [List.getElem?_cons_succ] at hm
            obtain ⟨face1, v, hf, hv, hcv⟩ := hrest m1 i1 hm j
            refine ⟨face1, v, hf, ?_, hcv⟩
            rw [← hv]
            congr 1
            omega

theorem LoadObj_spec {Cross : Core.Vector3 ℚ → Core.Vector3 ℚ → Core.Vector3 ℚ}
    {Normalize : Core.Vector3 ℚ → Core.Vector3 ℚ} {verts0 : VertexPosition3Normal3}
    {text : String} {vertices : List VertexPosition3Normal3}
    (h : LoadObj Cross Normalize verts0 text = some vertices) :
    ∃ objFile, ObjFile.LoadObj text ObjFile.ObjData.empty = some objFile ∧
      vertices.length = 3 * objFile.mFaceElements.length ∧
      ∀ i, i < objFile.mFaceElements.length → ∀ j : Fin 3, ∃ face v,
        objFile.mFaceElements[i]? = some face ∧ vertices[3 * i + j.val]? = some v ∧
        IsCornerPosition objFile.mGeometricVertices face j v.Position := by
  unfold LoadObj at h
  split at h
  · cases h
  · rename_i objFile hobj
    obtain ⟨hlen, _, hrest⟩ := faceLoop_spec h
    refine ⟨objFile, hobj, by simpa using hlen, fun i hi j => ?_⟩
    obtain ⟨face, v, hf, hv, hc⟩ := hrest i i (by simp [List.getElem?_range hi]) j
    exact ⟨face, v, hf, by simpa using hv, hc⟩

end LoaderLemmas

section ViewerClaims

/-- C31: `Modeler3D::LoadObj` does not take the position of corner `j` from the `j`-th
group of the face line.  Whenever it returns, it has emitted three vertices per face, and
vertex `j` of triangle `i` is ten times `positions[faces[i][0][j] - 1]`: the index is
entry `j` of the first vertex set, and it is in range.  For `plainTriangle`, a face of
plain indices, `FileIO::LoadObj` stores `1, 2, 3` in every vertex set and the positions
are the ones the claim states.  For `groupedTriangle` the vertex sets are `1/1/1`,
`2/1/1`, `3/1/1` and all three vertices get `(10, 20, 30)`, ten times vertex 1, where
the claim states ten times vertex 1, 2 and 3.  For `texturedTriangle`, whose geometric-vertex indices are
all between 1 and 3, the texture index 4 is used on the three positions and the access is
out of range. -/
theorem C31_corner_index_from_first_vertex_set :
    (∀ (Cross : Core.Vector3 ℚ → Core.Vector3 ℚ → Core.Vector3 ℚ)
        (Normalize : Core.Vector3 ℚ → Core.Vector3 ℚ) (verts0 : VertexPosition3Normal3)
        (text : String) (vertices : List VertexPosition3Normal3),
      LoadObj Cross Normalize verts0 text = some vertices →
      ∃ objFile, ObjFile.LoadObj text ObjFile.ObjData.empty = some objFile ∧
        vertices.length = 3 * objFile.mFaceElements.length ∧
        ∀ i, i < objFile.mFaceElements.length → ∀ j : Fin 3, ∃ face set0 n pos v,
          objFile.mFaceElements[i]? = some face ∧ face[0]? = some set0 ∧
          set0[j.val]? = some n ∧ 1 ≤ n ∧
          objFile.mGeometricVertices[(n - 1).toNat]? = some pos ∧
          vertices[3 * i + j.val]? = some v ∧
          ∀ k : Fin 3, pos[k.val]?.map (fun c => c * 10) = some (v.Position k)) ∧
    ObjFile.LoadObj plainTriangle ObjFile.ObjData.empty =
      some ⟨[[1, 2, 3], [4, 5, 6], [7, 8, 9]], [], [],
        [[[1, 2, 3], [1, 2, 3], [1, 2, 3]]]⟩ ∧
    (∀ Cross Normalize verts0,
      (LoadObj Cross Normalize verts0 plainTriangle).map positionsOf =
        some [[10, 20, 30], [40, 50, 60], [70, 80, 90]]) ∧
    ObjFile.LoadObj groupedTriangle ObjFile.ObjData.empty =
      some ⟨[[1, 2, 3], [4, 5, 6], [7, 8, 9]], [[0, 0]], [[0, 0, 1]],
        [[[1, 1, 1], [2, 1, 1], [3, 1, 1]]]⟩ ∧
    (∀ Cross Normalize verts0,
      (LoadObj Cross Normalize verts0 groupedTriangle).map positionsOf =
        some [[10, 20, 30], [10, 20, 30], [10, 20, 30]]) ∧
    ObjFile.LoadObj texturedTriangle ObjFile.ObjData.empty =
      some ⟨[[1, 2, 3], [4, 5, 6], [7, 8, 9]], [[0, 0], [1, 0], [0, 1], [1, 1]], [[0, 0, 1]],
        [[[1, 4, 1], [2, 4, 1], [3, 4, 1]]]⟩ ∧
    (∀ Cross Normalize verts0, LoadObj Cross Normalize verts0 texturedTriangle = none) := by
  have hp : ObjFile.LoadObj plainTriangle ObjFile.ObjData.empty =
      some ⟨[[1, 2, 3], [4, 5, 6], [7, 8, 9]], [], [],
        [[[1, 2, 3], [1, 2, 3], [1, 2, 3]]]⟩ := by decide!
  have hg : ObjFile.LoadObj groupedTriangle ObjFile.ObjData.empty =
      some ⟨[[1, 2, 3], [4, 5, 6], [7, 8, 9]], [[0, 0]], [[0, 0, 1]],
        [[[1, 1, 1], [2, 1, 1], [3, 1, 1]]]⟩ := by decide!
  have ht : ObjFile.LoadObj texturedTriangle ObjFile.ObjData.empty =
      some ⟨[[1, 2, 3], [4, 5, 6], [7, 8, 9]], [[0, 0], [1, 0], [0, 1], [1, 1]], [[0, 0, 1]],
        [[[1, 4, 1], [2, 4, 1], [3, 4, 1]]]⟩ := by decide!
  refine ⟨?_, hp, ?_, hg, ?_, ht, ?_⟩
  · intro Cross Normalize verts0 text vertices h
    obtain ⟨objFile, hobj, hlen, hrest⟩ := LoadObj_spec h
    refine ⟨objFile, hobj, hlen, fun i hi j => ?_⟩
    obtain ⟨face, v, hf, hv, set0, n, pos, h0, h1, hn, h2, h3⟩ := hrest i hi j
    exact ⟨face, set0, n, pos, v, hf, h0, h1, hn, h2, hv, h3⟩
  · intro Cross Normalize verts0
    simp [LoadObj, hp, faceLoop, cornerLoop, positionLoop, cornerIndices, positionsOf,
      List.range_succ, Function.update]
    norm_num
  · intro Cross Normalize verts0
    simp [LoadObj, hg, faceLoop, cornerLoop, positionLoop, cornerIndices, positionsOf,
      List.range_succ, Function.update]
    norm_num
  · intro Cross Normalize verts0
    simp [LoadObj, ht, faceLoop, cornerLoop, positionLoop, cornerIndices,
      List.range_succ, Function.update]

end ViewerClaims

end Modeler3D
